import Mathlib

/-!
# Redaction engine of `pkg/redact`

A shallow embedding of `redact.go`, `single_line.go` and `multi_line.go`.

* Go strings are Lean `String`s; `len` is the UTF-8 byte size.
* The host regex engine (`regexp`) and the glob library are external: a compiled
  regex is a record of the three methods the package calls, and compilation is a
  function of the host. The expansion of a replacement template is written out after
  `(*Regexp).expand` and `extract` of the Go standard library.
* A stage runs against an explicit state: the upstream `bufio.Reader`, the pipe
  writer it prints to, and the sequence of `addRedaction` calls it has made. The
  loops of the stages take fuel; both stages are shown to return on every input.
* A call that may panic has an `Outcome`.
-/

namespace redact

/-! ## Errors, readers, writers -/

/-- Go `error` values: `io.EOF`, some other error, or an error wrapped by
`errors.Wrap`/`errors.Wrapf` (format string and arguments kept unformatted). -/
inductive GoError where
  | EOF : GoError
  | other (msg : String) : GoError
  | wrap (cause : GoError) (format : String) (args : List String) : GoError
  deriving DecidableEq, Repr

/-- State of a `bufio.Reader` over the upstream: the results the next calls of
`ReadLine` will deliver (`(line, isPrefix)`), and the error delivered once they are
used up (`io.EOF` for a stream that simply ends). -/
structure Reader where
  pending : List (String × Bool)
  err : GoError
  deriving Repr

/-- Loop of `readLine` (redact.go:380-391) over the results `r.ReadLine()` is still to
deliver: a pass takes the next result, or the error `err` of the stream when there is
none left; `completeLine` is the accumulator. The second component is what remains to
be delivered. -/
def readLineLoop (err : GoError) :
    List (String × Bool) → String → (String × Option GoError) × List (String × Bool)
  | [], _ => (("", some err), [])
  | (line, isPrefix) :: rest, completeLine =>
    let completeLine := completeLine ++ line
    if !isPrefix then ((completeLine, none), rest)
    else readLineLoop err rest completeLine

/-- `readLine` (redact.go:378-393): reassemble one logical line. -/
def readLine (r : Reader) : (String × Option GoError) × Reader :=
  let res := readLineLoop r.err r.pending ""
  (res.1, { r with pending := res.2 })

/-- Writing end of the `io.Pipe` of a stage. `written` holds the lines delivered
downstream, each of them followed by a newline on the wire; `credit` is the number of
further writes the downstream reader accepts before it is closed (`none`: it is never
closed). -/
structure PipeWriter where
  written : List String
  credit : Option Nat
  deriving Repr

/-- One `fmt.Fprintf(writer, "%s\n", ...)` or `fmt.Fprintf(writer, "%s\n%s\n", ...)`:
a single write of the given lines, each terminated by a newline. It fails with
`io.ErrClosedPipe` once the downstream reader is closed. -/
def PipeWriter.Fprintf (w : PipeWriter) (lines : List String) : PipeWriter × Option GoError :=
  match w.credit with
  | none => ({ w with written := w.written ++ lines }, none)
  | some 0 => (w, some (GoError.other "io: read/write on closed pipe"))
  | some (n + 1) => ({ written := w.written ++ lines, credit := some n }, none)

/-! ## Regexes and redactions -/

/-- A compiled `*regexp.Regexp`, as far as the package uses it. `SubexpNames` has the
name of the whole match (the empty string) at index 0. -/
structure Regexp where
  MatchString : String → Bool
  ReplaceAllString : String → String → String
  SubexpNames : List String

/-- The `Redaction` record (redact.go:42-48). -/
structure Redaction where
  RedactorName : String
  CharactersRemoved : Int
  Line : Int
  File : String
  IsDefaultRedactor : Bool
  deriving DecidableEq, Repr

/-- Go `len` of a string: its number of bytes. -/
def len (s : String) : Int := s.utf8ByteSize

/-- `fmt.Sprintf("%d", i)` for a non-negative `int`. -/
def fmtInt (i : Nat) : String := toString i

/-- `getReplacementPattern` (redact.go:359-376). -/
def getReplacementPattern (re : Regexp) (maskText : String) : String :=
  re.SubexpNames.enum.foldl
    (fun substStr p =>
      if p.1 = 0 then substStr
      else if p.2 = "" then substStr ++ "$" ++ fmtInt p.1
      else if p.2 = "mask" then substStr ++ maskText
      else if p.2 = "drop" then substStr
      else substStr ++ "$\x7b" ++ p.2 ++ "\x7d")
    ""

/-- State a running stage works on. `ledger` lists the `addRedaction` calls made so
far, in program order. -/
structure Stage where
  reader : Reader
  writer : PipeWriter
  ledger : List Redaction
  deriving Repr

/-- Print to the stage's writer, dropping the result of `Fprintf` as the code does. -/
def Stage.Fprintf (st : Stage) (lines : List String) : Stage :=
  { st with writer := (st.writer.Fprintf lines).1 }

/-- `addRedaction` (redact.go:395-405) as seen from the calling stage. -/
def Stage.addRedaction (st : Stage) (r : Redaction) : Stage :=
  { st with ledger := st.ledger ++ [r] }

/-! ## Single-line stage -/

/-- `SingleLineRedactor` (single_line.go:16-22). -/
structure SingleLineRedactor where
  re : Regexp
  maskText : String
  filePath : String
  redactName : String
  isDefault : Bool

/-- The `for` loop of `SingleLineRedactor.Redact` (single_line.go:48-79). `lineNum` is
the counter before the increment at the top of the body. The result is the final state
and the value of `err` when the goroutine returns; `none` means the fuel ran out. -/
def SingleLineRedactor.loop (r : SingleLineRedactor) (substStr : String) :
    Nat → Nat → Stage → Option (Stage × Option GoError)
  | 0, _, _ => none
  | fuel + 1, lineNum, st =>
    let lineNum := lineNum + 1
    let res := readLine st.reader
    let line := res.1.1
    let err := res.1.2
    let st := { st with reader := res.2 }
    if err.isSome then some (st, err)
    else if !r.re.MatchString line then
      SingleLineRedactor.loop r substStr fuel lineNum (st.Fprintf [line])
    else
      let clean := r.re.ReplaceAllString line substStr
      let st := st.Fprintf [clean]
      if err.isSome then some (st, err)
      else
        let st :=
          if clean ≠ line then
            st.addRedaction
              { RedactorName := r.redactName
                CharactersRemoved := len line - len clean
                Line := lineNum
                File := r.filePath
                IsDefaultRedactor := r.isDefault }
          else st
        SingleLineRedactor.loop r substStr fuel lineNum st

/-- What the consumer of a stage observes when the stage's goroutine has returned. -/
structure StageResult where
  written : List String
  closeErr : Option GoError
  ledger : List Redaction
  reader : Reader
  deriving Repr

/-- `SingleLineRedactor.Redact` (single_line.go:28-83): the goroutine run to its end on
input `input`, printing to `writer`. The deferred function closes the writer cleanly
when `err` is `io.EOF` and with `err` otherwise (`CloseWithError(nil)` is a clean close
as well). Every pass through the loop uses up a segment of the input, so the fuel given
here is enough. -/
def SingleLineRedactor.Redact (r : SingleLineRedactor) (input : Reader) (writer : PipeWriter) :
    Option StageResult :=
  let substStr := getReplacementPattern r.re r.maskText
  match SingleLineRedactor.loop r substStr (input.pending.length + 1) 0
      { reader := input, writer := writer, ledger := [] } with
  | none => none
  | some (st, err) =>
    some
      { written := st.writer.written
        closeErr := if err = some GoError.EOF then none else err
        ledger := st.ledger
        reader := st.reader }

/-- Bytes the consumer of a stage has read: every emitted line and its newline. -/
def StageResult.bytes (res : StageResult) : String :=
  String.join (res.written.map (fun l => l ++ "\n"))

/-- A pipe whose reader is never closed and has delivered nothing so far. -/
def PipeWriter.fresh : PipeWriter := { written := [], credit := none }

/-- An upstream that delivers the given lines and then fails with `err`. A line is given
by the segments `ReadLine` delivers with `isPrefix` set, in order, and the segment that
ends it. -/
def Reader.ofSegments (lines : List (List String × String)) (err : GoError) : Reader :=
  { pending := (lines.map (fun l => l.1.map (fun s => (s, true)) ++ [(l.2, false)])).flatten
    err := err }

/-- The line the given segments make up. -/
def Reader.lineOf (l : List String × String) : String :=
  String.join l.1 ++ l.2

/-- An upstream that delivers the given lines, each in one `ReadLine` result, and then
fails with `err`. -/
def Reader.ofLines (lines : List String) (err : GoError) : Reader :=
  Reader.ofSegments (lines.map (fun l => ([], l))) err

/-- Rewrite of one line by a single-line stage. -/
def SingleLineRedactor.rewrite (r : SingleLineRedactor) (line : String) : String :=
  if r.re.MatchString line then
    r.re.ReplaceAllString line (getReplacementPattern r.re r.maskText)
  else line

/-- The `Redaction` a single-line stage records for line number `i` with content `line`. -/
def SingleLineRedactor.redactionAt (r : SingleLineRedactor) (i : Nat) (line : String) : Redaction :=
  { RedactorName := r.redactName
    CharactersRemoved := len line - len (r.rewrite line)
    Line := i
    File := r.filePath
    IsDefaultRedactor := r.isDefault }

/-! ## Multi-line stage -/

/-- `MultiLineRedactor` (multi_line.go:16-23). -/
structure MultiLineRedactor where
  re1 : Regexp
  re2 : Regexp
  maskText : String
  filePath : String
  redactName : String
  isDefault : Bool

/-- `getNextTwoLines` (multi_line.go:96-117); `curLine2 = none` is the nil pointer. -/
def getNextTwoLines (reader : Reader) (curLine2 : Option String) :
    (String × String × Option GoError) × Reader :=
  match curLine2 with
  | none =>
    let res1 := readLine reader
    let line1 := res1.1.1
    if res1.1.2.isSome then ((line1, "", res1.1.2), res1.2)
    else
      let res2 := readLine res1.2
      ((line1, res2.1.1, res2.1.2), res2.2)
  | some cur =>
    let res := readLine reader
    ((cur, res.1.1, res.1.2), res.2)

/-- The loop `for err == nil` of `MultiLineRedactor.Redact` with the flush that follows
it (multi_line.go:54-90). Arguments after the fuel: the window `line1`, `line2`, the
variable `err`, `flushLastLine`, `lineNum` and the stage state. The result is the final
state and the value of `err` when the goroutine returns; `none` means the fuel ran
out. -/
def MultiLineRedactor.loop (r : MultiLineRedactor) (substStr : String) :
    Nat → String → String → Option GoError → Bool → Nat → Stage →
      Option (Stage × Option GoError)
  | 0, _, _, _, _, _, _ => none
  | fuel + 1, line1, line2, err, flushLastLine, lineNum, st =>
    if err.isSome then
      some (if flushLastLine then st.Fprintf [line1] else st, err)
    else
      let lineNum := lineNum + 1
      if !r.re1.MatchString line1 then
        let st := st.Fprintf [line1]
        let nxt := getNextTwoLines st.reader (some line2)
        MultiLineRedactor.loop r substStr fuel nxt.1.1 nxt.1.2.1 nxt.1.2.2 true lineNum
          { st with reader := nxt.2 }
      else
        let clean := r.re2.ReplaceAllString line2 substStr
        let st := st.Fprintf [line1, clean]
        if err.isSome then some (st, err)
        else
          let st :=
            if clean ≠ line2 then
              st.addRedaction
                { RedactorName := r.redactName
                  CharactersRemoved := len line2 - len clean
                  Line := lineNum
                  File := r.filePath
                  IsDefaultRedactor := r.isDefault }
            else st
          let nxt := getNextTwoLines st.reader none
          MultiLineRedactor.loop r substStr fuel nxt.1.1 nxt.1.2.1 nxt.1.2.2 false lineNum
            { st with reader := nxt.2 }

/-- `MultiLineRedactor.Redact` (multi_line.go:29-94): the goroutine run to its end.
On return the writer is closed with `err`; a consumer sees `io.EOF` and `nil` alike as
the clean end of the stream. -/
def MultiLineRedactor.Redact (r : MultiLineRedactor) (input : Reader) (writer : PipeWriter) :
    Option StageResult :=
  let substStr := getReplacementPattern r.re2 r.maskText
  let fst := getNextTwoLines input none
  let line1 := fst.1.1
  let line2 := fst.1.2.1
  let err := fst.1.2.2
  let st : Stage := { reader := fst.2, writer := writer, ledger := [] }
  if err.isSome then
    let st := (st.Fprintf [line1]).Fprintf [line2]
    some
      { written := st.writer.written
        closeErr := if err = some GoError.EOF then none else err
        ledger := st.ledger
        reader := st.reader }
  else
    match MultiLineRedactor.loop r substStr (input.pending.length + 1) line1 line2 err false 1 st with
    | none => none
    | some (st, err) =>
      some
        { written := st.writer.written
          closeErr := if err = some GoError.EOF then none else err
          ledger := st.ledger
          reader := st.reader }

/-- Rewrite of a value line by a multi-line stage. -/
def MultiLineRedactor.rewrite (r : MultiLineRedactor) (line : String) : String :=
  r.re2.ReplaceAllString line (getReplacementPattern r.re2 r.maskText)

/-- Lines a multi-line stage emits from the moment its window holds `a`, `b` and the
lines `rest` are still to be read. -/
def MultiLineRedactor.emitted (r : MultiLineRedactor) :
    String → String → List String → List String
  | a, b, [] => if r.re1.MatchString a then [a, r.rewrite b] else [a, b]
  | a, b, [c] =>
    if r.re1.MatchString a then [a, r.rewrite b]
    else a :: MultiLineRedactor.emitted r b c []
  | a, b, c :: d :: rest =>
    if r.re1.MatchString a then a :: r.rewrite b :: MultiLineRedactor.emitted r c d rest
    else a :: MultiLineRedactor.emitted r b c (d :: rest)

/-- The `Redaction` a multi-line stage records when `lineNum` is `i` and the value line
is `line2`. -/
def MultiLineRedactor.redactionAt (r : MultiLineRedactor) (i : Nat) (line2 : String) :
    Redaction :=
  { RedactorName := r.redactName
    CharactersRemoved := len line2 - len (r.rewrite line2)
    Line := i
    File := r.filePath
    IsDefaultRedactor := r.isDefault }

/-- Redactions a multi-line stage records from the moment its window holds `a`, `b`,
`lineNum` is `n` and the lines `rest` are still to be read. -/
def MultiLineRedactor.recorded (r : MultiLineRedactor) :
    Nat → String → String → List String → List Redaction
  | n, a, b, [] =>
    if r.re1.MatchString a then
      (if r.rewrite b ≠ b then [r.redactionAt (n + 1) b] else [])
    else []
  | n, a, b, [c] =>
    if r.re1.MatchString a then
      (if r.rewrite b ≠ b then [r.redactionAt (n + 1) b] else [])
    else MultiLineRedactor.recorded r (n + 1) b c []
  | n, a, b, c :: d :: rest =>
    if r.re1.MatchString a then
      (if r.rewrite b ≠ b then [r.redactionAt (n + 1) b] else []) ++
        MultiLineRedactor.recorded r (n + 1) c d rest
    else MultiLineRedactor.recorded r (n + 1) b c (d :: rest)

/-- Whether the greedy pairing of selector lines with the value lines after them, done
from the first line on, ends with a pair followed by exactly one more line. -/
def MultiLineRedactor.loneLineAfterPair (r : MultiLineRedactor) : List String → Bool
  | a :: b :: rest =>
    if r.re1.MatchString a then
      (match rest with
        | [_] => true
        | _ => MultiLineRedactor.loneLineAfterPair r rest)
    else MultiLineRedactor.loneLineAfterPair r (b :: rest)
  | _ => false

/-- The compiled pattern `^(?P<mask>lit)$` for a literal `lit` free of metacharacters,
on templates free of `$`: it matches the lines equal to `lit` and replaces such a line
by the template. -/
def Regexp.wholeLine (lit : String) : Regexp :=
  { MatchString := fun s => s = lit
    ReplaceAllString := fun s repl => if s = lit then repl else s
    SubexpNames := ["", "mask"] }

/-- The canonical mask (redact.go:18). -/
def MASK_TEXT : String := "***HIDDEN***"

/-! ## Template expansion of the host regex engine -/

/-- The two Unicode predicates `regexp` consults when it reads a template:
`unicode.IsLetter` and `unicode.IsDigit`. -/
structure Unicode where
  IsLetter : Char → Bool
  IsDigit : Char → Bool

/-- The predicates of `Unicode` restricted to ASCII letters and digits. -/
def Unicode.ascii : Unicode :=
  { IsLetter := Char.isAlpha, IsDigit := Char.isDigit }

/-- The runes a group reference in a template is made of: letters, digits and `_`. -/
def Unicode.isWord (U : Unicode) (c : Char) : Bool :=
  U.IsLetter c || U.IsDigit c || c = '_'

/-- First loop of `regexp.extract`: the leading run of letters, digits and `_`, and what
follows it. -/
def extract.span (U : Unicode) : List Char → List Char × List Char
  | [] => ([], [])
  | c :: cs =>
    if U.isWord c then ((c :: (extract.span U cs).1), (extract.span U cs).2)
    else ([], c :: cs)

/-- Second loop of `regexp.extract`: the value of a name made of the digits `0`-`9`,
read while the value is below `1e8`; `none` stands for `num = -1`. -/
def extract.number : List Char → Nat → Option Nat
  | [], num => some num
  | c :: cs, num =>
    if c < '0' ∨ '9' < c ∨ 100000000 ≤ num then none
    else extract.number cs (num * 10 + (c.toNat - '0'.toNat))

/-- `regexp.extract`: the group reference at the head of `str`, which follows a `$` of a
template. It is `name` or `\x7bname\x7d`; the result is the name, its number when it is
one without leading zeros, and the rest of the template; `none` when there is no
reference. -/
def extract (U : Unicode) (str : List Char) :
    Option (List Char × Option Nat × List Char) :=
  match str with
  | [] => none
  | c :: cs =>
    let brace := decide (c = '\x7b')
    let str := if brace then cs else c :: cs
    let name := (extract.span U str).1
    let after := (extract.span U str).2
    if name = [] then none
    else
      let num :=
        if name.head? = some '0' ∧ 1 < name.length then none else extract.number name 0
      if brace then
        match after with
        | '\x7d' :: rest => some (name, num, rest)
        | _ => none
      else some (name, num, after)

/-- Text of group `i` of a match: `caps` lists, for the groups 0..k, the text the group
has captured, `none` for a group that took no part in the match. -/
def capture (caps : List (Option String)) (i : Nat) : List Char :=
  match caps.get? i with
  | some (some t) => t.data
  | _ => []

/-- Text of the leftmost group called `name` that took part in the match. -/
def namedCapture : List String → List (Option String) → String → List Char
  | n :: ns, some t :: cs, name => if name = n then t.data else namedCapture ns cs name
  | _ :: ns, none :: cs, name => namedCapture ns cs name
  | _, _, _ => []

/-- Loop of `(*Regexp).expand` of the Go standard library, character by character:
text is copied, `$$` is a dollar sign, `$name` and `$\x7bname\x7d` are replaced by the
text of the group of that number or name (nothing when there is none), and a `$` that
starts no reference is copied. Every pass takes at least one character off the
template, so the length of the template is fuel enough. -/
def expandLoop (U : Unicode) (names : List String) (caps : List (Option String)) :
    Nat → List Char → List Char
  | 0, template => template
  | _ + 1, [] => []
  | fuel + 1, c :: rest =>
    if c ≠ '$' then c :: expandLoop U names caps fuel rest
    else if rest.head? = some '$' then '$' :: expandLoop U names caps fuel rest.tail
    else
      match extract U rest with
      | none => '$' :: expandLoop U names caps fuel rest
      | some (_, some num, rest2) => capture caps num ++ expandLoop U names caps fuel rest2
      | some (name, none, rest2) =>
        namedCapture names caps (String.mk name) ++ expandLoop U names caps fuel rest2

/-- What `ReplaceAllString` puts in the place of one match: the expansion of the
template on the groups of the match. -/
def Regexp.expand (U : Unicode) (re : Regexp) (caps : List (Option String))
    (template : String) : String :=
  String.mk (expandLoop U re.SubexpNames caps template.length template.data)

/-- Characters `getReplacementPattern` appends to the template for group `i` called
`name`. -/
def templatePiece (maskText : String) (i : Nat) (name : String) : List Char :=
  if name = "" then '$' :: (fmtInt i).data
  else if name = "mask" then maskText.data
  else if name = "drop" then []
  else '$' :: '\x7b' :: (name.data ++ ['\x7d'])

/-- What group `i` called `name` contributes to a substitution: its own text when it has
no name, the mask when it is called `mask`, nothing when it is called `drop`, and
otherwise the text of the leftmost group of that name that took part in the match. -/
def groupValue (names : List String) (caps : List (Option String)) (maskText : String)
    (i : Nat) (name : String) : List Char :=
  if name = "" then capture caps i
  else if name = "mask" then maskText.data
  else if name = "drop" then []
  else namedCapture names caps name

/-- A piece of a match: its text, and the capture group it lies in, `none` for text
outside every group. -/
structure Piece where
  group : Option Nat
  text : String
  deriving DecidableEq, Repr

/-- The groups 0..k of a match made of the given pieces (groups side by side, none
inside another one): group 0 is the whole text. -/
def Piece.caps (pieces : List Piece) (k : Nat) : List (Option String) :=
  some (String.join (pieces.map (fun p => p.text))) ::
    (List.range k).map (fun i =>
      (pieces.find? (fun p => p.group = some (i + 1))).map (fun p => p.text))

/-- The matched text with the text of the groups named `mask` replaced by the mask, the
text of the groups named `drop` deleted and every other part kept. -/
def Piece.masked (names : List String) (maskText : String) (pieces : List Piece) : String :=
  String.join (pieces.map (fun p =>
    match p.group with
    | none => p.text
    | some i =>
      if names.get? i = some "mask" then maskText
      else if names.get? i = some "drop" then ""
      else p.text))

/-- The compiled pattern `a(?P<mask>b)c`, as far as its group names go. -/
def Regexp.aMaskBc : Regexp :=
  { (Regexp.wholeLine "abc") with SubexpNames := ["", "mask"] }

/-! ## Chain construction -/

/-- Result of a call that may return normally, return a Go `error`, or panic. -/
inductive Outcome (α : Type) where
  | ok (val : α) : Outcome α
  | error (err : GoError) : Outcome α
  | panic (msg : String) : Outcome α

/-- Sequencing of calls: an error or a panic ends the computation. -/
def Outcome.bind {α β : Type} (x : Outcome α) (f : α → Outcome β) : Outcome β :=
  match x with
  | Outcome.ok a => f a
  | Outcome.error e => Outcome.error e
  | Outcome.panic m => Outcome.panic m

/-- A compiled `glob.Glob`. -/
structure Glob where
  Match : String → Bool

/-- The libraries and constants the package is linked against: `regexp.Compile`,
`glob.Compile` with its separator, the regexes the package-level `regexp.MustCompile`
calls of the built-in catalogue have produced at initialisation (given by pattern), and
the two directory constants of package `constants`. -/
structure Host where
  Compile : String → Except GoError Regexp
  globCompile : String → Char → Except GoError Glob
  catalogue : String → Regexp
  CLUSTER_RESOURCES_DIR : String
  CLUSTER_RESOURCES_CUSTOM_RESOURCES : String

/-- `regexp.MustCompile`: like `Compile`, but panics when the expression cannot be
parsed (the panic message is cut short here). -/
def Host.MustCompile (H : Host) (str : String) : Outcome Regexp :=
  match H.Compile str with
  | Except.ok re => Outcome.ok re
  | Except.error _ => Outcome.panic ("regexp: Compile(" ++ str ++ ")")

/-- `troubleshootv1beta2.Regex`, a regex removal of a spec. -/
structure troubleshootv1beta2.Regex where
  Selector : String
  Redactor : String
  deriving DecidableEq, Repr

/-- `troubleshootv1beta2.FileSelector`. -/
structure troubleshootv1beta2.FileSelector where
  File : String
  Files : List String
  deriving DecidableEq, Repr

/-- `troubleshootv1beta2.Removals`. -/
structure troubleshootv1beta2.Removals where
  Regex : List troubleshootv1beta2.Regex
  Values : List String
  YamlPath : List String
  deriving DecidableEq, Repr

/-- `troubleshootv1beta2.Redact`, a redact spec, with the fields redact.go reads. -/
structure troubleshootv1beta2.Redact where
  Name : String
  FileSelector : troubleshootv1beta2.FileSelector
  Removals : troubleshootv1beta2.Removals
  deriving DecidableEq, Repr

/-- `YamlRedactor`, with the fields redact.go sets. -/
structure YamlRedactor where
  maskPath : List String
  filePath : String
  redactName : String
  deriving DecidableEq, Repr

/-- Pieces of a list of characters between the occurrences of `sep`; `cur` holds the
characters of the current piece, last one first. -/
def splitAt (sep : Char) : List Char → List Char → List String
  | [], cur => [String.mk cur.reverse]
  | c :: cs, cur =>
    if c = sep then String.mk cur.reverse :: splitAt sep cs []
    else splitAt sep cs (c :: cur)

/-- Modelled from the spec: `NewYamlRedactor` is not among the sources. The spec has a
YAML-path removal be a dotted path whose segments may be `*`, and a YAML-path redactor
hold the path segments, a file glob and a name: the path is cut at every dot. -/
def NewYamlRedactor (yamlPath filePath name : String) : YamlRedactor :=
  { maskPath := splitAt '.' yamlPath.data [], filePath := filePath, redactName := name }

/-- Modelled from the spec: the redactor `literalString` builds is not among the
sources. The spec has a literal removal become a redactor of the exact, case-sensitive
substring; the record keeps what it is built from. -/
structure literalRedactor where
  matchString : String
  filePath : String
  redactName : String
  deriving DecidableEq, Repr

/-- Modelled from the spec: `literalString` is not among the sources; see
`literalRedactor`. -/
def literalString (matchString path name : String) : literalRedactor :=
  { matchString := matchString, filePath := path, redactName := name }

/-- The implementations of the interface `Redactor` that chains are made of. -/
inductive Redactor where
  | singleLine (r : SingleLineRedactor) : Redactor
  | multiLine (r : MultiLineRedactor) : Redactor
  | yaml (r : YamlRedactor) : Redactor
  | literal (r : literalRedactor) : Redactor

/-- `NewSingleLineRedactor` (single_line.go:24-26). -/
def NewSingleLineRedactor (re : Regexp) (maskText path name : String) (isDefault : Bool) :
    SingleLineRedactor × Option GoError :=
  ({ re := re, maskText := maskText, filePath := path, redactName := name,
     isDefault := isDefault }, none)

/-- `NewMultiLineRedactor` (multi_line.go:25-27). -/
def NewMultiLineRedactor (re1 re2 : Regexp) (maskText path name : String) (isDefault : Bool) :
    MultiLineRedactor × Option GoError :=
  ({ re1 := re1, re2 := re2, maskText := maskText, filePath := path, redactName := name,
     isDefault := isDefault }, none)

/-- `redactorName` (redact.go:407-412). -/
def redactorName (redactorNum withinRedactorNum : Nat) (redactorName redactorType : String) :
    String :=
  if redactorName ≠ "" then
    redactorName ++ "." ++ redactorType ++ "." ++ fmtInt withinRedactorNum
  else
    "unnamed-" ++ fmtInt redactorNum ++ "." ++ redactorType ++ "." ++ fmtInt withinRedactorNum

/-- Second loop of `redactMatchesPath` (redact.go:149-155): compile the globs of
`files`, from index `i` on, onto `globs`. -/
def redactMatchesPath.compileFiles (H : Host) :
    Nat → List String → List Glob → Except GoError (List Glob)
  | _, [], globs => Except.ok globs
  | i, fileGlobString :: rest, globs =>
    match H.globCompile fileGlobString '/' with
    | Except.error err =>
      Except.error (GoError.wrap err "invalid file glob string %d %q" [fmtInt i, fileGlobString])
    | Except.ok newGlob => redactMatchesPath.compileFiles H (i + 1) rest (globs ++ [newGlob])

/-- Third loop of `redactMatchesPath` (redact.go:157-163). -/
def redactMatchesPath.anyMatch (path : String) : List Glob → Bool
  | [] => false
  | thisGlob :: rest =>
    if thisGlob.Match path then true else redactMatchesPath.anyMatch path rest

/-- `redactMatchesPath` (redact.go:134-164), returning the pair `(bool, error)`. -/
def redactMatchesPath (H : Host) (path : String) (redact : troubleshootv1beta2.Redact) :
    Bool × Option GoError :=
  if redact.FileSelector.File = "" ∧ redact.FileSelector.Files.length = 0 then (true, none)
  else
    let first : Except GoError (List Glob) :=
      if redact.FileSelector.File ≠ "" then
        match H.globCompile redact.FileSelector.File '/' with
        | Except.error err =>
          Except.error (GoError.wrap err "invalid file glob string %q" [redact.FileSelector.File])
        | Except.ok newGlob => Except.ok [newGlob]
      else Except.ok []
    match first with
    | Except.error err => (false, some err)
    | Except.ok globs =>
      match redactMatchesPath.compileFiles H 0 redact.FileSelector.Files globs with
      | Except.error err => (false, some err)
      | Except.ok globs => (redactMatchesPath.anyMatch path globs, none)

/-- First inner loop of `buildAdditionalRedactors` (redact.go:102-104). -/
def buildAdditionalRedactors.literals (path : String) (i : Nat) (name : String) :
    Nat → List String → List Redactor → List Redactor
  | _, [], additionalRedactors => additionalRedactors
  | j, literal :: rest, additionalRedactors =>
    buildAdditionalRedactors.literals path i name (j + 1) rest
      (additionalRedactors ++
        [Redactor.literal (literalString literal path (redactorName i j name "literal"))])

/-- Second inner loop of `buildAdditionalRedactors` (redact.go:106-124). The arguments
of `NewMultiLineRedactor` are evaluated from left to right. -/
def buildAdditionalRedactors.regexes (H : Host) (path : String) (i : Nat) (name : String) :
    Nat → List troubleshootv1beta2.Regex → List Redactor → Outcome (List Redactor)
  | _, [], additionalRedactors => Outcome.ok additionalRedactors
  | j, re :: rest, additionalRedactors =>
    let newRedactor : Outcome Redactor :=
      if re.Selector ≠ "" then
        (H.MustCompile re.Selector).bind fun re1 =>
        (H.MustCompile re.Redactor).bind fun re2 =>
        let res := NewMultiLineRedactor re1 re2 MASK_TEXT path
          (redactorName i j name "multiLine") false
        match res.2 with
        | some err =>
          Outcome.error (GoError.wrap err "multiline redactor %+v" [re.Selector, re.Redactor])
        | none => Outcome.ok (Redactor.multiLine res.1)
      else
        match H.Compile ("(?i)" ++ re.Redactor) with
        | Except.error err =>
          Outcome.error (GoError.wrap err "compile regex %q" [re.Redactor])
        | Except.ok compiled =>
          let res := NewSingleLineRedactor compiled MASK_TEXT path
            (redactorName i j name "regex") false
          match res.2 with
          | some err =>
            Outcome.error (GoError.wrap err "redactor %q" [re.Selector, re.Redactor])
          | none => Outcome.ok (Redactor.singleLine res.1)
    newRedactor.bind fun newRedactor =>
      buildAdditionalRedactors.regexes H path i name (j + 1) rest
        (additionalRedactors ++ [newRedactor])

/-- Third inner loop of `buildAdditionalRedactors` (redact.go:126-129). -/
def buildAdditionalRedactors.yamls (path : String) (i : Nat) (name : String) :
    Nat → List String → List Redactor → List Redactor
  | _, [], additionalRedactors => additionalRedactors
  | j, yaml :: rest, additionalRedactors =>
    buildAdditionalRedactors.yamls path i name (j + 1) rest
      (additionalRedactors ++
        [Redactor.yaml (NewYamlRedactor yaml path (redactorName i j name "yaml"))])

/-- Outer loop of `buildAdditionalRedactors` (redact.go:88-130), from spec index `i` on;
a nil pointer in the slice is `none`. -/
def buildAdditionalRedactors.specs (H : Host) (path : String) :
    Nat → List (Option troubleshootv1beta2.Redact) → List Redactor → Outcome (List Redactor)
  | _, [], additionalRedactors => Outcome.ok additionalRedactors
  | i, none :: rest, additionalRedactors =>
    buildAdditionalRedactors.specs H path (i + 1) rest additionalRedactors
  | i, some redact :: rest, additionalRedactors =>
    let res := redactMatchesPath H path redact
    match res.2 with
    | some err => Outcome.error err
    | none =>
      if !res.1 then buildAdditionalRedactors.specs H path (i + 1) rest additionalRedactors
      else
        let additionalRedactors :=
          buildAdditionalRedactors.literals path i redact.Name 0 redact.Removals.Values
            additionalRedactors
        (buildAdditionalRedactors.regexes H path i redact.Name 0 redact.Removals.Regex
            additionalRedactors).bind fun additionalRedactors =>
          buildAdditionalRedactors.specs H path (i + 1) rest
            (buildAdditionalRedactors.yamls path i redact.Name 0 redact.Removals.YamlPath
              additionalRedactors)

/-- `buildAdditionalRedactors` (redact.go:86-132). -/
def buildAdditionalRedactors (H : Host) (path : String)
    (redacts : List (Option troubleshootv1beta2.Redact)) : Outcome (List Redactor) :=
  buildAdditionalRedactors.specs H path 0 redacts []

/-- Patterns and names of the built-in single-line catalogue `singleLines`
(redact.go:169-253), in order. -/
def singleLinePatterns : List (String × String) :=
  [ (r#"(?i)(\\\"name\\\":\\\"[^\"]*SECRET_?ACCESS_?KEY\\\",\\\"value\\\":\\\")(?P<mask>[^\"]*)(\\\")"#,
      "Redact values for environment variables that look like AWS Secret Access Keys"),
    (r#"(?i)(\\\"name\\\":\\\"[^\"]*ACCESS_?KEY_?ID\\\",\\\"value\\\":\\\")(?P<mask>[^\"]*)(\\\")"#,
      "Redact values for environment variables that look like AWS Access Keys"),
    (r#"(?i)(\\\"name\\\":\\\"[^\"]*OWNER_?ACCOUNT\\\",\\\"value\\\":\\\")(?P<mask>[^\"]*)(\\\")"#,
      "Redact values for environment variables that look like AWS Owner or Account numbers"),
    (r#"(?i)(\\\"name\\\":\\\"[^\"]*password[^\"]*\\\",\\\"value\\\":\\\")(?P<mask>[^\"]*)(\\\")"#,
      "Redact values for environment variables with names beginning with 'password'"),
    (r#"(?i)(\\\"name\\\":\\\"[^\"]*token[^\"]*\\\",\\\"value\\\":\\\")(?P<mask>[^\"]*)(\\\")"#,
      "Redact values for environment variables with names beginning with 'token'"),
    (r#"(?i)(\\\"name\\\":\\\"[^\"]*database[^\"]*\\\",\\\"value\\\":\\\")(?P<mask>[^\"]*)(\\\")"#,
      "Redact values for environment variables with names beginning with 'database'"),
    (r#"(?i)(\\\"name\\\":\\\"[^\"]*user[^\"]*\\\",\\\"value\\\":\\\")(?P<mask>[^\"]*)(\\\")"#,
      "Redact values for environment variables with names beginning with 'user'"),
    (r#"(?i)(https?|ftp)(:\/\/)(?P<mask>[^:\"\/]+){1}(:)(?P<mask>[^@\"\/]+){1}(?P<host>@[^:\/\s\"]+){1}(?P<port>:[\d]+)?"#,
      "Redact connection strings with username and password"),
    (r#"\b(?P<mask>[^:\"\/]*){1}(:)(?P<mask>[^:\"\/]*){1}(@tcp\()(?P<mask>[^:\"\/]*){1}(?P<port>:[\d]*)?(\)\/)(?P<mask>[\w\d\S-_]+){1}\b"#,
      "Redact database connection strings that contain username and password"),
    (r#"\b(\w*:\/\/)(?P<mask>[^:\"\/]*){1}(:)(?P<mask>[^:\"\/]*){1}(@)(?P<mask>[^:\"\/]*){1}(?P<port>:[\d]*)?(\/)(?P<mask>[\w\d\S-_]+){1}\b"#,
      "Redact database connection strings that contain username and password"),
    (r#"(?i)(Data Source *= *)(?P<mask>[^\;]+)(;)"#,
      "Redact 'Data Source' values commonly found in database connection strings"),
    (r#"(?i)(location *= *)(?P<mask>[^\;]+)(;)"#,
      "Redact 'location' values commonly found in database connection strings"),
    (r#"(?i)(User ID *= *)(?P<mask>[^\;]+)(;)"#,
      "Redact 'User ID' values commonly found in database connection strings"),
    (r#"(?i)(password *= *)(?P<mask>[^\;]+)(;)"#,
      "Redact 'password' values commonly found in database connection strings"),
    (r#"(?i)(Server *= *)(?P<mask>[^\;]+)(;)"#,
      "Redact 'Server' values commonly found in database connection strings"),
    (r#"(?i)(Database *= *)(?P<mask>[^\;]+)(;)"#,
      "Redact 'Database' values commonly found in database connection strings"),
    (r#"(?i)(Uid *= *)(?P<mask>[^\;]+)(;)"#,
      "Redact 'UID' values commonly found in database connection strings"),
    (r#"(?i)(Pwd *= *)(?P<mask>[^\;]+)(;)"#,
      "Redact 'Pwd' values commonly found in database connection strings") ]

/-- Patterns and names of the built-in two-line catalogue `doubleLines`
(redact.go:255-300), in order: selector, redactor, name. -/
def doubleLinePatterns : List (String × String × String) :=
  [ (r#"(?i)"name": *"[^\"]*SECRET_?ACCESS_?KEY[^\"]*""#,
      r#"(?i)("value": *")(?P<mask>.*[^\"]*)(")"#,
      "Redact AWS Secret Access Key values in multiline JSON"),
    (r#"(?i)"name": *"[^\"]*ACCESS_?KEY_?ID[^\"]*""#,
      r#"(?i)("value": *")(?P<mask>.*[^\"]*)(")"#,
      "Redact AWS Access Key ID values in multiline JSON"),
    (r#"(?i)"name": *"[^\"]*OWNER_?ACCOUNT[^\"]*""#,
      r#"(?i)("value": *")(?P<mask>.*[^\"]*)(")"#,
      "Redact AWS Owner and Account Numbers in multiline JSON"),
    (r#"(?i)"name": *".*password[^\"]*""#,
      r#"(?i)("value": *")(?P<mask>.*[^\"]*)(")"#,
      "Redact password environment variables in multiline JSON"),
    (r#"(?i)"name": *".*token[^\"]*""#,
      r#"(?i)("value": *")(?P<mask>.*[^\"]*)(")"#,
      "Redact values that look like API tokens in multiline JSON"),
    (r#"(?i)"name": *".*database[^\"]*""#,
      r#"(?i)("value": *")(?P<mask>.*[^\"]*)(")"#,
      "Redact database connection strings in multiline JSON"),
    (r#"(?i)"name": *".*user[^\"]*""#,
      r#"(?i)("value": *")(?P<mask>.*[^\"]*)(")"#,
      "Redact usernames in multiline JSON"),
    (r#"(?i)"entity": *"(osd|client|mgr)\..*[^\"]*""#,
      r#"(?i)("key": *")(?P<mask>.{38}==[^\"]*)(")"#,
      "Redact 'key' values found in Ceph auth lists") ]

/-- The table `customResources` of `getRedactors` (redact.go:322-338): resource and
YAML path. -/
def customResources : List (String × String) :=
  [ ("installers.cluster.kurl.sh", "*.spec.kubernetes.bootstrapToken"),
    ("installers.cluster.kurl.sh", "*.spec.kubernetes.certKey"),
    ("installers.cluster.kurl.sh", "*.spec.kubernetes.kubeadmToken") ]

/-- First loop of `getRedactors` (redact.go:306-312). -/
def getRedactors.singles (H : Host) (path : String) :
    List (String × String) → List Redactor → List Redactor × Option GoError
  | [], redactors => (redactors, none)
  | re :: rest, redactors =>
    let res := NewSingleLineRedactor (H.catalogue re.1) MASK_TEXT path re.2 true
    match res.2 with
    | some err => ([], some err)
    | none => getRedactors.singles H path rest (redactors ++ [Redactor.singleLine res.1])

/-- Second loop of `getRedactors` (redact.go:314-320). -/
def getRedactors.doubles (H : Host) (path : String) :
    List (String × String × String) → List Redactor → List Redactor × Option GoError
  | [], redactors => (redactors, none)
  | l :: rest, redactors =>
    let res := NewMultiLineRedactor (H.catalogue l.1) (H.catalogue l.2.1) MASK_TEXT path
      l.2.2 true
    match res.2 with
    | some err => ([], some err)
    | none => getRedactors.doubles H path rest (redactors ++ [Redactor.multiLine res.1])

/-- Third loop of `getRedactors` (redact.go:340-354); `uniqueCRs` lists the keys the
map holds `true` for. -/
def getRedactors.customs (H : Host) :
    List (String × String) → List String → List Redactor → List Redactor
  | [], _, redactors => redactors
  | cr :: rest, uniqueCRs, redactors =>
    let fileglob :=
      H.CLUSTER_RESOURCES_DIR ++ "/" ++ H.CLUSTER_RESOURCES_CUSTOM_RESOURCES ++ "/" ++
        cr.1 ++ "/*"
    let redactors := redactors ++ [Redactor.yaml (NewYamlRedactor cr.2 fileglob "")]
    if !uniqueCRs.contains cr.1 then
      getRedactors.customs H rest (cr.1 :: uniqueCRs)
        (redactors ++
          [Redactor.yaml
            { filePath := fileglob
              maskPath :=
                ["*", "metadata", "annotations",
                  "kubectl.kubernetes.io/last-applied-configuration"]
              redactName := "" }])
    else getRedactors.customs H rest uniqueCRs redactors

/-- `getRedactors` (redact.go:302-357), returning the pair `([]Redactor, error)`. -/
def getRedactors (H : Host) (path : String) : List Redactor × Option GoError :=
  let res := getRedactors.singles H path singleLinePatterns []
  match res.2 with
  | some err => ([], some err)
  | none =>
    let res := getRedactors.doubles H path doubleLinePatterns res.1
    match res.2 with
    | some err => ([], some err)
    | none => (getRedactors.customs H customResources [] res.1, none)

/-- The slice `redactors` of `Redact` when the stages are about to be started
(redact.go:51-60). -/
def Redact.redactors (H : Host) (path : String)
    (additionalRedactors : List (Option troubleshootv1beta2.Redact)) :
    Outcome (List Redactor) :=
  let res := getRedactors H path
  match res.2 with
  | some err => Outcome.error err
  | none =>
    match buildAdditionalRedactors H path additionalRedactors with
    | Outcome.error err => Outcome.error (GoError.wrap err "build custom redactors" [])
    | Outcome.panic msg => Outcome.panic msg
    | Outcome.ok builtRedactors => Outcome.ok (res.1 ++ builtRedactors)

/-- The implementation behind a `Redactor` of a chain. -/
inductive Kind where
  | singleLine : Kind
  | multiLine : Kind
  | yaml : Kind
  | literal : Kind
  deriving DecidableEq, Repr

/-- The implementation behind a `Redactor`. -/
def Redactor.kind : Redactor → Kind
  | Redactor.singleLine _ => Kind.singleLine
  | Redactor.multiLine _ => Kind.multiLine
  | Redactor.yaml _ => Kind.yaml
  | Redactor.literal _ => Kind.literal

/-- Kinds of the redactors one admitted spec contributes: one per literal value, one per
regex removal (multi-line when it has a selector), one per YAML path. -/
def troubleshootv1beta2.Redact.kinds (redact : troubleshootv1beta2.Redact) : List Kind :=
  redact.Removals.Values.map (fun _ => Kind.literal) ++
    redact.Removals.Regex.map
      (fun re => if re.Selector ≠ "" then Kind.multiLine else Kind.singleLine) ++
    redact.Removals.YamlPath.map (fun _ => Kind.yaml)

/-- Kinds of the user part of a chain: spec by spec in list order, skipping nil specs and
specs that are not admitted for the path. -/
def userKinds (H : Host) (path : String) :
    List (Option troubleshootv1beta2.Redact) → List Kind
  | [] => []
  | none :: rest => userKinds H path rest
  | some redact :: rest =>
    (if (redactMatchesPath H path redact).1 then redact.kinds else []) ++
      userKinds H path rest

/-- The glob strings of the file selector of a spec: `file` when it is set, then the
elements of `files`. -/
def troubleshootv1beta2.Redact.globs (redact : troubleshootv1beta2.Redact) : List String :=
  (if redact.FileSelector.File ≠ "" then [redact.FileSelector.File] else []) ++
    redact.FileSelector.Files

/-- Whether a glob string compiles. -/
def Host.globCompiles (H : Host) (g : String) : Bool :=
  match H.globCompile g '/' with
  | Except.ok _ => true
  | Except.error _ => false

/-- Whether a glob string compiles to a glob that matches the path. -/
def Host.globMatches (H : Host) (g path : String) : Bool :=
  match H.globCompile g '/' with
  | Except.ok c => c.Match path
  | Except.error _ => false

/-- A host for examples. Its regex engine rejects the expression `(` and its glob
library rejects the pattern `[`, as the real ones do; the glob `*` matches the paths
without a separator and any other pattern matches the path equal to it. What its
regexes do on lines plays no part in chain construction. -/
def stubHost : Host :=
  { Compile := fun s =>
      if s = "(" then Except.error (GoError.other "error parsing regexp: missing closing )")
      else Except.ok (Regexp.wholeLine s)
    globCompile := fun s sep =>
      if s = "[" then Except.error (GoError.other "unexpected end of input")
      else Except.ok { Match := fun p => if s = "*" then !(p.data.contains sep) else p = s }
    catalogue := fun s => Regexp.wholeLine s
    CLUSTER_RESOURCES_DIR := "cluster-resources"
    CLUSTER_RESOURCES_CUSTOM_RESOURCES := "custom-resources" }

/-- A spec without name and file selector that removes one YAML path. -/
def yamlSpec : troubleshootv1beta2.Redact :=
  { Name := ""
    FileSelector := { File := "", Files := [] }
    Removals := { Regex := [], Values := [], YamlPath := ["spec.password"] } }

/-- A spec without name and file selector that removes one literal. -/
def literalSpec : troubleshootv1beta2.Redact :=
  { Name := ""
    FileSelector := { File := "", Files := [] }
    Removals := { Regex := [], Values := ["swordfish"], YamlPath := [] } }

/-- A spec whose only removal is a regex removal with the given selector and
redactor. -/
def regexSpec (selector redactor : String) : troubleshootv1beta2.Redact :=
  { Name := ""
    FileSelector := { File := "", Files := [] }
    Removals :=
      { Regex := [{ Selector := selector, Redactor := redactor }], Values := [], YamlPath := [] } }

/-- A spec selecting files by `file = "*"` and `files = ["["]`. -/
def badGlobSpec : troubleshootv1beta2.Redact :=
  { Name := ""
    FileSelector := { File := "*", Files := ["["] }
    Removals := { Regex := [], Values := ["swordfish"], YamlPath := [] } }

/-- A user multi-line stage with selector `^(?P<mask>key)$` and redactor
`^(?P<mask>secret)$`. -/
def keySecretStage : MultiLineRedactor :=
  { re1 := Regexp.wholeLine "key"
    re2 := Regexp.wholeLine "secret"
    maskText := MASK_TEXT
    filePath := "bundle/pod.json"
    redactName := "unnamed-0.multiLine.0"
    isDefault := false }

/-- A user single-line stage with the regex `^(?P<mask>secret)$`. -/
def secretStage : SingleLineRedactor :=
  { re := Regexp.wholeLine "secret"
    maskText := MASK_TEXT
    filePath := "bundle/pod.json"
    redactName := "unnamed-0.regex.0"
    isDefault := false }

/-- A pipe whose reader has been closed before the first write. -/
def PipeWriter.closed : PipeWriter := { written := [], credit := some 0 }

/-- The name a redactor records its redactions under. -/
def Redactor.name : Redactor → String
  | Redactor.singleLine s => s.redactName
  | Redactor.multiLine m => m.redactName
  | Redactor.yaml y => y.redactName
  | Redactor.literal l => l.redactName

/-- All the values of a list of optional values, when none of them is missing. -/
def allSome {α : Type} : List (Option α) → Option (List α)
  | [] => some []
  | none :: _ => none
  | some a :: rest =>
    match allSome rest with
    | some as => some (a :: as)
    | none => none

/-- The redactor an admitted spec (index `i`, name `name`) contributes for its regex
removal `re` at index `j`: with a selector, a multi-line redactor over the selector and
the redactor compiled as given; without one, a single-line redactor over the redactor
string prefixed with `(?i)`; `none` when an expression does not compile. -/
def regexRedactor (H : Host) (path : String) (i : Nat) (name : String) (j : Nat)
    (re : troubleshootv1beta2.Regex) : Option Redactor :=
  if re.Selector ≠ "" then
    match H.Compile re.Selector, H.Compile re.Redactor with
    | Except.ok re1, Except.ok re2 =>
      some (Redactor.multiLine
        { re1 := re1, re2 := re2, maskText := MASK_TEXT, filePath := path,
          redactName := redactorName i j name "multiLine", isDefault := false })
    | _, _ => none
  else
    match H.Compile ("(?i)" ++ re.Redactor) with
    | Except.ok compiled =>
      some (Redactor.singleLine
        { re := compiled, maskText := MASK_TEXT, filePath := path,
          redactName := redactorName i j name "regex", isDefault := false })
    | Except.error _ => none

/-- The redactors an admitted spec at index `i` contributes: one per literal value, then
one per regex removal, then one per YAML path, each named after its kind and its index
in its list. -/
def specRedactors (H : Host) (path : String) (i : Nat) (redact : troubleshootv1beta2.Redact) :
    Option (List Redactor) :=
  match allSome (redact.Removals.Regex.enum.map
      (fun q => regexRedactor H path i redact.Name q.1 q.2)) with
  | none => none
  | some regs =>
    some
      (redact.Removals.Values.enum.map
          (fun q => Redactor.literal
            (literalString q.2 path (redactorName i q.1 redact.Name "literal"))) ++
        regs ++
        redact.Removals.YamlPath.enum.map
          (fun q => Redactor.yaml
            (NewYamlRedactor q.2 path (redactorName i q.1 redact.Name "yaml"))))

/-- What the entry at index `p.1` of the spec list contributes to the chain: nothing for
a nil pointer and for a spec that is not admitted for the path. -/
def specBlock (H : Host) (path : String) (p : Nat × Option troubleshootv1beta2.Redact) :
    Option (List Redactor) :=
  match p.2 with
  | none => some []
  | some redact =>
    if (redactMatchesPath H path redact).1 then specRedactors H path p.1 redact
    else some []

/-- The user part of a chain, spec by spec. -/
def userRedactors (H : Host) (path : String)
    (redacts : List (Option troubleshootv1beta2.Redact)) : Option (List Redactor) :=
  match allSome (redacts.enum.map (specBlock H path)) with
  | none => none
  | some blocks => some blocks.flatten

/-- Names of the stages an admitted spec at index `i` contributes. -/
def specNames (i : Nat) (redact : troubleshootv1beta2.Redact) : List String :=
  redact.Removals.Values.enum.map (fun q => redactorName i q.1 redact.Name "literal") ++
    redact.Removals.Regex.enum.map
      (fun q => redactorName i q.1 redact.Name
        (if q.2.Selector ≠ "" then "multiLine" else "regex")) ++
    redact.Removals.YamlPath.enum.map (fun q => redactorName i q.1 redact.Name "yaml")

/-- Names of the stages of the user part of a chain, spec by spec. -/
def userNames (H : Host) (path : String)
    (redacts : List (Option troubleshootv1beta2.Redact)) : List String :=
  (redacts.enum.map (fun p =>
    match p.2 with
    | none => []
    | some redact =>
      if (redactMatchesPath H path redact).1 then specNames p.1 redact else [])).flatten

/-- The default flag of a single-line or multi-line redactor, which it copies into the
redactions it records; `none` for the other redactors. -/
def Redactor.isDefault : Redactor → Option Bool
  | Redactor.singleLine s => some s.isDefault
  | Redactor.multiLine m => some m.isDefault
  | Redactor.yaml _ => none
  | Redactor.literal _ => none

/-- A spec called `db` without file selector, with one literal, a regex removal without
selector, a regex removal with a selector and a YAML path. -/
def dbSpec : troubleshootv1beta2.Redact :=
  { Name := "db"
    FileSelector := { File := "", Files := [] }
    Removals :=
      { Regex := [{ Selector := "", Redactor := "secret" }, { Selector := "key", Redactor := "secret" }]
        Values := ["swordfish"]
        YamlPath := ["spec.password"] } }

/-- A spec that selects the file `b.txt` only. -/
def otherFileSpec : troubleshootv1beta2.Redact :=
  { Name := "other"
    FileSelector := { File := "b.txt", Files := [] }
    Removals := { Regex := [], Values := ["swordfish"], YamlPath := [] } }

/-- The user part of the chain built from the spec `db` for the path `a.txt` on the host
for examples. -/
def dbChain : List Redactor :=
  [ Redactor.literal (literalString "swordfish" "a.txt" "db.literal.0"),
    Redactor.singleLine
      { re := Regexp.wholeLine "(?i)secret", maskText := MASK_TEXT, filePath := "a.txt",
        redactName := "db.regex.0", isDefault := false },
    Redactor.multiLine
      { re1 := Regexp.wholeLine "key", re2 := Regexp.wholeLine "secret",
        maskText := MASK_TEXT, filePath := "a.txt", redactName := "db.multiLine.1",
        isDefault := false },
    Redactor.yaml (NewYamlRedactor "spec.password" "a.txt" "db.yaml.0") ]

/-! ### The process-wide ledger (redact.go:20-30, 70-84, 395-405) -/

/-- A Go `map[string][]Redaction`: the keys that were assigned, each with its slice.
Looking up a key that was never assigned yields the nil (empty) slice. -/
abbrev Index := List (String × List Redaction)

/-- Go's `m[k]`. -/
def Index.get : Index → String → List Redaction
  | [], _ => []
  | (k', v) :: rest, k => if k' = k then v else Index.get rest k

/-- Go's `m[k] = v`. -/
def Index.set : Index → String → List Redaction → Index
  | [], k, v => [(k, v)]
  | (k', v') :: rest, k, v =>
    if k' = k then (k, v) :: rest else (k', v') :: Index.set rest k v

/-- `RedactionList` (redact.go:37-40). -/
structure RedactionList where
  ByRedactor : Index
  ByFile : Index
  deriving DecidableEq, Repr

/-- The value `init` (redact.go:25-30) gives `allRedactions`: two empty maps. -/
def RedactionList.init : RedactionList :=
  { ByRedactor := [], ByFile := [] }

/-- The critical section of `addRedaction` (redact.go:398-403), run to completion under
`redactionListMut`: the record is appended to the slice of its redactor name, then to the
slice of its file. -/
def addRedaction (allRedactions : RedactionList) (redaction : Redaction) : RedactionList :=
  let byRedactor := allRedactions.ByRedactor.set redaction.RedactorName
    (allRedactions.ByRedactor.get redaction.RedactorName ++ [redaction])
  let byFile := allRedactions.ByFile.set redaction.File
    (allRedactions.ByFile.get redaction.File ++ [redaction])
  { ByRedactor := byRedactor, ByFile := byFile }

/-- `ResetRedactionList` (redact.go:77-84): `allRedactions` is replaced by two empty maps. -/
def ResetRedactionList (_allRedactions : RedactionList) : RedactionList :=
  { ByRedactor := [], ByFile := [] }

/-- `GetRedactionList` (redact.go:70-75), once the pending records have completed: the
current value of `allRedactions`. -/
def GetRedactionList (allRedactions : RedactionList) : RedactionList :=
  allRedactions

/-- One completed operation on the ledger. -/
inductive LedgerOp where
  | record (redaction : Redaction)
  | reset
  deriving DecidableEq, Repr

/-- The effect of one completed operation on `allRedactions`. -/
def LedgerOp.apply (allRedactions : RedactionList) : LedgerOp → RedactionList
  | LedgerOp.record redaction => addRedaction allRedactions redaction
  | LedgerOp.reset => ResetRedactionList allRedactions

/-- The ledger read by `GetRedactionList` after a sequence of completed operations,
starting from the value `init` stores. -/
def ledgerAfter (ops : List LedgerOp) : RedactionList :=
  GetRedactionList (ops.foldl LedgerOp.apply RedactionList.init)

/-- The invariant of the ledger: the two indices hold the same records, each under its
own key. -/
def RedactionList.consistent (l : RedactionList) : Prop :=
  (∀ r : Redaction, (l.ByRedactor.get r.RedactorName).count r = (l.ByFile.get r.File).count r) ∧
  (∀ n, ∀ x ∈ l.ByRedactor.get n, x.RedactorName = n) ∧
  (∀ f, ∀ x ∈ l.ByFile.get f, x.File = f)

/-! ### The custom-resource part of the built-in chain (redact.go:322-354) -/

/-- The file glob `getRedactors` computes for a resource (redact.go:342). -/
def getRedactors.fileglob (H : Host) (resource : String) : String :=
  H.CLUSTER_RESOURCES_DIR ++ "/" ++ H.CLUSTER_RESOURCES_CUSTOM_RESOURCES ++ "/" ++
    resource ++ "/*"

/-- The mask path of the redactor `getRedactors` adds for the last-applied annotation
(redact.go:350). -/
def lastAppliedPath : List String :=
  ["*", "metadata", "annotations", "kubectl.kubernetes.io/last-applied-configuration"]

/-- The redactor `getRedactors` adds for the last-applied annotation of a resource
(redact.go:348-351). -/
def getRedactors.lastApplied (H : Host) (resource : String) : Redactor :=
  Redactor.yaml
    { filePath := getRedactors.fileglob H resource
      maskPath := lastAppliedPath
      redactName := "" }

/-- What the third loop of `getRedactors` appends for the entry at an index of its
table: the YAML-path redactor of the entry, then the last-applied redactor of the
resource unless an earlier entry of the table has the same resource. -/
def getRedactors.customsBlock (H : Host) (seen : List String)
    (table : List (String × String)) (p : Nat × String × String) : List Redactor :=
  Redactor.yaml (NewYamlRedactor p.2.2 (getRedactors.fileglob H p.2.1) "") ::
    (if p.2.1 ∈ seen ∨ p.2.1 ∈ (table.take p.1).map Prod.fst then []
     else [getRedactors.lastApplied H p.2.1])

/-- A YAML redactor whose mask path is the last-applied annotation. -/
def Redactor.masksLastApplied : Redactor → Bool
  | Redactor.yaml y => y.maskPath == lastAppliedPath
  | _ => false

/-- A YAML redactor of the last-applied annotation on the file glob of a resource. -/
def Redactor.isLastAppliedOf (H : Host) (resource : String) : Redactor → Bool
  | Redactor.yaml y =>
    y.maskPath == lastAppliedPath && y.filePath == getRedactors.fileglob H resource
  | _ => false

/-! ### Chains of line stages (redact.go:62-65) -/

/-- A single-line or a multi-line stage of a chain. -/
inductive LineStage where
  | single (s : SingleLineRedactor)
  | multi (m : MultiLineRedactor)

/-- `Redact` of a line stage. -/
def LineStage.Redact : LineStage → Reader → PipeWriter → Option StageResult
  | LineStage.single s, input, writer => s.Redact input writer
  | LineStage.multi m, input, writer => m.Redact input writer

/-- A line as `ReadLine` hands it over: without the carriage return that ends it, if
there is one. -/
def dropCR (line : String) : String :=
  if line.data.getLast? = some '\r' then String.mk line.data.dropLast else line

/-- The lines `ReadLine` delivers for the bytes of one `fmt.Fprintf(writer, "%s\n", line)`:
the text is cut at every newline it holds, and every piece loses a final carriage
return. -/
def wireLines (line : String) : List String :=
  (splitAt '\n' line.data []).map dropCR

/-- A stream made of lines, each followed by a newline, and ended by the error `err`
(`io.EOF` for a stream that simply ends). -/
structure LineStream where
  lines : List String
  err : GoError
  deriving DecidableEq, Repr

/-- The `bufio.Reader` a stage puts on such a stream (single_line.go:46,
multi_line.go:43). The segments of a long line are joined again by `readLine`, so
every line is delivered here in one piece. -/
def LineStream.reader (s : LineStream) : Reader :=
  Reader.ofLines (s.lines.flatMap wireLines) s.err

/-- What the reading end of the pipe of a stage delivers: the lines the stage wrote, then
the error the writer was closed with, `io.EOF` after a clean close. -/
def StageResult.stream (res : StageResult) : LineStream :=
  { lines := res.written, err := res.closeErr.getD GoError.EOF }

/-- The loop of `Redact` over the stages (redact.go:62-65), the goroutines run to their
end: every stage reads what the stage before it wrote, and the caller reads what the last
stage wrote. `none` when a stage does not return. -/
def runChain : List LineStage → LineStream → Option LineStream
  | [], nextReader => some nextReader
  | r :: rest, nextReader =>
    match r.Redact nextReader.reader PipeWriter.fresh with
    | none => none
    | some res => runChain rest res.stream

/-- A line that reaches the next stage as it was written: it holds no newline and does
not end in a carriage return. -/
def plainLine (line : String) : Bool :=
  !line.data.contains '\n' && line.data.getLast? != some '\r'

/-- The compiled pattern `^(?P<drop>x)`, on templates free of `$`: it matches the lines
that start with `x` and replaces that first `x` by the template. -/
def Regexp.dropLeadingX : Regexp :=
  { MatchString := fun s => s.data.head? == some 'x'
    ReplaceAllString := fun s repl =>
      match s.data with
      | [] => s
      | c :: rest => if c = 'x' then repl ++ String.mk rest else s
    SubexpNames := ["", "drop"] }

/-- A user single-line stage with the regex `^(?P<drop>x)`. -/
def dropStage : SingleLineRedactor :=
  { re := Regexp.dropLeadingX
    maskText := MASK_TEXT
    filePath := "bundle/pod.json"
    redactName := "unnamed-0.regex.0"
    isDefault := false }

/-! ### The greedy pairing of the multi-line stage, as a reference -/

/-- The greedy left-to-right pairing of selector lines with the value lines after them:
a line the selector matches is kept and the line after it is rewritten; any other line is
kept and the pairing goes on with the line after it. -/
def MultiLineRedactor.ref (r : MultiLineRedactor) : List String → List String
  | [] => []
  | [a] => [a]
  | a :: b :: rest =>
    if r.re1.MatchString a then a :: r.rewrite b :: MultiLineRedactor.ref r rest
    else a :: MultiLineRedactor.ref r (b :: rest)

/-- For every line, whether the greedy pairing consumes it as the value line of a selector
match. -/
def MultiLineRedactor.consumed (r : MultiLineRedactor) : List String → List Bool
  | [] => []
  | [_] => [false]
  | a :: b :: rest =>
    if r.re1.MatchString a then false :: true :: MultiLineRedactor.consumed r rest
    else false :: MultiLineRedactor.consumed r (b :: rest)

/-- Whether the line immediately before the final line is consumed as the value line of
a selector match. -/
def MultiLineRedactor.lastFollowsValue (r : MultiLineRedactor) (lines : List String) : Bool :=
  (r.consumed lines).dropLast.getLast? == some true

/-- The reader `rd` whose stream goes on with the segments `pre` of one more line, all
delivered with `isPrefix` set, before it ends with its error: the line end never
comes. -/
def Reader.withPartial (rd : Reader) (pre : List String) : Reader :=
  { rd with pending := rd.pending ++ pre.map (fun s => (s, true)) }

/-! ### Names of the stages of unnamed specs -/

/-- The number a list of decimal digits stands for. -/
def decimalValue (cs : List Char) : Nat :=
  cs.foldl (fun acc c => acc * 10 + (c.toNat - '0'.toNat)) 0

/-- The kinds `buildAdditionalRedactors` passes to `redactorName` (redact.go:103, 109,
115, 127). -/
def redactorKinds : List String := ["literal", "regex", "multiLine", "yaml"]

/-- The spec list with every named spec replaced by a nil pointer:
`buildAdditionalRedactors` skips a nil pointer, and every other spec keeps its index. -/
def unnamedOnly (redacts : List (Option troubleshootv1beta2.Redact)) :
    List (Option troubleshootv1beta2.Redact) :=
  redacts.map (fun s =>
    match s with
    | none => none
    | some redact => if redact.Name = "" then some redact else none)

/-- The spec `db` without its name. -/
def anonSpec : troubleshootv1beta2.Redact :=
  { dbSpec with Name := "" }

/-- The four redactors built from `anonSpec` at index `i` of a spec list, for the path
`a.txt` on the host for examples. -/
def anonChain (i : Nat) : List Redactor :=
  [ Redactor.literal (literalString "swordfish" "a.txt" (redactorName i 0 "" "literal")),
    Redactor.singleLine
      { re := Regexp.wholeLine "(?i)secret", maskText := MASK_TEXT, filePath := "a.txt",
        redactName := redactorName i 0 "" "regex", isDefault := false },
    Redactor.multiLine
      { re1 := Regexp.wholeLine "key", re2 := Regexp.wholeLine "secret",
        maskText := MASK_TEXT, filePath := "a.txt",
        redactName := redactorName i 1 "" "multiLine", isDefault := false },
    Redactor.yaml (NewYamlRedactor "spec.password" "a.txt" (redactorName i 0 "" "yaml")) ]

/-! ### Chains whose stages settle what they rewrite -/

/-- The rewrite a stage applies to a line: a single-line stage to every line, a
multi-line stage to the value line of a pair. -/
def LineStage.lineRewrite : LineStage → String → String
  | LineStage.single s => s.rewrite
  | LineStage.multi m => m.rewrite

/-- Whether a stage takes a line for the selector line of a pair; a single-line stage has
no selector. -/
def LineStage.selects : LineStage → String → Bool
  | LineStage.single _ => fun _ => false
  | LineStage.multi m => m.re1.MatchString

/-- Whether a stage emits one line for every line of `z`: a single-line stage always
does, a multi-line stage when there are at least two lines and its pairing of selector
and value lines does not end with a pair followed by one more line. -/
def LineStage.fits : LineStage → List String → Bool
  | LineStage.single _, _ => true
  | LineStage.multi m, z => decide (2 ≤ z.length) && !m.loneLineAfterPair z

/-- The lines a stage makes of the lines `z` when it emits one line for every line: the
rewrite of every line for a single-line stage, the greedy pairing for a multi-line
stage. -/
def LineStage.rewriteLines : LineStage → List String → List String
  | LineStage.single s, z => z.map s.rewrite
  | LineStage.multi m, z => m.ref z

/-- The lines a chain makes of the lines `x`, stage after stage. -/
def rewriteChain (chain : List LineStage) (x : List String) : List String :=
  chain.foldl (fun z s => s.rewriteLines z) x

/-- A line after a stage with the rewrite `f` has seen the line `l`: the line itself or
its rewrite. -/
def touched (f : String → String) (l l' : String) : Prop :=
  l' = l ∨ l' = f l

/-- The rewrite of a stage settles a line: lines without newline and final carriage
return stay so, and rewriting a second time changes nothing. -/
def LineStage.settles (s : LineStage) : Prop :=
  (∀ l, plainLine l = true → plainLine (s.lineRewrite l) = true) ∧
    ∀ l, s.lineRewrite (s.lineRewrite l) = s.lineRewrite l

/-- The stage `s` and a later stage `u` of a chain keep apart: the rewrite of `u` makes
of a line that `s` leaves alone a line that `s` leaves alone, and the rewrite of neither
stage changes whether the selector of the other matches a line. -/
def LineStage.apart (s u : LineStage) : Prop :=
  (∀ l, s.lineRewrite l = l → s.lineRewrite (u.lineRewrite l) = u.lineRewrite l) ∧
    (∀ l, s.selects (u.lineRewrite l) = s.selects l) ∧
    (∀ l, u.selects (s.lineRewrite l) = u.selects l)

/-- A chain of two user stages: `keySecretStage`, then `secretStage`. -/
def keyThenSecretChain : List LineStage :=
  [LineStage.multi keySecretStage, LineStage.single secretStage]

/-- A user single-line stage with the regex `^(?P<drop>\*\*\*HIDDEN\*\*\*)$`: it empties
a line that is the mask. -/
def maskDropStage : SingleLineRedactor :=
  { re := { (Regexp.wholeLine "***HIDDEN***") with SubexpNames := ["", "drop"] }
    maskText := MASK_TEXT
    filePath := "bundle/pod.json"
    redactName := "unnamed-0.regex.0"
    isDefault := false }

/-- A user multi-line stage with selector `^(?P<mask>v)$` and redactor
`^(?P<mask>secret)$`. -/
def vSecretStage : MultiLineRedactor :=
  { re1 := Regexp.wholeLine "v"
    re2 := Regexp.wholeLine "secret"
    maskText := MASK_TEXT
    filePath := "bundle/pod.json"
    redactName := "unnamed-1.multiLine.0"
    isDefault := false }

/-- A user multi-line stage whose selector `^(?P<mask>)$` and redactor `^(?P<mask>)$`
match the empty line. -/
def blankStage : MultiLineRedactor :=
  { re1 := Regexp.wholeLine ""
    re2 := Regexp.wholeLine ""
    maskText := MASK_TEXT
    filePath := "bundle/pod.json"
    redactName := "unnamed-0.multiLine.0"
    isDefault := false }

/-! ## Theorems -/

theorem readLine_ofSegments_nil (e : GoError) :
    readLine (Reader.ofSegments [] e) = (("", some e), Reader.ofSegments [] e) := by
  simp [readLine, Reader.ofSegments, readLineLoop]

theorem readLineLoop_segments (err : GoError) (last : String)
    (rest : List (String × Bool)) :
    ∀ (pre : List String) (acc : String),
      readLineLoop err (pre.map (fun s => (s, true)) ++ (last, false) :: rest) acc =
        ((pre.foldl (fun r s => r ++ s) acc ++ last, none), rest) := by
  intro pre
  induction pre with
  | nil => intro acc; simp [readLineLoop]
  | cons s pre ih => intro acc; simp [readLineLoop, ih]

theorem readLine_ofSegments_cons (l : List String × String)
    (ls : List (List String × String)) (e : GoError) :
    readLine (Reader.ofSegments (l :: ls) e) =
      ((Reader.lineOf l, none), Reader.ofSegments ls e) := by
  have h := readLineLoop_segments e l.2 (Reader.ofSegments ls e).pending l.1 ""
  simp only [readLine, Reader.ofSegments, List.map_cons, List.flatten_cons,
    List.append_assoc, List.singleton_append] at h ⊢
  rw [h]
  rfl

theorem Reader.ofSegments_length (ls : List (List String × String)) (e : GoError) :
    ls.length ≤ (Reader.ofSegments ls e).pending.length := by
  induction ls with
  | nil => simp
  | cons l ls ih =>
    simp only [Reader.ofSegments, List.map_cons, List.flatten_cons, List.length_append,
      List.length_cons, List.length_map, List.length_nil] at ih ⊢
    omega

/-- The loop of a single-line stage on an input of whole lines: it returns, having
printed the rewrites of the lines one by one and recorded the changed ones. -/
theorem SingleLineRedactor.single_loop_ofSegments (r : SingleLineRedactor) (e : GoError) :
    ∀ (input : List (List String × String)) (fuel n : Nat) (w : PipeWriter)
      (led : List Redaction),
      input.length < fuel →
      SingleLineRedactor.loop r (getReplacementPattern r.re r.maskText) fuel n
          { reader := Reader.ofSegments input e, writer := w, ledger := led } =
        some
          ({ reader := Reader.ofSegments [] e
             writer := (input.map Reader.lineOf).foldl
               (fun w l => (w.Fprintf [r.rewrite l]).1) w
             ledger := led ++ ((input.map Reader.lineOf).enumFrom (n + 1)).filterMap (fun p =>
               if r.rewrite p.2 ≠ p.2 then some (r.redactionAt p.1 p.2) else none) },
            some e) := by
  intro input
  induction input with
  | nil =>
    intro fuel n w led h
    cases fuel with
    | zero => simp at h
    | succ fuel => simp [SingleLineRedactor.loop, readLine_ofSegments_nil]
  | cons l ls ih =>
    intro fuel n w led h
    cases fuel with
    | zero => simp at h
    | succ fuel =>
      have h2 : ls.length < fuel := by simpa using h
      by_cases hm : r.re.MatchString (Reader.lineOf l) = true
      · by_cases hc : r.re.ReplaceAllString (Reader.lineOf l)
            (getReplacementPattern r.re r.maskText) = Reader.lineOf l
        · simp [SingleLineRedactor.loop, readLine_ofSegments_cons, hm, hc, Stage.Fprintf,
            SingleLineRedactor.rewrite, ih fuel (n + 1) _ led h2, List.enumFrom]
        · simp [SingleLineRedactor.loop, readLine_ofSegments_cons, hm, hc, Stage.Fprintf,
            SingleLineRedactor.rewrite, Stage.addRedaction, ih fuel (n + 1) _ _ h2, List.enumFrom,
            SingleLineRedactor.redactionAt]
      · simp [SingleLineRedactor.loop, readLine_ofSegments_cons, hm, Stage.Fprintf,
          SingleLineRedactor.rewrite, ih fuel (n + 1) _ led h2, List.enumFrom]

theorem PipeWriter.foldl_Fprintf_open (f : String → String) :
    ∀ (lines : List String) (w : PipeWriter), w.credit = none →
      lines.foldl (fun w l => (w.Fprintf [f l]).1) w =
        { written := w.written ++ lines.map f, credit := none } := by
  intro lines
  induction lines with
  | nil => intro w h; cases w; simp_all
  | cons l ls ih =>
    intro w h
    have h1 : (w.Fprintf [f l]).1 = { written := w.written ++ [f l], credit := none } := by
      cases w
      simp only at h
      subst h
      rfl
    rw [List.foldl_cons, h1, ih _ rfl]
    simp

theorem SingleLineRedactor.Redact_ofSegments (r : SingleLineRedactor)
    (input : List (List String × String)) (e : GoError) (w : PipeWriter) :
    r.Redact (Reader.ofSegments input e) w =
      some
        { written := ((input.map Reader.lineOf).foldl
            (fun w l => (w.Fprintf [r.rewrite l]).1) w).written
          closeErr := if some e = some GoError.EOF then none else some e
          ledger := ((input.map Reader.lineOf).enumFrom 1).filterMap (fun p =>
            if r.rewrite p.2 ≠ p.2 then some (r.redactionAt p.1 p.2) else none)
          reader := Reader.ofSegments [] e } := by
  have h := SingleLineRedactor.single_loop_ofSegments r e input
    ((Reader.ofSegments input e).pending.length + 1) 0 w []
    (Nat.lt_succ_of_le (Reader.ofSegments_length input e))
  unfold SingleLineRedactor.Redact
  simp only [h, List.nil_append]

/-- C1: on an input of lines l1..ln read without error, whatever the segments
`ReadLine` delivers them in, and a pipe whose reader stays open,
`SingleLineRedactor.Redact` returns, having emitted exactly n lines, each ended by a
newline; line i is `re.ReplaceAllString(li, getReplacementPattern(re, M))` when `re`
matches li, and li itself when it does not. -/
theorem SingleLineRedactor.Redact_emits_one_line_per_line (r : SingleLineRedactor)
    (input : List (List String × String)) (e : GoError) :
    ∃ res, r.Redact (Reader.ofSegments input e) PipeWriter.fresh = some res ∧
      res.written = (input.map Reader.lineOf).map (fun l =>
        if r.re.MatchString l = true then
          r.re.ReplaceAllString l (getReplacementPattern r.re r.maskText)
        else l) ∧
      res.written.length = input.length ∧
      res.bytes = String.join ((input.map Reader.lineOf).map (fun l =>
        (if r.re.MatchString l = true then
          r.re.ReplaceAllString l (getReplacementPattern r.re r.maskText)
        else l) ++ "\n")) := by
  have hw := PipeWriter.foldl_Fprintf_open r.rewrite (input.map Reader.lineOf)
    PipeWriter.fresh rfl
  rw [SingleLineRedactor.Redact_ofSegments, hw]
  refine ⟨_, rfl, ?_, ?_, ?_⟩
  · simp [PipeWriter.fresh, SingleLineRedactor.rewrite]
  · simp [PipeWriter.fresh]
  · simp [StageResult.bytes, PipeWriter.fresh, SingleLineRedactor.rewrite,
      Function.comp_def]

/-- C2: whatever the state of the pipe, the redactions a single-line stage records on
input l1..ln are exactly, in order, one entry for each line i whose rewrite differs from
li, with `Line = i` (counted from 1), `CharactersRemoved = len(li) - len(rewrite)` and
the stage's name, file path and default flag. -/
theorem SingleLineRedactor.Redact_ledger (r : SingleLineRedactor)
    (input : List (List String × String)) (e : GoError) (w : PipeWriter) :
    ∃ res, r.Redact (Reader.ofSegments input e) w = some res ∧
      res.ledger = ((input.map Reader.lineOf).enumFrom 1).filterMap (fun p =>
        if r.rewrite p.2 ≠ p.2 then
          some
            { RedactorName := r.redactName
              CharactersRemoved := len p.2 - len (r.rewrite p.2)
              Line := (p.1 : Int)
              File := r.filePath
              IsDefaultRedactor := r.isDefault }
        else none) := by
  rw [SingleLineRedactor.Redact_ofSegments]
  exact ⟨_, rfl, rfl⟩

/-! ### Multi-line stage -/

theorem getNextTwoLines_nil_none (e : GoError) :
    getNextTwoLines (Reader.ofSegments [] e) none =
      (("", "", some e), Reader.ofSegments [] e) := by
  simp [getNextTwoLines, readLine_ofSegments_nil]

theorem getNextTwoLines_one_none (a : List String × String) (e : GoError) :
    getNextTwoLines (Reader.ofSegments [a] e) none =
      ((Reader.lineOf a, "", some e), Reader.ofSegments [] e) := by
  simp [getNextTwoLines, readLine_ofSegments_cons, readLine_ofSegments_nil]

theorem getNextTwoLines_two_none (a b : List String × String)
    (rest : List (List String × String)) (e : GoError) :
    getNextTwoLines (Reader.ofSegments (a :: b :: rest) e) none =
      ((Reader.lineOf a, Reader.lineOf b, none), Reader.ofSegments rest e) := by
  simp [getNextTwoLines, readLine_ofSegments_cons]

theorem getNextTwoLines_nil_some (c : String) (e : GoError) :
    getNextTwoLines (Reader.ofSegments [] e) (some c) =
      ((c, "", some e), Reader.ofSegments [] e) := by
  simp [getNextTwoLines, readLine_ofSegments_nil]

theorem getNextTwoLines_cons_some (c : String) (a : List String × String)
    (rest : List (List String × String)) (e : GoError) :
    getNextTwoLines (Reader.ofSegments (a :: rest) e) (some c) =
      ((c, Reader.lineOf a, none), Reader.ofSegments rest e) := by
  simp [getNextTwoLines, readLine_ofSegments_cons]

/-- Behaviour of the loop of a multi-line stage on an open pipe, once the window is
filled: it returns, having emitted `emitted` and recorded `recorded`. -/
theorem MultiLineRedactor.multi_loop_ofSegments (r : MultiLineRedactor) (e : GoError) :
    ∀ (fuel : Nat) (rest : List (List String × String)) (a b : String) (flush : Bool)
      (n : Nat) (out : List String) (led : List Redaction),
      rest.length + 2 ≤ fuel →
      MultiLineRedactor.loop r (getReplacementPattern r.re2 r.maskText) fuel a b none flush n
          { reader := Reader.ofSegments rest e
            writer := { written := out, credit := none }
            ledger := led } =
        some
          ({ reader := Reader.ofSegments [] e
             writer :=
               { written := out ++ r.emitted a b (rest.map Reader.lineOf), credit := none }
             ledger := led ++ r.recorded n a b (rest.map Reader.lineOf) },
            some e) := by
  intro fuel
  induction fuel with
  | zero => intro rest a b flush n out led h; omega
  | succ fuel ih =>
    intro rest a b flush n out led h
    match rest, h with
    | [], h =>
      cases fuel with
      | zero => simp at h
      | succ fuel =>
        by_cases hm : r.re1.MatchString a = true
        · by_cases hc : r.re2.ReplaceAllString b (getReplacementPattern r.re2 r.maskText) = b
          · simp [MultiLineRedactor.loop, hm, hc, Stage.Fprintf, PipeWriter.Fprintf,
              getNextTwoLines_nil_none, MultiLineRedactor.emitted, MultiLineRedactor.recorded,
              MultiLineRedactor.rewrite]
          · simp [MultiLineRedactor.loop, hm, hc, Stage.Fprintf, PipeWriter.Fprintf,
              getNextTwoLines_nil_none, MultiLineRedactor.emitted, MultiLineRedactor.recorded,
              MultiLineRedactor.rewrite, Stage.addRedaction, MultiLineRedactor.redactionAt]
        · simp [MultiLineRedactor.loop, hm, Stage.Fprintf, PipeWriter.Fprintf,
            getNextTwoLines_nil_some, MultiLineRedactor.emitted, MultiLineRedactor.recorded]
    | [c], h =>
      have h2 : ([] : List (List String × String)).length + 2 ≤ fuel := by simp at h; simpa using h
      by_cases hm : r.re1.MatchString a = true
      · cases fuel with
        | zero => simp at h2
        | succ fuel =>
          by_cases hc : r.re2.ReplaceAllString b (getReplacementPattern r.re2 r.maskText) = b
          · simp [MultiLineRedactor.loop, hm, hc, Stage.Fprintf, PipeWriter.Fprintf,
              getNextTwoLines_one_none, MultiLineRedactor.emitted, MultiLineRedactor.recorded,
              MultiLineRedactor.rewrite]
          · simp [MultiLineRedactor.loop, hm, hc, Stage.Fprintf, PipeWriter.Fprintf,
              getNextTwoLines_one_none, MultiLineRedactor.emitted, MultiLineRedactor.recorded,
              MultiLineRedactor.rewrite, Stage.addRedaction, MultiLineRedactor.redactionAt]
      · have hi := ih [] b (Reader.lineOf c) true (n + 1) (out ++ [a]) led h2
        rw [MultiLineRedactor.loop]
        simp only [hm, Stage.Fprintf, PipeWriter.Fprintf, getNextTwoLines_cons_some,
          Option.isSome_none, Bool.false_eq_true, if_false, Bool.not_false, if_true, hi]
        simp [MultiLineRedactor.emitted, MultiLineRedactor.recorded, List.map_cons, hm]
    | c :: d :: rest, h =>
      by_cases hm : r.re1.MatchString a = true
      · have h2 : rest.length + 2 ≤ fuel := by simp at h; omega
        by_cases hc : r.rewrite b = b
        · have hi := ih rest (Reader.lineOf c) (Reader.lineOf d) false (n + 1)
            (out ++ [a, r.rewrite b]) led h2
          have hc2 : r.re2.ReplaceAllString b (getReplacementPattern r.re2 r.maskText) = b := hc
          rw [MultiLineRedactor.loop]
          rw [hc] at hi
          simp only [hm, hc2, Stage.Fprintf, PipeWriter.Fprintf, getNextTwoLines_two_none,
            Option.isSome_none, Bool.false_eq_true, if_false, Bool.not_true, ne_eq,
            not_true_eq_false, hi]
          simp [MultiLineRedactor.emitted, MultiLineRedactor.recorded, List.map_cons, hm, hc]
        · have hi := ih rest (Reader.lineOf c) (Reader.lineOf d) false (n + 1)
            (out ++ [a, r.rewrite b]) (led ++ [r.redactionAt (n + 1) b]) h2
          have hc2 : ¬ r.re2.ReplaceAllString b (getReplacementPattern r.re2 r.maskText) = b := hc
          rw [MultiLineRedactor.loop]
          simp only [MultiLineRedactor.rewrite, MultiLineRedactor.redactionAt] at hi
          simp only [hm, hc2, Stage.Fprintf, PipeWriter.Fprintf, getNextTwoLines_two_none,
            Option.isSome_none, Bool.false_eq_true, if_false, Bool.not_true, ne_eq,
            not_false_eq_true, if_true, Stage.addRedaction, hi]
          simp [MultiLineRedactor.emitted, MultiLineRedactor.recorded, List.map_cons, hm, hc, hc2,
            MultiLineRedactor.rewrite, MultiLineRedactor.redactionAt]
      · have h2 : (d :: rest).length + 2 ≤ fuel := by simp at h; simp; omega
        have hi := ih (d :: rest) b (Reader.lineOf c) true (n + 1) (out ++ [a]) led h2
        rw [MultiLineRedactor.loop]
        simp only [hm, Stage.Fprintf, PipeWriter.Fprintf, getNextTwoLines_cons_some,
          Option.isSome_none, Bool.false_eq_true, if_false, Bool.not_false, if_true, hi]
        simp [MultiLineRedactor.emitted, MultiLineRedactor.recorded, List.map_cons, hm]

theorem MultiLineRedactor.Redact_ofSegments_nil (r : MultiLineRedactor) (e : GoError) :
    r.Redact (Reader.ofSegments [] e) PipeWriter.fresh =
      some
        { written := ["", ""]
          closeErr := if some e = some GoError.EOF then none else some e
          ledger := []
          reader := Reader.ofSegments [] e } := by
  simp [MultiLineRedactor.Redact, getNextTwoLines_nil_none, Stage.Fprintf, PipeWriter.Fprintf,
    PipeWriter.fresh]

theorem MultiLineRedactor.Redact_ofSegments_two (r : MultiLineRedactor)
    (a b : List String × String) (rest : List (List String × String)) (e : GoError) :
    r.Redact (Reader.ofSegments (a :: b :: rest) e) PipeWriter.fresh =
      some
        { written := r.emitted (Reader.lineOf a) (Reader.lineOf b) (rest.map Reader.lineOf)
          closeErr := if some e = some GoError.EOF then none else some e
          ledger := r.recorded 1 (Reader.lineOf a) (Reader.lineOf b) (rest.map Reader.lineOf)
          reader := Reader.ofSegments [] e } := by
  have hlen := Reader.ofSegments_length (a :: b :: rest) e
  have h := MultiLineRedactor.multi_loop_ofSegments r e
    ((Reader.ofSegments (a :: b :: rest) e).pending.length + 1) rest (Reader.lineOf a)
    (Reader.lineOf b) false 1 [] [] (by simp only [List.length_cons] at hlen; omega)
  unfold MultiLineRedactor.Redact
  simp only [getNextTwoLines_two_none, PipeWriter.fresh, h, Option.isSome_none,
    Bool.false_eq_true, if_false, List.nil_append]

theorem MultiLineRedactor.loneLineAfterPair_match (r : MultiLineRedactor)
    (a b c d : String) (rest : List String) (hm : r.re1.MatchString a = true) :
    r.loneLineAfterPair (a :: b :: c :: d :: rest) = r.loneLineAfterPair (c :: d :: rest) := by
  rw [MultiLineRedactor.loneLineAfterPair]
  · simp only [hm, if_true]
  · intro head h
    simp at h

theorem MultiLineRedactor.loneLineAfterPair_no_match (r : MultiLineRedactor)
    (a b : String) (rest : List String) (hm : ¬ r.re1.MatchString a = true) :
    r.loneLineAfterPair (a :: b :: rest) = r.loneLineAfterPair (b :: rest) := by
  match rest with
  | [] => simp [MultiLineRedactor.loneLineAfterPair]
  | [c] => simp [MultiLineRedactor.loneLineAfterPair, hm]
  | c :: d :: rest =>
    rw [MultiLineRedactor.loneLineAfterPair]
    · simp only [hm, if_false]
      simp
    · intro head h
      simp at h

theorem MultiLineRedactor.emitted_length (r : MultiLineRedactor) :
    ∀ (rest : List String) (a b : String),
      r.loneLineAfterPair (a :: b :: rest) = false →
      (r.emitted a b rest).length = rest.length + 2
  | [], a, b, _ => by
    by_cases hm : r.re1.MatchString a = true <;> simp [MultiLineRedactor.emitted, hm]
  | [c], a, b, h => by
    by_cases hm : r.re1.MatchString a = true
    · simp [MultiLineRedactor.loneLineAfterPair, hm] at h
    · by_cases hb : r.re1.MatchString b = true <;> simp [MultiLineRedactor.emitted, hm, hb]
  | c :: d :: rest, a, b, h => by
    by_cases hm : r.re1.MatchString a = true
    · rw [MultiLineRedactor.loneLineAfterPair_match r a b c d rest hm] at h
      have := MultiLineRedactor.emitted_length r rest c d h
      simp [MultiLineRedactor.emitted, hm, this]
    · rw [MultiLineRedactor.loneLineAfterPair_no_match r a b _ hm] at h
      have := MultiLineRedactor.emitted_length r (d :: rest) b c h
      rw [MultiLineRedactor.emitted]
      simp [hm, this]

/-- C3, as stated, fails: on the empty input (n = 0) a multi-line stage emits two lines. -/
theorem MultiLineRedactor.Redact_empty_input_two_lines :
    ∃ res, keySecretStage.Redact (Reader.ofLines [] GoError.EOF) PipeWriter.fresh = some res ∧
      res.written = ["", ""] ∧ res.written.length ≠ ([] : List String).length :=
  ⟨_, MultiLineRedactor.Redact_ofSegments_nil _ _, rfl, by decide⟩

/-- C3, amended: on the empty input a multi-line stage emits exactly two lines; on an
input of n ≥ 2 lines, read without error, whose greedy pairing of selector lines with
value lines does not end with a pair followed by exactly one more line, the stage
returns and the number of lines it has emitted is n. -/
theorem MultiLineRedactor.Redact_line_count (r : MultiLineRedactor)
    (input : List (List String × String)) (e : GoError) (h2 : 2 ≤ input.length)
    (hl : r.loneLineAfterPair (input.map Reader.lineOf) = false) :
    (∃ res, r.Redact (Reader.ofSegments [] e) PipeWriter.fresh = some res ∧
      res.written.length = 2) ∧
    (∃ res, r.Redact (Reader.ofSegments input e) PipeWriter.fresh = some res ∧
      res.written.length = input.length) := by
  refine ⟨⟨_, MultiLineRedactor.Redact_ofSegments_nil r e, rfl⟩, ?_⟩
  match input, h2, hl with
  | a :: b :: rest, _, hl =>
    refine ⟨_, MultiLineRedactor.Redact_ofSegments_two r a b rest e, ?_⟩
    simp only [List.map_cons] at hl
    simp [MultiLineRedactor.emitted_length r _ _ _ hl]

/-- The amended C3 on the four lines `key`, `secret`, `other`, `end`, the second one
delivered in two segments. -/
theorem MultiLineRedactor.Redact_line_count_witness :
    (2 ≤ [([], "key"), (["sec"], "ret"), ([], "other"), ([], "end")].length ∧
      keySecretStage.loneLineAfterPair
        ([([], "key"), (["sec"], "ret"), ([], "other"), ([], "end")].map Reader.lineOf) =
          false) ∧
    (∃ res, keySecretStage.Redact (Reader.ofSegments [] GoError.EOF) PipeWriter.fresh =
        some res ∧
      res.written.length = 2) ∧
    (∃ res, keySecretStage.Redact
        (Reader.ofSegments [([], "key"), (["sec"], "ret"), ([], "other"), ([], "end")]
          GoError.EOF)
        PipeWriter.fresh = some res ∧
      res.written.length = [([], "key"), (["sec"], "ret"), ([], "other"), ([], "end")].length) :=
  ⟨⟨by decide, by decide⟩,
    MultiLineRedactor.Redact_line_count keySecretStage
      [([], "key"), (["sec"], "ret"), ([], "other"), ([], "end")] GoError.EOF
      (by decide) (by decide)⟩

/-- C4 on the input `key, secret, key, secret`: the second rewritten value line is
physical line 4, and the stage records it with `Line = 3`. -/
theorem MultiLineRedactor.Redact_line_numbers_after_pair :
    (keySecretStage.Redact (Reader.ofLines ["key", "secret", "key", "secret"] GoError.EOF)
        PipeWriter.fresh).map (fun res => (res.written, res.ledger.map (fun x => x.Line))) =
      some (["key", "***HIDDEN***", "key", "***HIDDEN***"], [2, 3]) := by
  decide

/-- C5 on the input `key, secret, key`: the final line matches the selector, is in key
position and has no value line after it, and the stage does not emit it. -/
theorem MultiLineRedactor.Redact_drops_final_selector_line :
    (keySecretStage.Redact (Reader.ofLines ["key", "secret", "key"] GoError.EOF)
        PipeWriter.fresh).map (fun res => res.written) =
      some ["key", "***HIDDEN***"] ∧
    keySecretStage.re1.MatchString "key" = true := by
  decide

/-! ### The stages return on every input -/

theorem readLineLoop_length (err : GoError) :
    ∀ (pending : List (String × Bool)) (acc : String),
      (readLineLoop err pending acc).2.length ≤ pending.length ∧
        ((readLineLoop err pending acc).1.2 = none →
          (readLineLoop err pending acc).2.length < pending.length) := by
  intro pending
  induction pending with
  | nil => intro acc; simp [readLineLoop]
  | cons p ps ih =>
    intro acc
    obtain ⟨line, isPrefix⟩ := p
    cases isPrefix with
    | false => simp [readLineLoop]
    | true =>
      have := ih (acc ++ line)
      simp only [readLineLoop, Bool.not_true, Bool.false_eq_true, if_false, List.length_cons]
      exact ⟨Nat.le_succ_of_le this.1, fun h => Nat.lt_succ_of_lt (this.2 h)⟩

theorem readLine_length (rd : Reader) :
    (readLine rd).2.pending.length ≤ rd.pending.length ∧
      ((readLine rd).1.2 = none → (readLine rd).2.pending.length < rd.pending.length) :=
  readLineLoop_length rd.err rd.pending ""

theorem getNextTwoLines_length (rd : Reader) (cur : Option String) :
    (getNextTwoLines rd cur).2.pending.length ≤ rd.pending.length ∧
      ((getNextTwoLines rd cur).1.2.2 = none →
        (getNextTwoLines rd cur).2.pending.length < rd.pending.length) := by
  have h1 := readLine_length rd
  cases cur with
  | some c => exact h1
  | none =>
    have h2 := readLine_length (readLine rd).2
    cases he : (readLine rd).1.2 with
    | some e => simpa [getNextTwoLines, he] using h1.1
    | none =>
      simp only [getNextTwoLines, he, Option.isSome_none, Bool.false_eq_true, if_false]
      exact ⟨Nat.le_trans h2.1 h1.1, fun _ => Nat.lt_of_le_of_lt h2.1 (h1.2 he)⟩

/-- The loop of a single-line stage returns on every input and every pipe, given more
fuel than the upstream has segments left. -/
theorem SingleLineRedactor.single_loop_returns (r : SingleLineRedactor) (substStr : String) :
    ∀ (fuel n : Nat) (st : Stage), st.reader.pending.length < fuel →
      ∃ out, SingleLineRedactor.loop r substStr fuel n st = some out := by
  intro fuel
  induction fuel with
  | zero => intro n st h; omega
  | succ fuel ih =>
    intro n st h
    have hr := readLine_length st.reader
    rw [SingleLineRedactor.loop]
    cases he : (readLine st.reader).1.2 with
    | some e =>
      simp only [he, Option.isSome_some, if_true]
      exact ⟨_, rfl⟩
    | none =>
      have hlt : (readLine st.reader).2.pending.length < fuel := by
        have := hr.2 he
        omega
      simp only [he, Option.isSome_none, Bool.false_eq_true, if_false]
      split_ifs
      · exact ih _ _ hlt
      · exact ih _ _ hlt
      · exact ih _ _ hlt

/-- `SingleLineRedactor.Redact` returns on every input and every pipe: the fuel of the
model never runs out. -/
theorem SingleLineRedactor.single_Redact_returns (r : SingleLineRedactor) (input : Reader)
    (writer : PipeWriter) : ∃ res, r.Redact input writer = some res := by
  obtain ⟨out, h⟩ := SingleLineRedactor.single_loop_returns r (getReplacementPattern r.re r.maskText)
    (input.pending.length + 1) 0 { reader := input, writer := writer, ledger := [] }
    (Nat.lt_succ_self _)
  simp only [SingleLineRedactor.Redact, h]
  exact ⟨_, rfl⟩

/-- The loop of a multi-line stage returns on every input and every pipe, given two
units of fuel more than the upstream has segments left. -/
theorem MultiLineRedactor.multi_loop_returns (r : MultiLineRedactor) (substStr : String) :
    ∀ (fuel : Nat) (line1 line2 : String) (err : Option GoError) (flush : Bool) (n : Nat)
      (st : Stage), st.reader.pending.length + 2 ≤ fuel →
      ∃ out, MultiLineRedactor.loop r substStr fuel line1 line2 err flush n st = some out := by
  intro fuel
  induction fuel with
  | zero => intro line1 line2 err flush n st h; omega
  | succ fuel ih =>
    intro line1 line2 err flush n st h
    rw [MultiLineRedactor.loop]
    cases err with
    | some e =>
      simp only [Option.isSome_some, if_true]
      exact ⟨_, rfl⟩
    | none =>
      simp only [Option.isSome_none, Bool.false_eq_true, if_false]
      have key : ∀ (rd : Reader) (cur : Option String) (fl : Bool) (w : PipeWriter)
          (led : List Redaction), rd.pending.length + 2 ≤ fuel + 1 →
          ∃ out, MultiLineRedactor.loop r substStr fuel (getNextTwoLines rd cur).1.1
            (getNextTwoLines rd cur).1.2.1 (getNextTwoLines rd cur).1.2.2 fl (n + 1)
            { reader := (getNextTwoLines rd cur).2, writer := w, ledger := led } = some out := by
        intro rd cur fl w led hrd
        have hg := getNextTwoLines_length rd cur
        cases he : (getNextTwoLines rd cur).1.2.2 with
        | some e =>
          cases fuel with
          | zero => omega
          | succ fuel =>
            simp only [MultiLineRedactor.loop, Option.isSome_some, if_true]
            exact ⟨_, rfl⟩
        | none =>
          have := hg.2 he
          rw [← he]
          exact ih _ _ _ _ _ _ (by simp only; omega)
      split_ifs
      · exact key st.reader (some line2) true _ _ h
      · exact key st.reader none false _ _ h
      · exact key st.reader none false _ _ h

/-- `MultiLineRedactor.Redact` returns on every input and every pipe: the fuel of the
model never runs out. -/
theorem MultiLineRedactor.multi_Redact_returns (r : MultiLineRedactor) (input : Reader)
    (writer : PipeWriter) : ∃ res, r.Redact input writer = some res := by
  have hg := getNextTwoLines_length input none
  unfold MultiLineRedactor.Redact
  cases he : (getNextTwoLines input none).1.2.2 with
  | some e =>
    simp only [he, Option.isSome_some, if_true]
    exact ⟨_, rfl⟩
  | none =>
    have hlt := hg.2 he
    obtain ⟨out, h⟩ := MultiLineRedactor.multi_loop_returns r
      (getReplacementPattern r.re2 r.maskText) (input.pending.length + 1)
      (getNextTwoLines input none).1.1 (getNextTwoLines input none).1.2.1 none false 1
      { reader := (getNextTwoLines input none).2, writer := writer, ledger := [] }
      (by simp only; omega)
    simp only [he, Option.isSome_none, Bool.false_eq_true, if_false, h]
    exact ⟨_, rfl⟩

/-! ### Replacement template -/

theorem getReplacementPattern_foldl (maskText : String) :
    ∀ (names : List String) (k : Nat) (acc : String), 0 < k →
      (names.enumFrom k).foldl
          (fun substStr p =>
            if p.1 = 0 then substStr
            else if p.2 = "" then substStr ++ "$" ++ fmtInt p.1
            else if p.2 = "mask" then substStr ++ maskText
            else if p.2 = "drop" then substStr
            else substStr ++ "$\x7b" ++ p.2 ++ "\x7d")
          acc =
        acc ++ String.join ((names.enumFrom k).map (fun p =>
          if p.2 = "" then "$" ++ fmtInt p.1
          else if p.2 = "mask" then maskText
          else if p.2 = "drop" then ""
          else "$\x7b" ++ p.2 ++ "\x7d")) := by
  intro names
  induction names with
  | nil => intro k acc _; simp [String.join]
  | cons n ns ih =>
    intro k acc hk
    have hk0 : k ≠ 0 := by omega
    simp only [List.enumFrom, List.foldl_cons, List.map_cons, hk0, if_false]
    rw [ih (k + 1) _ (by omega)]
    simp only [String.join_eq, List.map_cons, List.flatten_cons]
    by_cases h1 : n = ""
    · simp [h1, String.ext_iff]
    · by_cases h2 : n = "mask"
      · simp [h2, String.ext_iff]
      · by_cases h3 : n = "drop"
        · simp [h3, String.ext_iff]
        · simp [h1, h2, h3, String.ext_iff]

theorem getReplacementPattern_join (re : Regexp) (maskText : String) :
    getReplacementPattern re maskText =
      String.join ((re.SubexpNames.tail.enumFrom 1).map (fun p =>
        if p.2 = "" then "$" ++ fmtInt p.1
        else if p.2 = "mask" then maskText
        else if p.2 = "drop" then ""
        else "$\x7b" ++ p.2 ++ "\x7d")) := by
  unfold getReplacementPattern
  cases hn : re.SubexpNames with
  | nil => simp [List.enum, String.join]
  | cons n0 names =>
    simp only [List.enum, List.enumFrom, List.foldl_cons, if_true, List.tail_cons]
    rw [getReplacementPattern_foldl maskText names (0 + 1) "" (by omega)]
    simp [String.ext_iff]

/-- C7: the template is the concatenation, over the capture groups i = 1..k in order,
of `$i` (i in decimal) for an unnamed group, the mask for a group named `mask`, nothing
for a group named `drop`, and `$` with the name in braces for any other name; group 0
contributes nothing, and a regex without capture groups has the empty template. -/
theorem getReplacementPattern_eq_join (re : Regexp) (maskText : String) :
    getReplacementPattern re maskText =
        String.join ((re.SubexpNames.tail.enumFrom 1).map (fun p =>
          if p.2 = "" then "$" ++ fmtInt p.1
          else if p.2 = "mask" then maskText
          else if p.2 = "drop" then ""
          else "$\x7b" ++ p.2 ++ "\x7d")) ∧
      getReplacementPattern { re with SubexpNames := [""] } maskText = "" :=
  ⟨getReplacementPattern_join re maskText,
    by simp [getReplacementPattern, List.enum, List.enumFrom]⟩

/-! ### Chain construction -/

theorem buildAdditionalRedactors.literals_kind (path : String) (i : Nat) (name : String) :
    ∀ (vals : List String) (j : Nat) (acc : List Redactor),
      (buildAdditionalRedactors.literals path i name j vals acc).map Redactor.kind =
        acc.map Redactor.kind ++ vals.map (fun _ => Kind.literal) := by
  intro vals
  induction vals with
  | nil => intro j acc; simp [buildAdditionalRedactors.literals]
  | cons v vs ih =>
    intro j acc
    simp [buildAdditionalRedactors.literals, ih, Redactor.kind]

theorem buildAdditionalRedactors.yamls_kind (path : String) (i : Nat) (name : String) :
    ∀ (vals : List String) (j : Nat) (acc : List Redactor),
      (buildAdditionalRedactors.yamls path i name j vals acc).map Redactor.kind =
        acc.map Redactor.kind ++ vals.map (fun _ => Kind.yaml) := by
  intro vals
  induction vals with
  | nil => intro j acc; simp [buildAdditionalRedactors.yamls]
  | cons v vs ih =>
    intro j acc
    simp [buildAdditionalRedactors.yamls, ih, Redactor.kind]

theorem buildAdditionalRedactors.regexes_kind (H : Host) (path : String) (i : Nat)
    (name : String) :
    ∀ (res : List troubleshootv1beta2.Regex) (j : Nat) (acc out : List Redactor),
      buildAdditionalRedactors.regexes H path i name j res acc = Outcome.ok out →
      out.map Redactor.kind =
        acc.map Redactor.kind ++
          res.map (fun re => if re.Selector ≠ "" then Kind.multiLine else Kind.singleLine) := by
  intro res
  induction res with
  | nil =>
    intro j acc out h
    simp only [buildAdditionalRedactors.regexes, Outcome.ok.injEq] at h
    simp [← h]
  | cons re rest ih =>
    intro j acc out h
    rw [buildAdditionalRedactors.regexes] at h
    by_cases hs : re.Selector = ""
    · simp only [hs, ne_eq, not_true_eq_false, if_false] at h
      cases hc : H.Compile ("(?i)" ++ re.Redactor) with
      | error err => simp [hc, Outcome.bind] at h
      | ok compiled =>
        simp only [hc, NewSingleLineRedactor, Outcome.bind] at h
        have := ih _ _ _ h
        simp [this, hs, Redactor.kind]
    · simp only [hs, ne_eq, not_false_eq_true, if_true, Host.MustCompile] at h
      cases h1 : H.Compile re.Selector with
      | error err => simp [h1, Outcome.bind] at h
      | ok re1 =>
        cases h2 : H.Compile re.Redactor with
        | error err => simp [h1, h2, Outcome.bind] at h
        | ok re2 =>
          simp only [h1, h2, NewMultiLineRedactor, Outcome.bind] at h
          have := ih _ _ _ h
          simp [this, hs, Redactor.kind]

theorem buildAdditionalRedactors.specs_kind (H : Host) (path : String) :
    ∀ (redacts : List (Option troubleshootv1beta2.Redact)) (i : Nat) (acc out : List Redactor),
      buildAdditionalRedactors.specs H path i redacts acc = Outcome.ok out →
      out.map Redactor.kind = acc.map Redactor.kind ++ userKinds H path redacts := by
  intro redacts
  induction redacts with
  | nil =>
    intro i acc out h
    simp only [buildAdditionalRedactors.specs, Outcome.ok.injEq] at h
    simp [← h, userKinds]
  | cons r rest ih =>
    intro i acc out h
    cases r with
    | none =>
      simp only [buildAdditionalRedactors.specs] at h
      simpa [userKinds] using ih _ _ _ h
    | some redact =>
      rw [buildAdditionalRedactors.specs] at h
      cases he : (redactMatchesPath H path redact).2 with
      | some err => simp [he] at h
      | none =>
        simp only [he] at h
        by_cases hm : (redactMatchesPath H path redact).1 = true
        · simp only [hm, Bool.not_true, Bool.false_eq_true, if_false] at h
          cases hr : buildAdditionalRedactors.regexes H path i redact.Name 0
              redact.Removals.Regex
              (buildAdditionalRedactors.literals path i redact.Name 0 redact.Removals.Values
                acc) with
          | error err => simp [hr, Outcome.bind] at h
          | panic msg => simp [hr, Outcome.bind] at h
          | ok mid =>
            simp only [hr, Outcome.bind] at h
            have h1 := ih _ _ _ h
            have h2 := buildAdditionalRedactors.regexes_kind H path i redact.Name _ _ _ _ hr
            simp [h1, h2, buildAdditionalRedactors.yamls_kind,
              buildAdditionalRedactors.literals_kind, userKinds, hm,
              troubleshootv1beta2.Redact.kinds]
        · simp only [hm, Bool.not_false, Bool.not_eq_true] at h
          have hm2 : (redactMatchesPath H path redact).1 = false := by simpa using hm
          simp only [hm2, Bool.not_false, if_true] at h
          simpa [userKinds, hm2] using ih _ _ _ h

theorem getRedactors.singles_eq (H : Host) (path : String) :
    ∀ (pats : List (String × String)) (acc : List Redactor),
      getRedactors.singles H path pats acc =
        (acc ++ pats.map (fun re => Redactor.singleLine
          { re := H.catalogue re.1, maskText := MASK_TEXT, filePath := path,
            redactName := re.2, isDefault := true }), none) := by
  intro pats
  induction pats with
  | nil => intro acc; simp [getRedactors.singles]
  | cons p ps ih => intro acc; simp [getRedactors.singles, NewSingleLineRedactor, ih]

theorem getRedactors.doubles_eq (H : Host) (path : String) :
    ∀ (pats : List (String × String × String)) (acc : List Redactor),
      getRedactors.doubles H path pats acc =
        (acc ++ pats.map (fun l => Redactor.multiLine
          { re1 := H.catalogue l.1, re2 := H.catalogue l.2.1, maskText := MASK_TEXT,
            filePath := path, redactName := l.2.2, isDefault := true }), none) := by
  intro pats
  induction pats with
  | nil => intro acc; simp [getRedactors.doubles]
  | cons p ps ih => intro acc; simp [getRedactors.doubles, NewMultiLineRedactor, ih]

theorem getRedactors.customs_eq (H : Host) (acc : List Redactor) :
    getRedactors.customs H customResources [] acc =
      acc ++
        [ Redactor.yaml (NewYamlRedactor "*.spec.kubernetes.bootstrapToken"
            (H.CLUSTER_RESOURCES_DIR ++ "/" ++ H.CLUSTER_RESOURCES_CUSTOM_RESOURCES ++ "/" ++
              "installers.cluster.kurl.sh" ++ "/*") ""),
          Redactor.yaml
            { filePath := H.CLUSTER_RESOURCES_DIR ++ "/" ++
                H.CLUSTER_RESOURCES_CUSTOM_RESOURCES ++ "/" ++ "installers.cluster.kurl.sh" ++
                "/*"
              maskPath :=
                ["*", "metadata", "annotations",
                  "kubectl.kubernetes.io/last-applied-configuration"]
              redactName := "" },
          Redactor.yaml (NewYamlRedactor "*.spec.kubernetes.certKey"
            (H.CLUSTER_RESOURCES_DIR ++ "/" ++ H.CLUSTER_RESOURCES_CUSTOM_RESOURCES ++ "/" ++
              "installers.cluster.kurl.sh" ++ "/*") ""),
          Redactor.yaml (NewYamlRedactor "*.spec.kubernetes.kubeadmToken"
            (H.CLUSTER_RESOURCES_DIR ++ "/" ++ H.CLUSTER_RESOURCES_CUSTOM_RESOURCES ++ "/" ++
              "installers.cluster.kurl.sh" ++ "/*") "") ] := by
  simp [getRedactors.customs, customResources]

theorem getRedactors_kinds (H : Host) (path : String) :
    (getRedactors H path).2 = none ∧
      (getRedactors H path).1.map Redactor.kind =
        singleLinePatterns.map (fun _ => Kind.singleLine) ++
          doubleLinePatterns.map (fun _ => Kind.multiLine) ++ List.replicate 4 Kind.yaml := by
  simp [getRedactors, getRedactors.singles_eq, getRedactors.doubles_eq,
    getRedactors.customs_eq, Redactor.kind, Function.comp_def, List.replicate]

/-- C8, as stated, fails: with a first spec that removes a YAML path and a second one
that removes a literal, the chain holds the 30 built-in redactors, then the YAML-path
redactor of the first spec, then the literal redactor of the second. -/
theorem Redact.redactors_yaml_before_literal :
    ∃ chain, Redact.redactors stubHost "a.txt" [some yamlSpec, some literalSpec] =
        Outcome.ok chain ∧
      chain.length = 32 ∧
      (chain.get? 30).map Redactor.kind = some Kind.yaml ∧
      (chain.get? 31).map Redactor.kind = some Kind.literal :=
  ⟨_, rfl, rfl, rfl, rfl⟩

/-- C8, amended: when chain construction succeeds, the chain holds all built-in
single-line redactors, then all built-in two-line redactors, then the built-in YAML-path
redactors, then, spec by spec in list order for the specs admitted for the path, the
literal redactors of the spec, then its regex and multi-line redactors, then its
YAML-path redactors. -/
theorem Redact.redactors_order (H : Host) (path : String)
    (specs : List (Option troubleshootv1beta2.Redact)) (chain : List Redactor)
    (h : Redact.redactors H path specs = Outcome.ok chain) :
    chain.map Redactor.kind =
      singleLinePatterns.map (fun _ => Kind.singleLine) ++
        doubleLinePatterns.map (fun _ => Kind.multiLine) ++ List.replicate 4 Kind.yaml ++
        userKinds H path specs := by
  have hg := getRedactors_kinds H path
  unfold Redact.redactors at h
  simp only [hg.1] at h
  cases hb : buildAdditionalRedactors H path specs with
  | error err => simp [hb] at h
  | panic msg => simp [hb] at h
  | ok built =>
    simp only [hb, Outcome.ok.injEq] at h
    have hk := buildAdditionalRedactors.specs_kind H path specs 0 [] built hb
    rw [← h, List.map_append, hg.2, hk]
    simp

/-- The amended C8 on the chain built for a spec with a YAML path followed by a spec with
a literal. -/
theorem Redact.redactors_order_witness :
    Redact.redactors stubHost "a.txt" [some yamlSpec, some literalSpec] =
        Outcome.ok ((getRedactors stubHost "a.txt").1 ++
          [Redactor.yaml (NewYamlRedactor "spec.password" "a.txt" "unnamed-0.yaml.0"),
            Redactor.literal (literalString "swordfish" "a.txt" "unnamed-1.literal.0")]) ∧
      ((getRedactors stubHost "a.txt").1 ++
          [Redactor.yaml (NewYamlRedactor "spec.password" "a.txt" "unnamed-0.yaml.0"),
            Redactor.literal (literalString "swordfish" "a.txt" "unnamed-1.literal.0")]).map
          Redactor.kind =
        singleLinePatterns.map (fun _ => Kind.singleLine) ++
          doubleLinePatterns.map (fun _ => Kind.multiLine) ++ List.replicate 4 Kind.yaml ++
          userKinds stubHost "a.txt" [some yamlSpec, some literalSpec] :=
  ⟨rfl, Redact.redactors_order stubHost "a.txt" [some yamlSpec, some literalSpec] _ rfl⟩

theorem redactMatchesPath_no_selector (H : Host) (path : String)
    (redact : troubleshootv1beta2.Redact)
    (h : redact.FileSelector.File = "" ∧ redact.FileSelector.Files = []) :
    redactMatchesPath H path redact = (true, none) := by
  simp [redactMatchesPath, h.1, h.2]

/-- C9 on a spec, admitted for every path, whose regex removal has a selector: when the
selector or the redactor does not compile, `buildAdditionalRedactors` panics inside
`regexp.MustCompile`, and so does chain construction in `Redact`; no error value is
returned. -/
theorem buildAdditionalRedactors_panics_on_bad_regex (H : Host) (path selector redactor : String)
    (hs : selector ≠ "")
    (hbad : (∃ e, H.Compile selector = Except.error e) ∨
      (∃ e, H.Compile redactor = Except.error e)) :
    ∃ msg, buildAdditionalRedactors H path [some (regexSpec selector redactor)] =
        Outcome.panic msg ∧
      Redact.redactors H path [some (regexSpec selector redactor)] = Outcome.panic msg := by
  have hadm : redactMatchesPath H path (regexSpec selector redactor) = (true, none) :=
    redactMatchesPath_no_selector H path _ ⟨rfl, rfl⟩
  have hg := (getRedactors_kinds H path).1
  have key : ∃ msg, buildAdditionalRedactors H path [some (regexSpec selector redactor)] =
      Outcome.panic msg := by
    unfold buildAdditionalRedactors
    rw [buildAdditionalRedactors.specs]
    simp only [hadm, Bool.not_true, Bool.false_eq_true, if_false, regexSpec,
      buildAdditionalRedactors.literals, buildAdditionalRedactors.regexes, ne_eq, hs,
      not_false_eq_true, if_true, Host.MustCompile]
    cases h1 : H.Compile selector with
    | error e => exact ⟨_, rfl⟩
    | ok re1 =>
      rcases hbad with ⟨e, he⟩ | ⟨e, he⟩
      · rw [h1] at he
        cases he
      · simp only [he, Outcome.bind]
        exact ⟨_, rfl⟩
  obtain ⟨msg, hmsg⟩ := key
  refine ⟨msg, hmsg, ?_⟩
  unfold Redact.redactors
  simp only [hg, hmsg]

/-- The panic of C9 on the selector `(`, which does not compile. -/
theorem buildAdditionalRedactors_panics_on_bad_regex_witness :
    ("(" ≠ "" ∧ ((∃ e, stubHost.Compile "(" = Except.error e) ∨
      (∃ e, stubHost.Compile "secret" = Except.error e))) ∧
    ∃ msg, buildAdditionalRedactors stubHost "a.txt" [some (regexSpec "(" "secret")] =
        Outcome.panic msg ∧
      Redact.redactors stubHost "a.txt" [some (regexSpec "(" "secret")] = Outcome.panic msg :=
  ⟨⟨by decide, Or.inl ⟨_, rfl⟩⟩,
    buildAdditionalRedactors_panics_on_bad_regex stubHost "a.txt" "(" "secret" (by decide)
      (Or.inl ⟨_, rfl⟩)⟩

theorem redactMatchesPath.anyMatch_append (path : String) :
    ∀ (xs ys : List Glob),
      redactMatchesPath.anyMatch path (xs ++ ys) =
        (redactMatchesPath.anyMatch path xs || redactMatchesPath.anyMatch path ys) := by
  intro xs
  induction xs with
  | nil => intro ys; simp [redactMatchesPath.anyMatch]
  | cons x xs ih =>
    intro ys
    by_cases hx : x.Match path = true <;> simp [redactMatchesPath.anyMatch, hx, ih]

theorem redactMatchesPath.compileFiles_ok (H : Host) (path : String) :
    ∀ (files : List String) (i : Nat) (globs : List Glob),
      (∀ g ∈ files, H.globCompiles g = true) →
      ∃ gs, redactMatchesPath.compileFiles H i files globs = Except.ok gs ∧
        redactMatchesPath.anyMatch path gs =
          (redactMatchesPath.anyMatch path globs || files.any (fun g => H.globMatches g path)) := by
  intro files
  induction files with
  | nil => intro i globs _; exact ⟨globs, rfl, by simp⟩
  | cons f fs ih =>
    intro i globs hc
    have hf := hc f (List.mem_cons_self _ _)
    have hfs : ∀ g ∈ fs, H.globCompiles g = true := fun g hg => hc g (List.mem_cons_of_mem _ hg)
    rw [redactMatchesPath.compileFiles]
    cases hcf : H.globCompile f '/' with
    | error e => simp [Host.globCompiles, hcf] at hf
    | ok c =>
      obtain ⟨gs, h1, h2⟩ := ih (i + 1) (globs ++ [c]) hfs
      refine ⟨gs, h1, ?_⟩
      rw [h2, redactMatchesPath.anyMatch_append]
      simp [redactMatchesPath.anyMatch, Host.globMatches, hcf, Bool.or_assoc]

/-- C10, as stated, fails: the spec with `file = "*"` and `files = ["["]` has a glob that
matches the path `a.txt`, and `redactMatchesPath` returns false with an error, because
the other glob string does not compile. -/
theorem redactMatchesPath_matching_glob_with_bad_glob :
    stubHost.globMatches badGlobSpec.FileSelector.File "a.txt" = true ∧
      (redactMatchesPath stubHost "a.txt" badGlobSpec).1 = false ∧
      (redactMatchesPath stubHost "a.txt" badGlobSpec).2 =
        some (GoError.wrap (GoError.other "unexpected end of input")
          "invalid file glob string %d %q" ["0", "["]) := by
  decide

/-- C10, amended: when every glob string of the file selector compiles,
`redactMatchesPath` returns no error, and returns true exactly when the selector is empty
(no `file` and no `files`) or one of its globs (`file` or an element of `files`) matches
the path: true for the empty selector, true whenever any single glob matches, false when
the selector is non-empty and no glob matches. -/
theorem redactMatchesPath_of_globs_compile (H : Host) (path : String)
    (redact : troubleshootv1beta2.Redact)
    (hc : ∀ g ∈ redact.globs, H.globCompiles g = true) :
    redactMatchesPath H path redact =
      (decide (redact.FileSelector.File = "" ∧ redact.FileSelector.Files = []) ||
        redact.globs.any (fun g => H.globMatches g path), none) := by
  by_cases he : redact.FileSelector.File = "" ∧ redact.FileSelector.Files = []
  · rw [redactMatchesPath_no_selector H path redact he]
    simp [he]
  · have he2 : ¬ (redact.FileSelector.File = "" ∧ redact.FileSelector.Files.length = 0) := by
      simpa [List.length_eq_zero] using he
    have hfs : ∀ g ∈ redact.FileSelector.Files, H.globCompiles g = true := fun g hg =>
      hc g (by simp [troubleshootv1beta2.Redact.globs, hg])
    unfold redactMatchesPath
    simp only [he2, if_false]
    by_cases hf : redact.FileSelector.File = ""
    · obtain ⟨gs, h1, h2⟩ :=
        redactMatchesPath.compileFiles_ok H path redact.FileSelector.Files 0 [] hfs
      have hne : redact.FileSelector.Files ≠ [] := fun h => he ⟨hf, h⟩
      simp [hf, h1, h2, redactMatchesPath.anyMatch, troubleshootv1beta2.Redact.globs, hne]
    · have hfc := hc redact.FileSelector.File (by simp [troubleshootv1beta2.Redact.globs, hf])
      cases hcf : H.globCompile redact.FileSelector.File '/' with
      | error e => simp [Host.globCompiles, hcf] at hfc
      | ok c =>
        obtain ⟨gs, h1, h2⟩ :=
          redactMatchesPath.compileFiles_ok H path redact.FileSelector.Files 0 [c] hfs
        simp [hf, hcf, h1, h2, redactMatchesPath.anyMatch, troubleshootv1beta2.Redact.globs,
          Host.globMatches]

/-- The amended C10 on the selector `file = "*"`, `files = ["b.txt"]` and the path
`a.txt`. -/
theorem redactMatchesPath_of_globs_compile_witness :
    (∀ g ∈ ({ badGlobSpec with FileSelector := { File := "*", Files := ["b.txt"] } } :
        troubleshootv1beta2.Redact).globs, stubHost.globCompiles g = true) ∧
    redactMatchesPath stubHost "a.txt"
        { badGlobSpec with FileSelector := { File := "*", Files := ["b.txt"] } } =
      (true, none) :=
  ⟨by decide,
    redactMatchesPath_of_globs_compile stubHost "a.txt"
      { badGlobSpec with FileSelector := { File := "*", Files := ["b.txt"] } } (by decide)⟩

/-! ### Template expansion -/

/-- C6, as stated, fails: for the pattern `a(?P<mask>b)c` and the match `abc`, the
substitution yields the mask alone; the matched text with the `mask` group replaced is
`a***HIDDEN***c`. -/
theorem Regexp.expand_loses_text_outside_groups :
    Regexp.aMaskBc.expand Unicode.ascii
        (Piece.caps [⟨none, "a"⟩, ⟨some 1, "b"⟩, ⟨none, "c"⟩] 1)
        (getReplacementPattern Regexp.aMaskBc MASK_TEXT) = "***HIDDEN***" ∧
      Piece.masked Regexp.aMaskBc.SubexpNames MASK_TEXT
        [⟨none, "a"⟩, ⟨some 1, "b"⟩, ⟨none, "c"⟩] = "a***HIDDEN***c" := by
  decide

theorem digitChar_facts (d : Nat) (h : d < 10) :
    ¬ (Nat.digitChar d < '0') ∧ ¬ ('9' < Nat.digitChar d) ∧
      (Nat.digitChar d).toNat - '0'.toNat = d ∧ (Nat.digitChar d).toNat < 128 ∧
      (Nat.digitChar d).isDigit = true ∧ (d ≠ 0 → Nat.digitChar d ≠ '0') := by
  interval_cases d <;> decide

theorem extract.number_append (c : Char) :
    ∀ (xs : List Char) (acc : Nat),
      extract.number (xs ++ [c]) acc =
        match extract.number xs acc with
        | none => none
        | some m =>
          if c < '0' ∨ '9' < c ∨ 100000000 ≤ m then none
          else some (m * 10 + (c.toNat - '0'.toNat)) := by
  intro xs
  induction xs with
  | nil => intro acc; simp [extract.number]
  | cons x xs ih =>
    intro acc
    by_cases hx : x < '0' ∨ '9' < x ∨ 100000000 ≤ acc
    · simp [extract.number, hx]
    · simp only [List.cons_append, extract.number, hx, if_false]
      exact ih _

theorem toDigitsCore_append :
    ∀ (fuel n : Nat) (ds : List Char),
      Nat.toDigitsCore 10 fuel n ds = Nat.toDigitsCore 10 fuel n [] ++ ds := by
  intro fuel
  induction fuel with
  | zero => intro n ds; simp [Nat.toDigitsCore]
  | succ fuel ih =>
    intro n ds
    by_cases h : n / 10 = 0
    · simp [Nat.toDigitsCore, h]
    · simp only [Nat.toDigitsCore, h, if_false]
      rw [ih (n / 10) (Nat.digitChar (n % 10) :: ds), ih (n / 10) [Nat.digitChar (n % 10)]]
      simp

/-- The decimal digits `toDigitsCore` produces: all of them are digits, they have no
leading zero, and `extract.number` reads the number back when it is below `1e9`. -/
theorem toDigitsCore_facts :
    ∀ (fuel n : Nat), n < fuel →
      (∀ c ∈ Nat.toDigitsCore 10 fuel n [], c.isDigit = true ∧ c.toNat < 128) ∧
      Nat.toDigitsCore 10 fuel n [] ≠ [] ∧
      (n ≠ 0 → (Nat.toDigitsCore 10 fuel n []).head? ≠ some '0') ∧
      (n < 1000000000 → extract.number (Nat.toDigitsCore 10 fuel n []) 0 = some n) := by
  intro fuel
  induction fuel with
  | zero => intro n h; omega
  | succ fuel ih =>
    intro n h
    have hd := digitChar_facts (n % 10) (Nat.mod_lt _ (by omega))
    by_cases h0 : n / 10 = 0
    · have hn : n % 10 = n := Nat.mod_eq_of_lt (by omega)
      simp only [Nat.toDigitsCore, h0, if_true]
      refine ⟨?_, by simp, ?_, ?_⟩
      · intro c hc
        simp only [List.mem_singleton] at hc
        subst hc
        exact ⟨hd.2.2.2.2.1, hd.2.2.2.1⟩
      · intro hn0
        simp only [List.head?_cons, ne_eq, Option.some.injEq]
        exact hd.2.2.2.2.2 (by omega)
      · intro _
        have h3 := hd.2.2.1
        simp only [extract.number, hd.1, hd.2.1, false_or, Nat.zero_mul, Nat.zero_add]
        rw [h3]
        simp [hn]
    · have hlt : n / 10 < fuel := by omega
      obtain ⟨i1, i2, i3, i4⟩ := ih (n / 10) hlt
      simp only [Nat.toDigitsCore, h0, if_false]
      rw [toDigitsCore_append]
      refine ⟨?_, by simp, ?_, ?_⟩
      · intro c hc
        rcases List.mem_append.1 hc with hc | hc
        · exact i1 c hc
        · simp only [List.mem_singleton] at hc
          subst hc
          exact ⟨hd.2.2.2.2.1, hd.2.2.2.1⟩
      · intro _
        cases hL : Nat.toDigitsCore 10 fuel (n / 10) [] with
        | nil => exact absurd hL i2
        | cons x xs =>
          have := i3 h0
          rw [hL] at this
          simpa using this
      · intro hn9
        have h8 : n / 10 < 100000000 := by omega
        rw [extract.number_append, i4 (by omega)]
        simp only [hd.1, hd.2.1, false_or, hd.2.2.1]
        have : ¬ 100000000 ≤ n / 10 := by omega
        simp only [this, if_false, Option.some.injEq]
        omega

theorem getReplacementPattern_data (re : Regexp) (maskText : String) :
    (getReplacementPattern re maskText).data =
      ((re.SubexpNames.tail.enumFrom 1).map (fun p => templatePiece maskText p.1 p.2)).flatten := by
  rw [getReplacementPattern_join re maskText, String.join_eq]
  simp only [List.map_map]
  congr 1
  apply List.map_congr_left
  intro p _
  simp only [Function.comp, templatePiece]
  split_ifs <;> simp

theorem Unicode.isWord_ascii (U : Unicode)
    (hU : ∀ c : Char, c.toNat < 128 → U.IsLetter c = c.isAlpha ∧ U.IsDigit c = c.isDigit) :
    U.isWord '$' = false ∧ U.isWord '\x7d' = false ∧
      ∀ c : Char, c.isDigit = true → c.toNat < 128 → U.isWord c = true := by
  refine ⟨?_, ?_, ?_⟩
  · have := hU '$' (by decide)
    simp only [Unicode.isWord, this.1, this.2]
    decide
  · have := hU '\x7d' (by decide)
    simp only [Unicode.isWord, this.1, this.2]
    decide
  · intro c hc h
    have := hU c h
    simp [Unicode.isWord, this.2, hc]

theorem extract.span_append (U : Unicode) :
    ∀ (name rest : List Char), (∀ c ∈ name, U.isWord c = true) →
      (∀ c, rest.head? = some c → U.isWord c = false) →
      extract.span U (name ++ rest) = (name, rest) := by
  intro name
  induction name with
  | nil =>
    intro rest _ hr
    cases rest with
    | nil => rfl
    | cons c cs =>
      have := hr c rfl
      simp [extract.span, this]
  | cons x xs ih =>
    intro rest hn hr
    have hx := hn x (List.mem_cons_self _ _)
    have := ih rest (fun c hc => hn c (List.mem_cons_of_mem _ hc)) hr
    simp [extract.span, hx, this]

theorem expandLoop_copy (U : Unicode) (names : List String) (caps : List (Option String)) :
    ∀ (pre rest : List Char) (fuel : Nat), '$' ∉ pre → pre.length ≤ fuel →
      expandLoop U names caps fuel (pre ++ rest) =
        pre ++ expandLoop U names caps (fuel - pre.length) rest := by
  intro pre
  induction pre with
  | nil => intro rest fuel _ _; simp
  | cons c cs ih =>
    intro rest fuel hd hf
    cases fuel with
    | zero => simp at hf
    | succ fuel =>
      have hc : c ≠ '$' := fun h => hd (by simp [h])
      have hcs : '$' ∉ cs := fun h => hd (List.mem_cons_of_mem _ h)
      have hf2 : cs.length ≤ fuel := by simpa using hf
      simp [expandLoop, hc, ih rest fuel hcs hf2]

theorem extract.number_none :
    ∀ (xs : List Char) (acc : Nat), (∃ c ∈ xs, c < '0' ∨ '9' < c) →
      extract.number xs acc = none := by
  intro xs
  induction xs with
  | nil => intro acc h; simp at h
  | cons x xs ih =>
    intro acc h
    by_cases hx : x < '0' ∨ '9' < x ∨ 100000000 ≤ acc
    · simp [extract.number, hx]
    · simp only [extract.number, hx, if_false]
      apply ih
      obtain ⟨c, hc, hcd⟩ := h
      rcases List.mem_cons.1 hc with h1 | h1
      · subst h1
        exact absurd (hcd.elim Or.inl (fun h => Or.inr (Or.inl h))) hx
      · exact ⟨c, h1, hcd⟩

theorem extract_number_ref (U : Unicode)
    (hU : ∀ c : Char, c.toNat < 128 → U.IsLetter c = c.isAlpha ∧ U.IsDigit c = c.isDigit)
    (k : Nat) (rest : List Char) (hk1 : 1 ≤ k) (hk9 : k < 1000000000)
    (hr : ∀ c, rest.head? = some c → U.isWord c = false) :
    (Nat.toDigits 10 k ++ rest).head? ≠ some '$' ∧
      extract U (Nat.toDigits 10 k ++ rest) = some (Nat.toDigits 10 k, some k, rest) := by
  obtain ⟨f1, f2, f3, f4⟩ := toDigitsCore_facts (k + 1) k (Nat.lt_succ_self _)
  have hw := (Unicode.isWord_ascii U hU).2.2
  have hspan := extract.span_append U (Nat.toDigits 10 k) rest
    (fun c hc => hw c (f1 c hc).1 (f1 c hc).2) hr
  have hnum : extract.number (Nat.toDigits 10 k) 0 = some k := f4 hk9
  have hhead : (Nat.toDigits 10 k).head? ≠ some '0' := f3 (by omega)
  have hne : Nat.toDigits 10 k ≠ [] := f2
  have hall : ∀ c ∈ Nat.toDigits 10 k, c.isDigit = true := fun c hc => (f1 c hc).1
  revert hspan hnum hhead hne hall
  generalize Nat.toDigits 10 k = ds
  intro hspan hnum hhead hne hall
  cases ds with
  | nil => exact absurd rfl hne
  | cons d ds =>
    have hd := hall d (List.mem_cons_self _ _)
    have hd1 : d ≠ '$' := by
      intro h
      rw [h] at hd
      exact absurd hd (by decide)
    have hd2 : d ≠ '\x7b' := by
      intro h
      rw [h] at hd
      exact absurd hd (by decide)
    have hd3 : d ≠ '0' := by simpa using hhead
    refine ⟨by simpa using hd1, ?_⟩
    simp only [List.cons_append] at hspan ⊢
    simp [extract, hd2, hspan, hnum, hd3]

theorem extract_name_ref (U : Unicode)
    (hU : ∀ c : Char, c.toNat < 128 → U.IsLetter c = c.isAlpha ∧ U.IsDigit c = c.isDigit)
    (name rest : List Char) (hne : name ≠ [])
    (hw : ∀ c ∈ name, U.isWord c = true) (hd : ∃ c ∈ name, c < '0' ∨ '9' < c) :
    extract U ('\x7b' :: (name ++ ['\x7d'] ++ rest)) = some (name, none, rest) := by
  have hb := (Unicode.isWord_ascii U hU).2.1
  have hspan := extract.span_append U name ('\x7d' :: rest) hw
    (fun c hc => by
      simp only [List.head?_cons, Option.some.injEq] at hc
      rw [← hc]
      exact hb)
  have hnum := extract.number_none name 0 hd
  simp [extract, hspan, hne, hnum]

theorem templatePiece_head (U : Unicode)
    (hU : ∀ c : Char, c.toNat < 128 → U.IsLetter c = c.isAlpha ∧ U.IsDigit c = c.isDigit)
    (maskText : String) (hM2 : ∀ c, maskText.data.head? = some c → U.isWord c = false) :
    ∀ (ns : List String) (k : Nat) (c : Char),
      ((ns.enumFrom k).map (fun p => templatePiece maskText p.1 p.2)).flatten.head? = some c →
      U.isWord c = false := by
  have hdollar := (Unicode.isWord_ascii U hU).1
  intro ns
  induction ns with
  | nil => intro k c h; simp at h
  | cons n ns ih =>
    intro k c h
    simp only [List.enumFrom, List.map_cons, List.flatten_cons] at h
    by_cases h1 : n = ""
    · simp only [templatePiece, h1, if_true, List.cons_append, List.head?_cons,
        Option.some.injEq] at h
      rw [← h]
      exact hdollar
    · by_cases h2 : n = "mask"
      · have hp : templatePiece maskText k n = maskText.data := by
          simp [templatePiece, h2]
        rw [hp] at h
        cases hm : maskText.data with
        | nil =>
          rw [hm] at h
          exact ih (k + 1) c (by simpa using h)
        | cons m ms =>
          rw [hm] at h
          simp only [List.cons_append, List.head?_cons, Option.some.injEq] at h
          rw [← h]
          exact hM2 m (by rw [hm]; rfl)
      · by_cases h3 : n = "drop"
        · have hp : templatePiece maskText k n = [] := by
            simp [templatePiece, h3]
          rw [hp] at h
          exact ih (k + 1) c (by simpa using h)
        · simp only [templatePiece, h1, h2, h3, if_false, List.cons_append, List.head?_cons,
            Option.some.injEq] at h
          rw [← h]
          exact hdollar

theorem expandLoop_nil (U : Unicode) (names : List String) (caps : List (Option String))
    (fuel : Nat) : expandLoop U names caps fuel [] = [] := by
  cases fuel <;> simp [expandLoop]

theorem expandLoop_dollar (U : Unicode) (names : List String) (caps : List (Option String))
    (fuel : Nat) (t : List Char) (h1 : t.head? ≠ some '$')
    (name : List Char) (num : Option Nat) (rest : List Char)
    (h2 : extract U t = some (name, num, rest)) :
    expandLoop U names caps (fuel + 1) ('$' :: t) =
      (match num with
        | some i => capture caps i
        | none => namedCapture names caps (String.mk name)) ++
        expandLoop U names caps fuel rest := by
  cases num <;> simp [expandLoop, h1, h2]

theorem expandLoop_template (U : Unicode) (names : List String) (caps : List (Option String))
    (maskText : String)
    (hU : ∀ c : Char, c.toNat < 128 → U.IsLetter c = c.isAlpha ∧ U.IsDigit c = c.isDigit)
    (hM1 : '$' ∉ maskText.data)
    (hM2 : ∀ c, maskText.data.head? = some c → U.isWord c = false) :
    ∀ (ns : List String) (k fuel : Nat), 1 ≤ k → k + ns.length ≤ 1000000000 →
      (∀ n ∈ ns, n ≠ "" →
        (∀ c ∈ n.data, U.isWord c = true) ∧ ∃ c ∈ n.data, c < '0' ∨ '9' < c) →
      ((ns.enumFrom k).map (fun p => templatePiece maskText p.1 p.2)).flatten.length ≤ fuel →
      expandLoop U names caps fuel
          ((ns.enumFrom k).map (fun p => templatePiece maskText p.1 p.2)).flatten =
        ((ns.enumFrom k).map (fun p => groupValue names caps maskText p.1 p.2)).flatten := by
  intro ns
  induction ns with
  | nil => intro k fuel _ _ _ _; simp [expandLoop_nil]
  | cons n ns ih =>
    intro k fuel hk1 hk9 hn hf
    have hns : ∀ m ∈ ns, m ≠ "" →
        (∀ c ∈ m.data, U.isWord c = true) ∧ ∃ c ∈ m.data, c < '0' ∨ '9' < c :=
      fun m hm => hn m (List.mem_cons_of_mem _ hm)
    have hlen : k + 1 + ns.length ≤ 1000000000 := by
      simp only [List.length_cons] at hk9
      omega
    have hrest := templatePiece_head U hU maskText hM2 ns (k + 1)
    simp only [List.enumFrom, List.map_cons, List.flatten_cons, List.length_append] at hf ⊢
    by_cases h1 : n = ""
    · have hp : templatePiece maskText k n = '$' :: Nat.toDigits 10 k := by
        simp only [templatePiece, h1, if_true]
        rfl
      have hv : groupValue names caps maskText k n = capture caps k := by
        simp [groupValue, h1]
      rw [hp] at hf ⊢
      rw [hv]
      obtain ⟨e1, e2⟩ := extract_number_ref U hU k
        ((List.map (fun p => templatePiece maskText p.1 p.2) (List.enumFrom (k + 1) ns)).flatten)
        hk1 (by simp only [List.length_cons] at hk9; omega) hrest
      cases fuel with
      | zero => simp at hf
      | succ fuel =>
        have hf2 : ((ns.enumFrom (k + 1)).map
            (fun p => templatePiece maskText p.1 p.2)).flatten.length ≤ fuel := by
          simp only [List.length_cons] at hf
          omega
        rw [List.cons_append, expandLoop_dollar U names caps fuel _ e1 _ _ _ e2]
        rw [ih (k + 1) fuel (by omega) hlen hns hf2]
    · by_cases h2 : n = "mask"
      · have hp : templatePiece maskText k n = maskText.data := by
          simp [templatePiece, h2]
        have hv : groupValue names caps maskText k n = maskText.data := by
          simp [groupValue, h2]
        rw [hp] at hf ⊢
        rw [hv, expandLoop_copy U names caps maskText.data _ fuel hM1 (by omega)]
        rw [ih (k + 1) _ (by omega) hlen hns (by omega)]
      · by_cases h3 : n = "drop"
        · have hp : templatePiece maskText k n = [] := by
            simp [templatePiece, h3]
          have hv : groupValue names caps maskText k n = [] := by
            simp [groupValue, h3]
          rw [hp] at hf ⊢
          rw [hv]
          simp only [List.nil_append, List.length_nil, Nat.zero_add] at hf ⊢
          exact ih (k + 1) fuel (by omega) hlen hns hf
        · have hp : templatePiece maskText k n =
              '$' :: '\x7b' :: (n.data ++ ['\x7d']) := by
            simp [templatePiece, h1, h2, h3]
          have hv : groupValue names caps maskText k n = namedCapture names caps n := by
            simp [groupValue, h1, h2, h3]
          have hnn := hn n (List.mem_cons_self _ _) h1
          have hdata : n.data ≠ [] := by
            intro h
            apply h1
            cases n
            simp_all
          have e2 := extract_name_ref U hU n.data
            ((List.map (fun p => templatePiece maskText p.1 p.2)
              (List.enumFrom (k + 1) ns)).flatten) hdata hnn.1 hnn.2
          rw [hp] at hf ⊢
          rw [hv]
          cases fuel with
          | zero => simp at hf
          | succ fuel =>
            have hf2 : ((ns.enumFrom (k + 1)).map
                (fun p => templatePiece maskText p.1 p.2)).flatten.length ≤ fuel := by
              simp only [List.length_cons, List.length_append] at hf
              omega
            have e1 : ('\x7b' :: (n.data ++ ['\x7d'] ++
                (List.map (fun p => templatePiece maskText p.1 p.2)
                  (List.enumFrom (k + 1) ns)).flatten)).head? ≠ some '$' := by
              simp
            have e3 : ('$' :: '\x7b' :: (n.data ++ ['\x7d'])) ++
                (List.map (fun p => templatePiece maskText p.1 p.2)
                  (List.enumFrom (k + 1) ns)).flatten =
                '$' :: ('\x7b' :: (n.data ++ ['\x7d'] ++
                  (List.map (fun p => templatePiece maskText p.1 p.2)
                    (List.enumFrom (k + 1) ns)).flatten)) := by
              simp
            rw [e3, expandLoop_dollar U names caps fuel _ e1 _ _ _ e2]
            rw [ih (k + 1) fuel (by omega) hlen hns hf2]

/-- C6, amended: for a regex whose group names are made of letters, digits and `_`,
none of them a number, with fewer than `1e9` groups, and a mask without `$` that does
not begin with a letter, a digit or `_`, substituting a match with the template
`getReplacementPattern(R, M)` yields the concatenation, over the groups 1..k in order,
of: the text of the group when it has no name, M when it is called `mask`, nothing when
it is called `drop`, and the text of the leftmost group of the same name that took part
in the match for any other name. Text of the match outside the groups is not kept. -/
theorem Regexp.expand_getReplacementPattern (U : Unicode) (re : Regexp)
    (caps : List (Option String)) (maskText : String)
    (hU : ∀ c : Char, c.toNat < 128 → U.IsLetter c = c.isAlpha ∧ U.IsDigit c = c.isDigit)
    (hM1 : '$' ∉ maskText.data)
    (hM2 : ∀ c, maskText.data.head? = some c → U.isWord c = false)
    (hn : ∀ n ∈ re.SubexpNames, n ≠ "" →
      (∀ c ∈ n.data, U.isWord c = true) ∧ ∃ c ∈ n.data, c < '0' ∨ '9' < c)
    (hk : re.SubexpNames.length ≤ 1000000000) :
    re.expand U caps (getReplacementPattern re maskText) =
      String.join ((re.SubexpNames.tail.enumFrom 1).map (fun p =>
        if p.2 = "" then String.mk (capture caps p.1)
        else if p.2 = "mask" then maskText
        else if p.2 = "drop" then ""
        else String.mk (namedCapture re.SubexpNames caps p.2))) := by
  have hmain := expandLoop_template U re.SubexpNames caps maskText hU hM1 hM2
    re.SubexpNames.tail 1 (getReplacementPattern re maskText).length (le_refl _)
    (by simp only [List.length_tail]; omega)
    (fun n hn' => hn n (List.mem_of_mem_tail hn'))
    (by rw [← getReplacementPattern_data]; exact le_of_eq rfl)
  apply String.ext
  rw [String.join_eq]
  simp only [Regexp.expand, getReplacementPattern_data, List.map_map] at hmain ⊢
  rw [hmain]
  congr 1
  apply List.map_congr_left
  intro p _
  simp only [Function.comp, groupValue]
  split_ifs <;> rfl

/-- The amended C6 on a regex with the groups 1 (unnamed), `mask`, `host`, `drop` and 5
(unnamed), and the canonical mask. -/
theorem Regexp.expand_getReplacementPattern_witness :
    ((∀ c : Char, c.toNat < 128 →
        Unicode.ascii.IsLetter c = c.isAlpha ∧ Unicode.ascii.IsDigit c = c.isDigit) ∧
      '$' ∉ MASK_TEXT.data ∧
      (∀ c, MASK_TEXT.data.head? = some c → Unicode.ascii.isWord c = false) ∧
      (∀ n ∈ ["", "", "mask", "host", "drop", ""], n ≠ "" →
        (∀ c ∈ n.data, Unicode.ascii.isWord c = true) ∧ ∃ c ∈ n.data, c < '0' ∨ '9' < c) ∧
      ["", "", "mask", "host", "drop", ""].length ≤ 1000000000) ∧
    Regexp.expand Unicode.ascii
        { (Regexp.wholeLine "") with SubexpNames := ["", "", "mask", "host", "drop", ""] }
        [some "abcde", some "a", some "b", some "c", some "d", some "e"]
        (getReplacementPattern
          { (Regexp.wholeLine "") with SubexpNames := ["", "", "mask", "host", "drop", ""] }
          MASK_TEXT) =
      String.join ((["", "mask", "host", "drop", ""].enumFrom 1).map (fun p =>
        if p.2 = "" then
          String.mk (capture [some "abcde", some "a", some "b", some "c", some "d", some "e"] p.1)
        else if p.2 = "mask" then MASK_TEXT
        else if p.2 = "drop" then ""
        else String.mk (namedCapture ["", "", "mask", "host", "drop", ""]
          [some "abcde", some "a", some "b", some "c", some "d", some "e"] p.2))) :=
  ⟨⟨fun _ _ => ⟨rfl, rfl⟩, by decide, by decide, by decide, by decide⟩,
    Regexp.expand_getReplacementPattern Unicode.ascii
      { (Regexp.wholeLine "") with SubexpNames := ["", "", "mask", "host", "drop", ""] }
      [some "abcde", some "a", some "b", some "c", some "d", some "e"] MASK_TEXT
      (fun _ _ => ⟨rfl, rfl⟩) (by decide) (by decide) (by decide) (by decide)⟩

/-! ### Line reader -/

/-- C18: on m ≥ 0 segments delivered with `isPrefix` set followed by one segment that
ends the line, all without error, `readLine` returns the concatenation of the m + 1
segments in order, with no error, whatever their number and length; what the upstream
delivers after them is left for the next call. -/
theorem readLine_reassembles (pre : List String) (last : String)
    (rest : List (String × Bool)) (err : GoError) :
    readLine { pending := pre.map (fun s => (s, true)) ++ (last, false) :: rest, err := err } =
      ((String.join (pre ++ [last]), none), { pending := rest, err := err }) := by
  have h := readLineLoop_segments err last rest pre ""
  simp only [readLine, h]
  have hj : ∀ (xs : List String) (acc : String),
      List.foldl (fun r s => r ++ s) acc (xs ++ [last]) =
        List.foldl (fun r s => r ++ s) acc xs ++ last := by
    intro xs acc
    simp [List.foldl_append]
  rw [String.join, hj]

/-! ### Empty input of a multi-line stage -/

/-- C17: on the empty input, a multi-line stage emits exactly two blank lines (the bytes
of two newlines) and records no redaction. -/
theorem MultiLineRedactor.Redact_empty_input (r : MultiLineRedactor) (e : GoError) :
    ∃ res, r.Redact { pending := [], err := e } PipeWriter.fresh = some res ∧
      res.written = ["", ""] ∧ res.bytes = "\n\n" ∧ res.ledger = [] :=
  ⟨_, MultiLineRedactor.Redact_ofSegments_nil r e, rfl, rfl, rfl⟩

/-! ### Write errors -/

/-- C19 on a single-line and on a multi-line stage whose downstream reader is closed from
the start: the first write fails, and the stage goes on to read every line of the input
and to record a redaction for each line it rewrites. -/
theorem Redact_goes_on_after_write_error :
    ((PipeWriter.closed.Fprintf ["***HIDDEN***"]).2 =
        some (GoError.other "io: read/write on closed pipe") ∧
      (secretStage.Redact (Reader.ofLines ["secret", "secret", "secret"] GoError.EOF)
          PipeWriter.closed).map
          (fun res => (res.written, res.reader.pending, res.ledger.map (fun x => x.Line))) =
        some ([], [], [1, 2, 3])) ∧
    ((PipeWriter.closed.Fprintf ["key", "***HIDDEN***"]).2 =
        some (GoError.other "io: read/write on closed pipe") ∧
      (keySecretStage.Redact (Reader.ofLines ["key", "secret", "key", "secret"] GoError.EOF)
          PipeWriter.closed).map
          (fun res => (res.written, res.reader.pending, res.ledger.map (fun x => x.Line))) =
        some ([], [], [2, 3])) := by
  decide

/-! ### Upstream errors -/

theorem readLineLoop_err (err : GoError) :
    ∀ (pending : List (String × Bool)) (acc : String) (e : GoError),
      (readLineLoop err pending acc).1.2 = some e → e = err := by
  intro pending
  induction pending with
  | nil => intro acc e h; simpa [readLineLoop] using h.symm
  | cons p ps ih =>
    intro acc e h
    obtain ⟨line, isPrefix⟩ := p
    cases isPrefix with
    | false => simp [readLineLoop] at h
    | true => exact ih (acc ++ line) e (by simpa [readLineLoop] using h)

theorem readLine_err (rd : Reader) :
    (readLine rd).2.err = rd.err ∧ ∀ e, (readLine rd).1.2 = some e → e = rd.err :=
  ⟨rfl, readLineLoop_err rd.err rd.pending ""⟩

theorem getNextTwoLines_err (rd : Reader) (cur : Option String) :
    (getNextTwoLines rd cur).2.err = rd.err ∧
      ∀ e, (getNextTwoLines rd cur).1.2.2 = some e → e = rd.err := by
  have h1 := readLine_err rd
  cases cur with
  | some c => exact h1
  | none =>
    have h2 := readLine_err (readLine rd).2
    cases he : (readLine rd).1.2 with
    | some e0 =>
      simp only [getNextTwoLines, he, Option.isSome_some, if_true]
      exact ⟨h1.1, fun e h => h1.2 e (by rw [he]; exact h)⟩
    | none =>
      simp only [getNextTwoLines, he, Option.isSome_none, Bool.false_eq_true, if_false]
      exact ⟨by rw [h2.1, h1.1], fun e h => by rw [h2.2 e h, h1.1]⟩

/-- The loop of a single-line stage ends with the error of its upstream in `err`. -/
theorem SingleLineRedactor.single_loop_ends_with_upstream_error (r : SingleLineRedactor)
    (substStr : String) :
    ∀ (fuel n : Nat) (st : Stage), st.reader.pending.length < fuel →
      ∃ st', SingleLineRedactor.loop r substStr fuel n st = some (st', some st.reader.err) := by
  intro fuel
  induction fuel with
  | zero => intro n st h; omega
  | succ fuel ih =>
    intro n st h
    have hr := readLine_length st.reader
    have he' := readLine_err st.reader
    rw [SingleLineRedactor.loop]
    cases he : (readLine st.reader).1.2 with
    | some e =>
      simp only [he, Option.isSome_some, if_true]
      rw [he'.2 e he]
      exact ⟨_, rfl⟩
    | none =>
      have hlt : (readLine st.reader).2.pending.length < fuel := by
        have := hr.2 he
        omega
      simp only [he, Option.isSome_none, Bool.false_eq_true, if_false]
      rw [← he'.1]
      split_ifs
      · exact ih _ _ hlt
      · exact ih _ _ hlt
      · exact ih _ _ hlt

/-- The loop of a multi-line stage ends with the value of `err` it was entered with, or
else with the error of its upstream. -/
theorem MultiLineRedactor.multi_loop_ends_with_upstream_error (r : MultiLineRedactor)
    (substStr : String) :
    ∀ (fuel : Nat) (line1 line2 : String) (err : Option GoError) (flush : Bool) (n : Nat)
      (st : Stage), st.reader.pending.length + 2 ≤ fuel →
      (∀ e, err = some e → e = st.reader.err) →
      ∃ st', MultiLineRedactor.loop r substStr fuel line1 line2 err flush n st =
        some (st', some st.reader.err) := by
  intro fuel
  induction fuel with
  | zero => intro line1 line2 err flush n st h; omega
  | succ fuel ih =>
    intro line1 line2 err flush n st h herr
    rw [MultiLineRedactor.loop]
    cases err with
    | some e =>
      simp only [Option.isSome_some, if_true]
      rw [herr e rfl]
      exact ⟨_, rfl⟩
    | none =>
      simp only [Option.isSome_none, Bool.false_eq_true, if_false]
      have key : ∀ (cur : Option String) (fl : Bool) (w : PipeWriter)
          (led : List Redaction),
          ∃ st', MultiLineRedactor.loop r substStr fuel (getNextTwoLines st.reader cur).1.1
            (getNextTwoLines st.reader cur).1.2.1 (getNextTwoLines st.reader cur).1.2.2 fl
            (n + 1)
            { reader := (getNextTwoLines st.reader cur).2, writer := w, ledger := led } =
              some (st', some st.reader.err) := by
        intro cur fl w led
        have hg := getNextTwoLines_length st.reader cur
        have hge := getNextTwoLines_err st.reader cur
        cases he : (getNextTwoLines st.reader cur).1.2.2 with
        | some e =>
          cases fuel with
          | zero => omega
          | succ fuel =>
            simp only [MultiLineRedactor.loop, Option.isSome_some, if_true]
            rw [hge.2 e he]
            exact ⟨_, rfl⟩
        | none =>
          have := hg.2 he
          rw [← he, ← hge.1]
          exact ih _ _ _ _ _
            { reader := (getNextTwoLines st.reader cur).2, writer := w, ledger := led }
            (by simp only; omega) (fun e h => (hge.2 e h).trans hge.1.symm)
      split_ifs
      · exact key (some line2) true _ _
      · exact key none false _ _
      · exact key none false _ _

/-- C15: a single-line or a multi-line stage, on every upstream and every pipe, returns,
and its output stream ends with the error the upstream has failed with; when that error
is the end of the stream, the output ends cleanly, with no error. -/
theorem Redact_ends_with_upstream_error (s : SingleLineRedactor) (m : MultiLineRedactor)
    (input : Reader) (writer : PipeWriter) :
    (∃ res, s.Redact input writer = some res ∧
      res.closeErr = if input.err = GoError.EOF then none else some input.err) ∧
    (∃ res, m.Redact input writer = some res ∧
      res.closeErr = if input.err = GoError.EOF then none else some input.err) := by
  constructor
  · obtain ⟨st', h⟩ := SingleLineRedactor.single_loop_ends_with_upstream_error s
      (getReplacementPattern s.re s.maskText) (input.pending.length + 1) 0
      { reader := input, writer := writer, ledger := [] } (Nat.lt_succ_self _)
    simp only [SingleLineRedactor.Redact, h]
    exact ⟨_, rfl, by simp⟩
  · have hg := getNextTwoLines_length input none
    have hge := getNextTwoLines_err input none
    unfold MultiLineRedactor.Redact
    cases he : (getNextTwoLines input none).1.2.2 with
    | some e =>
      simp only [he, Option.isSome_some, if_true]
      rw [hge.2 e he]
      exact ⟨_, rfl, by simp⟩
    | none =>
      have hlt := hg.2 he
      obtain ⟨st', h⟩ := MultiLineRedactor.multi_loop_ends_with_upstream_error m
        (getReplacementPattern m.re2 m.maskText) (input.pending.length + 1)
        (getNextTwoLines input none).1.1 (getNextTwoLines input none).1.2.1 none false 1
        { reader := (getNextTwoLines input none).2, writer := writer, ledger := [] }
        (by simp only; omega) (fun e h => by cases h)
      simp only [he, Option.isSome_none, Bool.false_eq_true, if_false, h, hge.1]
      exact ⟨_, rfl, by simp⟩

/-! ### What the user specs contribute -/

theorem allSome_cons {α : Type} (a : α) (xs : List (Option α)) (ys : List α) :
    allSome (some a :: xs) = some ys ↔ ∃ zs, allSome xs = some zs ∧ ys = a :: zs := by
  cases hr : allSome xs with
  | none => simp [allSome, hr]
  | some zs =>
    simp only [allSome, hr, Option.some.injEq]
    constructor
    · intro h; exact ⟨zs, rfl, h.symm⟩
    · rintro ⟨zs', h1, h2⟩; rw [h2, ← h1]

theorem buildAdditionalRedactors.literals_eq (path : String) (i : Nat) (name : String) :
    ∀ (vals : List String) (j : Nat) (acc : List Redactor),
      buildAdditionalRedactors.literals path i name j vals acc =
        acc ++ (vals.enumFrom j).map (fun q =>
          Redactor.literal (literalString q.2 path (redactorName i q.1 name "literal"))) := by
  intro vals
  induction vals with
  | nil => intro j acc; simp [buildAdditionalRedactors.literals]
  | cons v vs ih =>
    intro j acc
    simp [buildAdditionalRedactors.literals, ih, List.enumFrom]

theorem buildAdditionalRedactors.yamls_eq (path : String) (i : Nat) (name : String) :
    ∀ (vals : List String) (j : Nat) (acc : List Redactor),
      buildAdditionalRedactors.yamls path i name j vals acc =
        acc ++ (vals.enumFrom j).map (fun q =>
          Redactor.yaml (NewYamlRedactor q.2 path (redactorName i q.1 name "yaml"))) := by
  intro vals
  induction vals with
  | nil => intro j acc; simp [buildAdditionalRedactors.yamls]
  | cons v vs ih =>
    intro j acc
    simp [buildAdditionalRedactors.yamls, ih, List.enumFrom]

theorem buildAdditionalRedactors.regexes_eq (H : Host) (path : String) (i : Nat)
    (name : String) :
    ∀ (res : List troubleshootv1beta2.Regex) (j : Nat) (acc out : List Redactor),
      buildAdditionalRedactors.regexes H path i name j res acc = Outcome.ok out →
      ∃ regs, allSome ((res.enumFrom j).map (fun q => regexRedactor H path i name q.1 q.2)) =
          some regs ∧ out = acc ++ regs := by
  intro res
  induction res with
  | nil =>
    intro j acc out h
    simp only [buildAdditionalRedactors.regexes, Outcome.ok.injEq] at h
    exact ⟨[], rfl, by simp [h]⟩
  | cons re rest ih =>
    intro j acc out h
    rw [buildAdditionalRedactors.regexes] at h
    simp only [List.enumFrom, List.map_cons]
    by_cases hs : re.Selector = ""
    · simp only [hs, ne_eq, not_true_eq_false, if_false] at h
      cases hc : H.Compile ("(?i)" ++ re.Redactor) with
      | error err => simp [hc, Outcome.bind] at h
      | ok compiled =>
        simp only [hc, NewSingleLineRedactor, Outcome.bind] at h
        obtain ⟨regs, h1, h2⟩ := ih _ _ _ h
        have hr : regexRedactor H path i name j re =
            some (Redactor.singleLine
              { re := compiled, maskText := MASK_TEXT, filePath := path,
                redactName := redactorName i j name "regex", isDefault := false }) := by
          simp [regexRedactor, hs, hc]
        rw [hr]
        exact ⟨_ :: regs, (allSome_cons _ _ _).2 ⟨regs, h1, rfl⟩, by simp [h2]⟩
    · simp only [hs, ne_eq, not_false_eq_true, if_true, Host.MustCompile] at h
      cases h1 : H.Compile re.Selector with
      | error err => simp [h1, Outcome.bind] at h
      | ok re1 =>
        cases h2 : H.Compile re.Redactor with
        | error err => simp [h1, h2, Outcome.bind] at h
        | ok re2 =>
          simp only [h1, h2, NewMultiLineRedactor, Outcome.bind] at h
          obtain ⟨regs, h3, h4⟩ := ih _ _ _ h
          have hr : regexRedactor H path i name j re =
              some (Redactor.multiLine
                { re1 := re1, re2 := re2, maskText := MASK_TEXT, filePath := path,
                  redactName := redactorName i j name "multiLine", isDefault := false }) := by
            simp [regexRedactor, hs, h1, h2]
          rw [hr]
          exact ⟨_ :: regs, (allSome_cons _ _ _).2 ⟨regs, h3, rfl⟩, by simp [h4]⟩

theorem buildAdditionalRedactors.specs_eq (H : Host) (path : String) :
    ∀ (redacts : List (Option troubleshootv1beta2.Redact)) (i : Nat) (acc out : List Redactor),
      buildAdditionalRedactors.specs H path i redacts acc = Outcome.ok out →
      ∃ blocks, allSome ((redacts.enumFrom i).map (specBlock H path)) = some blocks ∧
        out = acc ++ blocks.flatten := by
  intro redacts
  induction redacts with
  | nil =>
    intro i acc out h
    simp only [buildAdditionalRedactors.specs, Outcome.ok.injEq] at h
    exact ⟨[], rfl, by simp [h]⟩
  | cons r rest ih =>
    intro i acc out h
    simp only [List.enumFrom, List.map_cons]
    cases r with
    | none =>
      simp only [buildAdditionalRedactors.specs] at h
      obtain ⟨blocks, h1, h2⟩ := ih _ _ _ h
      have hb : specBlock H path (i, none) = some [] := rfl
      rw [hb]
      exact ⟨[] :: blocks, (allSome_cons _ _ _).2 ⟨blocks, h1, rfl⟩, by simp [h2]⟩
    | some redact =>
      rw [buildAdditionalRedactors.specs] at h
      cases he : (redactMatchesPath H path redact).2 with
      | some err => simp [he] at h
      | none =>
        simp only [he] at h
        by_cases hm : (redactMatchesPath H path redact).1 = true
        · simp only [hm, Bool.not_true, Bool.false_eq_true, if_false] at h
          cases hr : buildAdditionalRedactors.regexes H path i redact.Name 0
              redact.Removals.Regex
              (buildAdditionalRedactors.literals path i redact.Name 0 redact.Removals.Values
                acc) with
          | error err => simp [hr, Outcome.bind] at h
          | panic msg => simp [hr, Outcome.bind] at h
          | ok mid =>
            simp only [hr, Outcome.bind] at h
            obtain ⟨blocks, h1, h2⟩ := ih _ _ _ h
            obtain ⟨regs, h3, h4⟩ :=
              buildAdditionalRedactors.regexes_eq H path i redact.Name _ _ _ _ hr
            have hb : specBlock H path (i, some redact) =
                some
                  (redact.Removals.Values.enum.map
                      (fun q => Redactor.literal
                        (literalString q.2 path (redactorName i q.1 redact.Name "literal"))) ++
                    regs ++
                    redact.Removals.YamlPath.enum.map
                      (fun q => Redactor.yaml
                        (NewYamlRedactor q.2 path (redactorName i q.1 redact.Name "yaml")))) := by
              simp only [specBlock, hm, if_true, specRedactors, List.enum, h3]
            rw [hb]
            refine ⟨_ :: blocks, (allSome_cons _ _ _).2 ⟨blocks, h1, rfl⟩, ?_⟩
            rw [h2, buildAdditionalRedactors.yamls_eq, h4,
              buildAdditionalRedactors.literals_eq]
            simp [List.enum]
        · have hm2 : (redactMatchesPath H path redact).1 = false := by simpa using hm
          simp only [hm2, Bool.not_false, if_true] at h
          obtain ⟨blocks, h1, h2⟩ := ih _ _ _ h
          have hb : specBlock H path (i, some redact) = some [] := by
            simp [specBlock, hm2]
          rw [hb]
          exact ⟨[] :: blocks, (allSome_cons _ _ _).2 ⟨blocks, h1, rfl⟩, by simp [h2]⟩

/-- When `buildAdditionalRedactors` returns a list, it is the user part of the chain as
`userRedactors` describes it. -/
theorem buildAdditionalRedactors_eq_userRedactors (H : Host) (path : String)
    (redacts : List (Option troubleshootv1beta2.Redact)) (out : List Redactor)
    (h : buildAdditionalRedactors H path redacts = Outcome.ok out) :
    userRedactors H path redacts = some out := by
  obtain ⟨blocks, h1, h2⟩ := buildAdditionalRedactors.specs_eq H path redacts 0 [] out h
  simp only [userRedactors, List.enum, h1, h2, List.nil_append]

theorem allSome_map_eq {α β γ : Type} (F : α → Option β) (f : β → γ) (g : α → γ) :
    ∀ (as : List α) (ys : List β), allSome (as.map F) = some ys →
      (∀ a ∈ as, ∀ y, F a = some y → f y = g a) → ys.map f = as.map g := by
  intro as
  induction as with
  | nil => intro ys h _; simp [allSome] at h; simp [← h]
  | cons a as ih =>
    intro ys h hf
    cases hF : F a with
    | none => simp [allSome, hF] at h
    | some b =>
      rw [List.map_cons, hF, allSome_cons] at h
      obtain ⟨zs, h1, h2⟩ := h
      have := ih zs h1 (fun a' ha' => hf a' (List.mem_cons_of_mem _ ha'))
      rw [h2, List.map_cons, List.map_cons, this, hf a (List.mem_cons_self _ _) b hF]

theorem allSome_mem {α β : Type} (F : α → Option β) :
    ∀ (as : List α) (ys : List β), allSome (as.map F) = some ys →
      ∀ y ∈ ys, ∃ a ∈ as, F a = some y := by
  intro as
  induction as with
  | nil =>
    intro ys h y hy
    simp only [List.map_nil, allSome, Option.some.injEq] at h
    subst h
    simp at hy
  | cons a as ih =>
    intro ys h y hy
    cases hF : F a with
    | none => simp [allSome, hF] at h
    | some b =>
      rw [List.map_cons, hF, allSome_cons] at h
      obtain ⟨zs, h1, h2⟩ := h
      rw [h2] at hy
      rcases List.mem_cons.1 hy with hy | hy
      · exact ⟨a, List.mem_cons_self _ _, by rw [hF, hy]⟩
      · obtain ⟨a', ha', hFa'⟩ := ih zs h1 y hy
        exact ⟨a', List.mem_cons_of_mem _ ha', hFa'⟩

theorem regexRedactor_facts (H : Host) (path : String) (i : Nat) (name : String) (j : Nat)
    (re : troubleshootv1beta2.Regex) (x : Redactor)
    (h : regexRedactor H path i name j re = some x) :
    x.name = redactorName i j name (if re.Selector ≠ "" then "multiLine" else "regex") ∧
      x.isDefault = some false := by
  unfold regexRedactor at h
  by_cases hs : re.Selector = ""
  · simp only [hs, ne_eq, not_true_eq_false, if_false] at h ⊢
    cases hc : H.Compile ("(?i)" ++ re.Redactor) with
    | error e => simp [hc] at h
    | ok c =>
      simp only [hc, Option.some.injEq] at h
      rw [← h]
      exact ⟨rfl, rfl⟩
  · simp only [hs, ne_eq, not_false_eq_true, if_true] at h ⊢
    cases h1 : H.Compile re.Selector with
    | error e => simp [h1] at h
    | ok re1 =>
      cases h2 : H.Compile re.Redactor with
      | error e => simp [h1, h2] at h
      | ok re2 =>
        simp only [h1, h2, Option.some.injEq] at h
        rw [← h]
        exact ⟨rfl, rfl⟩

theorem specBlock_names (H : Host) (path : String)
    (p : Nat × Option troubleshootv1beta2.Redact) (block : List Redactor)
    (h : specBlock H path p = some block) :
    block.map Redactor.name =
      (match p.2 with
        | none => []
        | some redact =>
          if (redactMatchesPath H path redact).1 then specNames p.1 redact else []) := by
  obtain ⟨i, r⟩ := p
  cases r with
  | none =>
    simp only [specBlock, Option.some.injEq] at h
    simp [← h]
  | some redact =>
    by_cases hm : (redactMatchesPath H path redact).1 = true
    · simp only [specBlock, hm, if_true, specRedactors] at h ⊢
      cases hr : allSome (redact.Removals.Regex.enum.map
          (fun q => regexRedactor H path i redact.Name q.1 q.2)) with
      | none => simp [hr] at h
      | some regs =>
        simp only [hr, Option.some.injEq] at h
        have hn := allSome_map_eq (fun q => regexRedactor H path i redact.Name q.1 q.2)
          Redactor.name
          (fun q => redactorName i q.1 redact.Name
            (if q.2.Selector ≠ "" then "multiLine" else "regex"))
          redact.Removals.Regex.enum regs hr
          (fun a _ y hy => (regexRedactor_facts H path i redact.Name a.1 a.2 y hy).1)
        rw [← h]
        simp [specNames, hn, Redactor.name, literalString, NewYamlRedactor, Function.comp_def]
    · have hm2 : (redactMatchesPath H path redact).1 = false := by simpa using hm
      simp only [specBlock, hm2, Bool.false_eq_true, if_false, Option.some.injEq] at h ⊢
      simp [← h]

/-- C11: `redactorName` gives `<name>.<kind>.<j>` for a spec with a name and
`unnamed-<i>.<kind>.<j>` for one without, with i and j in decimal; and the stages
`buildAdditionalRedactors` builds are named so, spec by spec, with i the index of the
spec in the list, j the index of the removal in its list (the regex removals share one
list), and the kind `literal`, `regex`, `multiLine` (a regex removal with a selector) or
`yaml`. -/
theorem buildAdditionalRedactors_names (H : Host) (path : String)
    (redacts : List (Option troubleshootv1beta2.Redact)) (out : List Redactor)
    (h : buildAdditionalRedactors H path redacts = Outcome.ok out) :
    (∀ (i j : Nat) (name kind : String),
      redactorName i j name kind =
        if name ≠ "" then name ++ "." ++ kind ++ "." ++ (Nat.toDigits 10 j).asString
        else
          "unnamed-" ++ (Nat.toDigits 10 i).asString ++ "." ++ kind ++ "." ++
            (Nat.toDigits 10 j).asString) ∧
      out.map Redactor.name = userNames H path redacts := by
  refine ⟨fun _ _ _ _ => rfl, ?_⟩
  have hu := buildAdditionalRedactors_eq_userRedactors H path redacts out h
  unfold userRedactors at hu
  cases hb : allSome (redacts.enum.map (specBlock H path)) with
  | none => simp [hb] at hu
  | some blocks =>
    simp only [hb, Option.some.injEq] at hu
    have hn := allSome_map_eq (specBlock H path) (List.map Redactor.name) _ redacts.enum
      blocks hb (fun p _ block hp => specBlock_names H path p block hp)
    rw [← hu, userNames, ← hn]
    simp [List.map_flatten]

/-- C11 on a list of three entries: a nil pointer, the spec `db` and a spec without
name. -/
theorem buildAdditionalRedactors_names_witness :
    buildAdditionalRedactors stubHost "a.txt" [none, some dbSpec, some literalSpec] =
        Outcome.ok
          [ Redactor.literal (literalString "swordfish" "a.txt" "db.literal.0"),
            Redactor.singleLine
              { re := Regexp.wholeLine "(?i)secret", maskText := MASK_TEXT, filePath := "a.txt",
                redactName := "db.regex.0", isDefault := false },
            Redactor.multiLine
              { re1 := Regexp.wholeLine "key", re2 := Regexp.wholeLine "secret",
                maskText := MASK_TEXT, filePath := "a.txt", redactName := "db.multiLine.1",
                isDefault := false },
            Redactor.yaml (NewYamlRedactor "spec.password" "a.txt" "db.yaml.0"),
            Redactor.literal (literalString "swordfish" "a.txt" "unnamed-2.literal.0") ] ∧
      userNames stubHost "a.txt" [none, some dbSpec, some literalSpec] =
        ["db.literal.0", "db.regex.0", "db.multiLine.1", "db.yaml.0", "unnamed-2.literal.0"] ∧
      ((∀ (i j : Nat) (name kind : String),
        redactorName i j name kind =
          if name ≠ "" then name ++ "." ++ kind ++ "." ++ (Nat.toDigits 10 j).asString
          else
            "unnamed-" ++ (Nat.toDigits 10 i).asString ++ "." ++ kind ++ "." ++
              (Nat.toDigits 10 j).asString) ∧
        [ Redactor.literal (literalString "swordfish" "a.txt" "db.literal.0"),
          Redactor.singleLine
            { re := Regexp.wholeLine "(?i)secret", maskText := MASK_TEXT, filePath := "a.txt",
              redactName := "db.regex.0", isDefault := false },
          Redactor.multiLine
            { re1 := Regexp.wholeLine "key", re2 := Regexp.wholeLine "secret",
              maskText := MASK_TEXT, filePath := "a.txt", redactName := "db.multiLine.1",
              isDefault := false },
          Redactor.yaml (NewYamlRedactor "spec.password" "a.txt" "db.yaml.0"),
          Redactor.literal (literalString "swordfish" "a.txt" "unnamed-2.literal.0") ].map
            Redactor.name =
          userNames stubHost "a.txt" [none, some dbSpec, some literalSpec]) :=
  ⟨rfl, by decide,
    buildAdditionalRedactors_names stubHost "a.txt" [none, some dbSpec, some literalSpec] _ rfl⟩

/-- C12: when `buildAdditionalRedactors` returns a list, the list is, spec by spec in
list order: nothing for a nil spec and for a spec whose file selector does not match the
path; for an admitted spec, one redactor per literal value, then one per regex removal,
then one per YAML path, where a regex removal with a selector gives a multi-line
redactor over the selector and the redactor compiled as given, and one without a
selector a single-line redactor over the redactor string prefixed with `(?i)`. -/
theorem buildAdditionalRedactors_contributes (H : Host) (path : String)
    (redacts : List (Option troubleshootv1beta2.Redact)) (out : List Redactor)
    (h : buildAdditionalRedactors H path redacts = Outcome.ok out) :
    userRedactors H path redacts = some out ∧
      out.map Redactor.kind = userKinds H path redacts :=
  ⟨buildAdditionalRedactors_eq_userRedactors H path redacts out h,
    by simpa using buildAdditionalRedactors.specs_kind H path redacts 0 [] out h⟩

/-- C12 on a list of three entries: a nil pointer, a spec for another file and the spec
`db`. -/
theorem buildAdditionalRedactors_contributes_witness :
    buildAdditionalRedactors stubHost "a.txt" [none, some otherFileSpec, some dbSpec] =
        Outcome.ok
          [ Redactor.literal (literalString "swordfish" "a.txt" "db.literal.0"),
            Redactor.singleLine
              { re := Regexp.wholeLine "(?i)secret", maskText := MASK_TEXT, filePath := "a.txt",
                redactName := "db.regex.0", isDefault := false },
            Redactor.multiLine
              { re1 := Regexp.wholeLine "key", re2 := Regexp.wholeLine "secret",
                maskText := MASK_TEXT, filePath := "a.txt", redactName := "db.multiLine.1",
                isDefault := false },
            Redactor.yaml (NewYamlRedactor "spec.password" "a.txt" "db.yaml.0") ] ∧
      userRedactors stubHost "a.txt" [none, some otherFileSpec, some dbSpec] =
        some
          [ Redactor.literal (literalString "swordfish" "a.txt" "db.literal.0"),
            Redactor.singleLine
              { re := Regexp.wholeLine "(?i)secret", maskText := MASK_TEXT, filePath := "a.txt",
                redactName := "db.regex.0", isDefault := false },
            Redactor.multiLine
              { re1 := Regexp.wholeLine "key", re2 := Regexp.wholeLine "secret",
                maskText := MASK_TEXT, filePath := "a.txt", redactName := "db.multiLine.1",
                isDefault := false },
            Redactor.yaml (NewYamlRedactor "spec.password" "a.txt" "db.yaml.0") ] ∧
      [ Redactor.literal (literalString "swordfish" "a.txt" "db.literal.0"),
        Redactor.singleLine
          { re := Regexp.wholeLine "(?i)secret", maskText := MASK_TEXT, filePath := "a.txt",
            redactName := "db.regex.0", isDefault := false },
        Redactor.multiLine
          { re1 := Regexp.wholeLine "key", re2 := Regexp.wholeLine "secret",
            maskText := MASK_TEXT, filePath := "a.txt", redactName := "db.multiLine.1",
            isDefault := false },
        Redactor.yaml (NewYamlRedactor "spec.password" "a.txt" "db.yaml.0") ].map
          Redactor.kind =
        userKinds stubHost "a.txt" [none, some otherFileSpec, some dbSpec] :=
  ⟨rfl, buildAdditionalRedactors_contributes stubHost "a.txt"
    [none, some otherFileSpec, some dbSpec] _ rfl⟩

/-! ### The default flag -/

/-- Every redaction the loop of a single-line stage records carries the name, the file
path and the default flag of the stage. -/
theorem SingleLineRedactor.single_loop_ledger_fields (r : SingleLineRedactor)
    (substStr : String) :
    ∀ (fuel n : Nat) (st : Stage) (out : Stage × Option GoError),
      SingleLineRedactor.loop r substStr fuel n st = some out →
      (∀ x ∈ st.ledger, x.RedactorName = r.redactName ∧ x.File = r.filePath ∧
        x.IsDefaultRedactor = r.isDefault) →
      ∀ x ∈ out.1.ledger, x.RedactorName = r.redactName ∧ x.File = r.filePath ∧
        x.IsDefaultRedactor = r.isDefault := by
  intro fuel
  induction fuel with
  | zero => intro n st out h; simp [SingleLineRedactor.loop] at h
  | succ fuel ih =>
    intro n st out h hl
    rw [SingleLineRedactor.loop] at h
    cases he : (readLine st.reader).1.2 with
    | some e =>
      simp only [he, Option.isSome_some, if_true, Option.some.injEq] at h
      rw [← h]
      exact hl
    | none =>
      simp only [he, Option.isSome_none, Bool.false_eq_true, if_false] at h
      split_ifs at h
      · exact ih _ _ _ h hl
      · refine ih _ _ _ h ?_
        intro x hx
        simp only [Stage.addRedaction, Stage.Fprintf, List.mem_append,
          List.mem_singleton] at hx
        rcases hx with hx | hx
        · exact hl x hx
        · rw [hx]
          exact ⟨rfl, rfl, rfl⟩
      · exact ih _ _ _ h hl

/-- Every redaction the loop of a multi-line stage records carries the name, the file
path and the default flag of the stage. -/
theorem MultiLineRedactor.multi_loop_ledger_fields (r : MultiLineRedactor)
    (substStr : String) :
    ∀ (fuel : Nat) (line1 line2 : String) (err : Option GoError) (flush : Bool) (n : Nat)
      (st : Stage) (out : Stage × Option GoError),
      MultiLineRedactor.loop r substStr fuel line1 line2 err flush n st = some out →
      (∀ x ∈ st.ledger, x.RedactorName = r.redactName ∧ x.File = r.filePath ∧
        x.IsDefaultRedactor = r.isDefault) →
      ∀ x ∈ out.1.ledger, x.RedactorName = r.redactName ∧ x.File = r.filePath ∧
        x.IsDefaultRedactor = r.isDefault := by
  intro fuel
  induction fuel with
  | zero => intro line1 line2 err flush n st out h; simp [MultiLineRedactor.loop] at h
  | succ fuel ih =>
    intro line1 line2 err flush n st out h hl
    rw [MultiLineRedactor.loop] at h
    cases err with
    | some e =>
      simp only [Option.isSome_some, if_true, Option.some.injEq] at h
      rw [← h]
      split_ifs
      · exact hl
      · exact hl
    | none =>
      simp only [Option.isSome_none, Bool.false_eq_true, if_false] at h
      split_ifs at h
      · exact ih _ _ _ _ _ _ _ h hl
      · refine ih _ _ _ _ _ _ _ h ?_
        intro x hx
        simp only [Stage.addRedaction, Stage.Fprintf, List.mem_append,
          List.mem_singleton] at hx
        rcases hx with hx | hx
        · exact hl x hx
        · rw [hx]
          exact ⟨rfl, rfl, rfl⟩
      · exact ih _ _ _ _ _ _ _ h hl

theorem SingleLineRedactor.single_Redact_ledger_fields (r : SingleLineRedactor)
    (input : Reader) (w : PipeWriter) (res : StageResult) (h : r.Redact input w = some res) :
    ∀ x ∈ res.ledger, x.RedactorName = r.redactName ∧ x.File = r.filePath ∧
      x.IsDefaultRedactor = r.isDefault := by
  unfold SingleLineRedactor.Redact at h
  cases hl : SingleLineRedactor.loop r (getReplacementPattern r.re r.maskText)
      (input.pending.length + 1) 0 { reader := input, writer := w, ledger := [] } with
  | none => simp [hl] at h
  | some out =>
    simp only [hl, Option.some.injEq] at h
    rw [← h]
    exact SingleLineRedactor.single_loop_ledger_fields r _ _ _ _ out hl (by simp)

theorem MultiLineRedactor.multi_Redact_ledger_fields (r : MultiLineRedactor)
    (input : Reader) (w : PipeWriter) (res : StageResult) (h : r.Redact input w = some res) :
    ∀ x ∈ res.ledger, x.RedactorName = r.redactName ∧ x.File = r.filePath ∧
      x.IsDefaultRedactor = r.isDefault := by
  unfold MultiLineRedactor.Redact at h
  cases he : (getNextTwoLines input none).1.2.2 with
  | some e =>
    simp only [he, Option.isSome_some, if_true, Option.some.injEq] at h
    rw [← h]
    simp [Stage.Fprintf]
  | none =>
    simp only [he, Option.isSome_none, Bool.false_eq_true, if_false] at h
    cases hl : MultiLineRedactor.loop r (getReplacementPattern r.re2 r.maskText)
        (input.pending.length + 1) (getNextTwoLines input none).1.1
        (getNextTwoLines input none).1.2.1 none false 1
        { reader := (getNextTwoLines input none).2, writer := w, ledger := [] } with
    | none => simp [hl] at h
    | some out =>
      simp only [hl, Option.some.injEq] at h
      rw [← h]
      exact MultiLineRedactor.multi_loop_ledger_fields r _ _ _ _ _ _ _ _ out hl (by simp)

theorem getRedactors_isDefault (H : Host) (path : String) :
    ∀ r ∈ (getRedactors H path).1, r.isDefault ≠ some false := by
  intro r hr
  simp only [getRedactors, getRedactors.singles_eq, getRedactors.doubles_eq,
    getRedactors.customs_eq, List.nil_append, List.mem_append, List.mem_map, List.mem_cons,
    List.mem_singleton, List.not_mem_nil, or_false] at hr
  rcases hr with (⟨p, _, hp⟩ | ⟨p, _, hp⟩) | hp | hp | hp | hp <;>
    first
    | (rw [← hp]; simp [Redactor.isDefault])
    | (rw [hp]; simp [Redactor.isDefault])

theorem buildAdditionalRedactors_isDefault (H : Host) (path : String)
    (redacts : List (Option troubleshootv1beta2.Redact)) (out : List Redactor)
    (h : buildAdditionalRedactors H path redacts = Outcome.ok out) :
    ∀ r ∈ out, r.isDefault ≠ some true := by
  intro r hr
  have hu := buildAdditionalRedactors_eq_userRedactors H path redacts out h
  unfold userRedactors at hu
  cases hb : allSome (redacts.enum.map (specBlock H path)) with
  | none => simp [hb] at hu
  | some blocks =>
    simp only [hb, Option.some.injEq] at hu
    rw [← hu, List.mem_flatten] at hr
    obtain ⟨block, hblock, hrb⟩ := hr
    obtain ⟨p, _, hp⟩ := allSome_mem (specBlock H path) redacts.enum blocks hb block hblock
    obtain ⟨i, s⟩ := p
    cases s with
    | none =>
      simp only [specBlock, Option.some.injEq] at hp
      rw [← hp] at hrb
      simp at hrb
    | some redact =>
      by_cases hm : (redactMatchesPath H path redact).1 = true
      · simp only [specBlock, hm, if_true, specRedactors] at hp
        cases hreg : allSome (redact.Removals.Regex.enum.map
            (fun q => regexRedactor H path i redact.Name q.1 q.2)) with
        | none => simp [hreg] at hp
        | some regs =>
          simp only [hreg, Option.some.injEq] at hp
          rw [← hp] at hrb
          simp only [List.mem_append, List.mem_map] at hrb
          rcases hrb with (⟨q, _, hq⟩ | hq) | ⟨q, _, hq⟩
          · rw [← hq]
            simp [Redactor.isDefault]
          · obtain ⟨q, _, hq'⟩ := allSome_mem _ _ regs hreg r hq
            rw [(regexRedactor_facts H path i redact.Name q.1 q.2 r hq').2]
            simp
          · rw [← hq]
            simp [Redactor.isDefault]
      · have hm2 : (redactMatchesPath H path redact).1 = false := by simpa using hm
        simp only [specBlock, hm2, Bool.false_eq_true, if_false, Option.some.injEq] at hp
        rw [← hp] at hrb
        simp at hrb

/-- C13: every redaction recorded by a single-line or multi-line stage of the built-in
chain (`getRedactors`) has `IsDefaultRedactor = true`, and every redaction recorded by
a single-line or multi-line stage that `buildAdditionalRedactors` has built from the
user specs has `IsDefaultRedactor = false`, whatever the input and the pipe. -/
theorem Redaction_default_flag (H : Host) (path : String)
    (redacts : List (Option troubleshootv1beta2.Redact)) (built : List Redactor)
    (hb : buildAdditionalRedactors H path redacts = Outcome.ok built) :
    (∀ (s : SingleLineRedactor) (input : Reader) (w : PipeWriter) (res : StageResult),
      Redactor.singleLine s ∈ (getRedactors H path).1 → s.Redact input w = some res →
      ∀ x ∈ res.ledger, x.IsDefaultRedactor = true) ∧
    (∀ (m : MultiLineRedactor) (input : Reader) (w : PipeWriter) (res : StageResult),
      Redactor.multiLine m ∈ (getRedactors H path).1 → m.Redact input w = some res →
      ∀ x ∈ res.ledger, x.IsDefaultRedactor = true) ∧
    (∀ (s : SingleLineRedactor) (input : Reader) (w : PipeWriter) (res : StageResult),
      Redactor.singleLine s ∈ built → s.Redact input w = some res →
      ∀ x ∈ res.ledger, x.IsDefaultRedactor = false) ∧
    (∀ (m : MultiLineRedactor) (input : Reader) (w : PipeWriter) (res : StageResult),
      Redactor.multiLine m ∈ built → m.Redact input w = some res →
      ∀ x ∈ res.ledger, x.IsDefaultRedactor = false) := by
  refine ⟨?_, ?_, ?_, ?_⟩
  · intro s input w res hs hr x hx
    have h1 := getRedactors_isDefault H path _ hs
    have h2 := (SingleLineRedactor.single_Redact_ledger_fields s input w res hr x hx).2.2
    simp only [Redactor.isDefault, ne_eq, Option.some.injEq] at h1
    rw [h2]
    simpa using h1
  · intro m input w res hs hr x hx
    have h1 := getRedactors_isDefault H path _ hs
    have h2 := (MultiLineRedactor.multi_Redact_ledger_fields m input w res hr x hx).2.2
    simp only [Redactor.isDefault, ne_eq, Option.some.injEq] at h1
    rw [h2]
    simpa using h1
  · intro s input w res hs hr x hx
    have h1 := buildAdditionalRedactors_isDefault H path redacts built hb _ hs
    have h2 := (SingleLineRedactor.single_Redact_ledger_fields s input w res hr x hx).2.2
    simp only [Redactor.isDefault, ne_eq, Option.some.injEq] at h1
    rw [h2]
    simpa using h1
  · intro m input w res hs hr x hx
    have h1 := buildAdditionalRedactors_isDefault H path redacts built hb _ hs
    have h2 := (MultiLineRedactor.multi_Redact_ledger_fields m input w res hr x hx).2.2
    simp only [Redactor.isDefault, ne_eq, Option.some.injEq] at h1
    rw [h2]
    simpa using h1

/-- C13 on the user chain built from the spec `db`. -/
theorem Redaction_default_flag_witness :
    buildAdditionalRedactors stubHost "a.txt" [some dbSpec] = Outcome.ok dbChain ∧
    ((∀ (s : SingleLineRedactor) (input : Reader) (w : PipeWriter) (res : StageResult),
      Redactor.singleLine s ∈ (getRedactors stubHost "a.txt").1 →
      s.Redact input w = some res → ∀ x ∈ res.ledger, x.IsDefaultRedactor = true) ∧
    (∀ (m : MultiLineRedactor) (input : Reader) (w : PipeWriter) (res : StageResult),
      Redactor.multiLine m ∈ (getRedactors stubHost "a.txt").1 →
      m.Redact input w = some res → ∀ x ∈ res.ledger, x.IsDefaultRedactor = true) ∧
    (∀ (s : SingleLineRedactor) (input : Reader) (w : PipeWriter) (res : StageResult),
      Redactor.singleLine s ∈ dbChain → s.Redact input w = some res →
      ∀ x ∈ res.ledger, x.IsDefaultRedactor = false) ∧
    (∀ (m : MultiLineRedactor) (input : Reader) (w : PipeWriter) (res : StageResult),
      Redactor.multiLine m ∈ dbChain → m.Redact input w = some res →
      ∀ x ∈ res.ledger, x.IsDefaultRedactor = false)) :=
  ⟨rfl, Redaction_default_flag stubHost "a.txt" [some dbSpec] dbChain rfl⟩

/-! ### The ledger's two indices -/

theorem Index.get_set (m : Index) (k k' : String) (v : List Redaction) :
    (m.set k v).get k' = if k = k' then v else m.get k' := by
  induction m with
  | nil => simp [Index.set, Index.get]
  | cons p rest ih =>
    obtain ⟨k0, v0⟩ := p
    by_cases h0 : k0 = k
    · subst h0
      by_cases h1 : k0 = k' <;> simp [Index.set, Index.get, h1]
    · by_cases h1 : k0 = k'
      · subst h1
        have h2 : ¬ k = k0 := fun h => h0 h.symm
        simp [Index.set, Index.get, h0, h2]
      · simp [Index.set, Index.get, h0, h1, ih]

theorem RedactionList.consistent_init : RedactionList.init.consistent := by
  refine ⟨fun r => rfl, fun n x hx => ?_, fun f x hx => ?_⟩ <;>
    simp [RedactionList.init, Index.get] at hx

theorem RedactionList.consistent_reset (l : RedactionList) :
    (ResetRedactionList l).consistent := by
  refine ⟨fun r => rfl, fun n x hx => ?_, fun f x hx => ?_⟩ <;>
    simp [ResetRedactionList, Index.get] at hx

theorem RedactionList.consistent_addRedaction (l : RedactionList) (r0 : Redaction)
    (h : l.consistent) : (addRedaction l r0).consistent := by
  obtain ⟨hc, hn, hf⟩ := h
  refine ⟨fun r => ?_, fun n x hx => ?_, fun f x hx => ?_⟩
  · simp only [addRedaction, Index.get_set]
    by_cases hr : r0 = r
    · subst hr
      simp [hc r0]
    · have hne : (r0 == r) = false := by simpa using hr
      by_cases h1 : r0.RedactorName = r.RedactorName <;>
        by_cases h2 : r0.File = r.File <;>
        simp [h1, h2, List.count_singleton, hne, hc r]
  · simp only [addRedaction, Index.get_set] at hx
    by_cases h1 : r0.RedactorName = n
    · simp only [h1, if_true, List.mem_append, List.mem_singleton] at hx
      rcases hx with hx | hx
      · exact hn n x hx
      · rw [hx]; exact h1
    · simp only [h1, if_false] at hx
      exact hn n x hx
  · simp only [addRedaction, Index.get_set] at hx
    by_cases h1 : r0.File = f
    · simp only [h1, if_true, List.mem_append, List.mem_singleton] at hx
      rcases hx with hx | hx
      · exact hf f x hx
      · rw [hx]; exact h1
    · simp only [h1, if_false] at hx
      exact hf f x hx

theorem RedactionList.consistent_foldl (ops : List LedgerOp) (l : RedactionList)
    (h : l.consistent) : (ops.foldl LedgerOp.apply l).consistent := by
  induction ops generalizing l with
  | nil => exact h
  | cons op rest ih =>
    rw [List.foldl_cons]
    apply ih
    cases op with
    | record r0 => exact RedactionList.consistent_addRedaction l r0 h
    | reset => exact RedactionList.consistent_reset l

/-- C14. Starting from the empty ledger, after any sequence of completed record and reset
operations: a record occurs as often under its redactor name in `ByRedactor` as under its
file in `ByFile`; every record stored under a name in `ByRedactor` has that redactor name;
every record stored under a file in `ByFile` has that file; and right after a reset both
maps are empty. -/
theorem ledger_invariant (ops : List LedgerOp) :
    (∀ r : Redaction,
      ((ledgerAfter ops).ByRedactor.get r.RedactorName).count r =
        ((ledgerAfter ops).ByFile.get r.File).count r) ∧
    (∀ n, ∀ x ∈ (ledgerAfter ops).ByRedactor.get n, x.RedactorName = n) ∧
    (∀ f, ∀ x ∈ (ledgerAfter ops).ByFile.get f, x.File = f) ∧
    (ledgerAfter (ops ++ [LedgerOp.reset])).ByRedactor = [] ∧
    (ledgerAfter (ops ++ [LedgerOp.reset])).ByFile = [] := by
  have h := RedactionList.consistent_foldl ops RedactionList.init
    RedactionList.consistent_init
  refine ⟨h.1, h.2.1, h.2.2, ?_, ?_⟩ <;>
    simp [ledgerAfter, GetRedactionList, List.foldl_append, LedgerOp.apply,
      ResetRedactionList]

/-! ### The last-applied redactor of the built-in chain -/

theorem splitAt_no_sep (sep : Char) :
    ∀ (cs cur : List Char), sep ∉ cur → ∀ s ∈ splitAt sep cs cur, sep ∉ s.data := by
  intro cs
  induction cs with
  | nil =>
    intro cur hcur s hs
    simp only [splitAt, List.mem_singleton] at hs
    subst hs
    simpa using hcur
  | cons c cs ih =>
    intro cur hcur s hs
    by_cases hc : c = sep
    · simp only [splitAt, hc, if_true, List.mem_cons] at hs
      rcases hs with hs | hs
      · subst hs
        simpa using hcur
      · exact ih [] (by simp) s hs
    · simp only [splitAt, hc, if_false] at hs
      refine ih (c :: cur) ?_ s hs
      simp only [List.mem_cons, not_or]
      exact ⟨fun h => hc h.symm, hcur⟩

theorem NewYamlRedactor_maskPath_ne (yamlPath filePath name : String) :
    (NewYamlRedactor yamlPath filePath name).maskPath ≠ lastAppliedPath := by
  intro h
  have hm : "kubectl.kubernetes.io/last-applied-configuration" ∈
      (NewYamlRedactor yamlPath filePath name).maskPath := by
    rw [h]; simp [lastAppliedPath]
  exact splitAt_no_sep '.' yamlPath.data [] (by simp) _ hm (by decide)

theorem getRedactors.fileglob_inj (H : Host) (a b : String)
    (h : getRedactors.fileglob H a = getRedactors.fileglob H b) : a = b := by
  have h1 := congrArg String.data h
  simp only [getRedactors.fileglob, String.data_append, List.append_assoc] at h1
  have h2 := List.append_cancel_left h1
  have h3 := List.append_cancel_left h2
  have h4 := List.append_cancel_left h3
  have h5 := List.append_cancel_left h4
  have h6 := List.append_cancel_right h5
  exact String.ext h6

theorem getRedactors.customs_flatMap (H : Host) :
    ∀ (table : List (String × String)) (seen : List String) (acc : List Redactor),
      getRedactors.customs H table seen acc =
        acc ++ table.enum.flatMap (getRedactors.customsBlock H seen table) := by
  intro table
  induction table with
  | nil => intro seen acc; simp [getRedactors.customs]
  | cons cr rest ih =>
    intro seen acc
    have hrest : (rest.enum.map (Prod.map (· + 1) id)).flatMap
            (getRedactors.customsBlock H seen (cr :: rest)) =
          rest.enum.flatMap (getRedactors.customsBlock H (cr.1 :: seen) rest) := by
      rw [List.flatMap_map]
      congr 1
      funext p
      simp only [getRedactors.customsBlock, Function.comp, Prod.map, id, List.take_succ_cons,
        List.map_cons, List.mem_cons]
      congr 1
      by_cases h1 : p.2.1 ∈ seen <;> by_cases h2 : p.2.1 = cr.1 <;>
        by_cases h3 : p.2.1 ∈ (rest.take p.1).map Prod.fst <;> simp [h1, h2, h3]
    rw [List.enum_cons', List.flatMap_cons, hrest]
    by_cases hs : cr.1 ∈ seen
    · have hsame : getRedactors.customsBlock H (cr.1 :: seen) rest =
          getRedactors.customsBlock H seen rest := by
        funext p
        have hmem : (p.2.1 = cr.1 ∨ p.2.1 ∈ seen) ↔ p.2.1 ∈ seen :=
          ⟨fun h => h.elim (fun e => e ▸ hs) id, Or.inr⟩
        simp only [getRedactors.customsBlock, List.mem_cons, hmem]
      rw [hsame]
      simp [getRedactors.customs, hs, ih, getRedactors.customsBlock, getRedactors.fileglob]
    · simp [getRedactors.customs, hs, ih, getRedactors.customsBlock, getRedactors.fileglob,
        getRedactors.lastApplied, lastAppliedPath]

theorem Redactor.isLastAppliedOf_NewYamlRedactor (H : Host) (c yamlPath filePath name : String) :
    Redactor.isLastAppliedOf H c (Redactor.yaml (NewYamlRedactor yamlPath filePath name)) =
      false := by
  have h := NewYamlRedactor_maskPath_ne yamlPath filePath name
  simp [Redactor.isLastAppliedOf, h]

theorem Redactor.isLastAppliedOf_lastApplied (H : Host) (c resource : String) :
    Redactor.isLastAppliedOf H c (getRedactors.lastApplied H resource) =
      decide (resource = c) := by
  by_cases h : resource = c
  · subst h
    simp [Redactor.isLastAppliedOf, getRedactors.lastApplied]
  · have hne : getRedactors.fileglob H resource ≠ getRedactors.fileglob H c :=
      fun e => h (getRedactors.fileglob_inj H _ _ e)
    simp [Redactor.isLastAppliedOf, getRedactors.lastApplied, h, hne]

theorem getRedactors.customs_cons_seen (H : Host) (cr : String × String)
    (rest : List (String × String)) (seen : List String) (acc : List Redactor)
    (h : cr.1 ∈ seen) :
    getRedactors.customs H (cr :: rest) seen acc =
      getRedactors.customs H rest seen
        (acc ++ [Redactor.yaml (NewYamlRedactor cr.2 (getRedactors.fileglob H cr.1) "")]) := by
  simp [getRedactors.customs, h, getRedactors.fileglob]

theorem getRedactors.customs_cons_new (H : Host) (cr : String × String)
    (rest : List (String × String)) (seen : List String) (acc : List Redactor)
    (h : cr.1 ∉ seen) :
    getRedactors.customs H (cr :: rest) seen acc =
      getRedactors.customs H rest (cr.1 :: seen)
        (acc ++ [Redactor.yaml (NewYamlRedactor cr.2 (getRedactors.fileglob H cr.1) "")] ++
          [getRedactors.lastApplied H cr.1]) := by
  simp [getRedactors.customs, h, getRedactors.fileglob, getRedactors.lastApplied,
    lastAppliedPath]

theorem getRedactors.customs_filter (H : Host) (c : String) :
    ∀ (table : List (String × String)) (seen : List String) (acc : List Redactor),
      (getRedactors.customs H table seen acc).filter (Redactor.isLastAppliedOf H c) =
        acc.filter (Redactor.isLastAppliedOf H c) ++
          (if c ∈ table.map Prod.fst ∧ c ∉ seen then [getRedactors.lastApplied H c]
           else []) := by
  intro table
  induction table with
  | nil => intro seen acc; simp [getRedactors.customs]
  | cons cr rest ih =>
    intro seen acc
    have hy := Redactor.isLastAppliedOf_NewYamlRedactor H c cr.2
      (getRedactors.fileglob H cr.1) ""
    have hl := Redactor.isLastAppliedOf_lastApplied H c cr.1
    by_cases hs : cr.1 ∈ seen
    · have hc : (c ∈ (cr :: rest).map Prod.fst ∧ c ∉ seen) ↔
          (c ∈ rest.map Prod.fst ∧ c ∉ seen) := by
        constructor
        · rintro ⟨h1, h2⟩
          rw [List.map_cons, List.mem_cons] at h1
          rcases h1 with h1 | h1
          · exact absurd (h1 ▸ hs) h2
          · exact ⟨h1, h2⟩
        · rintro ⟨h1, h2⟩
          exact ⟨by rw [List.map_cons]; exact List.mem_cons_of_mem _ h1, h2⟩
      rw [getRedactors.customs_cons_seen H cr rest seen acc hs, ih, List.filter_append,
        List.filter_singleton, hy]
      simp only [hc]
      simp
    · by_cases hcr : cr.1 = c
      · have h1 : c ∈ (cr :: rest).map Prod.fst ∧ c ∉ seen :=
          ⟨by rw [List.map_cons, hcr]; exact List.mem_cons_self _ _, hcr ▸ hs⟩
        have h2 : ¬ (c ∈ rest.map Prod.fst ∧ c ∉ cr.1 :: seen) := by
          rintro ⟨_, h⟩
          exact h (by rw [hcr]; exact List.mem_cons_self _ _)
        rw [getRedactors.customs_cons_new H cr rest seen acc hs, ih, List.filter_append,
          List.filter_append, List.filter_singleton, List.filter_singleton, hy, hl,
          if_pos h1, if_neg h2]
        simp [hcr]
      · have hc : (c ∈ (cr :: rest).map Prod.fst ∧ c ∉ seen) ↔
            (c ∈ rest.map Prod.fst ∧ c ∉ cr.1 :: seen) := by
          have hne : ¬ c = cr.1 := fun e => hcr e.symm
          simp [List.mem_cons, hne]
        rw [getRedactors.customs_cons_new H cr rest seen acc hs, ih, List.filter_append,
          List.filter_append, List.filter_singleton, List.filter_singleton, hy, hl]
        simp only [hc]
        simp [hcr]

/-- C20. The third loop of `getRedactors`, on any table of custom resources, appends for
each entry its YAML-path redactor, followed by the last-applied redactor of the resource
exactly when no earlier entry has that resource; so the chain gains one last-applied
redactor on the file glob of each resource of the table and none for any other resource.
With the shipped tables `getRedactors` returns, for every path, 18 single-line
redactors, then 8 multi-line redactors, then 4 YAML redactors: the first YAML-path
redactor of `installers.cluster.kurl.sh`, the last-applied redactor of that resource,
and the two other YAML-path redactors; exactly one redactor of the chain masks the
last-applied path. -/
theorem getRedactors_last_applied (H : Host) (path : String) :
    (∀ (table : List (String × String)) (acc : List Redactor),
      getRedactors.customs H table [] acc =
        acc ++ table.enum.flatMap (getRedactors.customsBlock H [] table)) ∧
    (∀ (table : List (String × String)) (acc : List Redactor) (c : String),
      ((getRedactors.customs H table [] acc).filter (Redactor.isLastAppliedOf H c)).length =
        (acc.filter (Redactor.isLastAppliedOf H c)).length +
          (if c ∈ table.map Prod.fst then 1 else 0)) ∧
    (getRedactors H path).2 = none ∧
    (∃ singles doubles : List Redactor,
      singles.length = 18 ∧ (∀ r ∈ singles, r.kind = Kind.singleLine) ∧
      doubles.length = 8 ∧ (∀ r ∈ doubles, r.kind = Kind.multiLine) ∧
      (getRedactors H path).1 = singles ++ doubles ++
        [ Redactor.yaml (NewYamlRedactor "*.spec.kubernetes.bootstrapToken"
            (getRedactors.fileglob H "installers.cluster.kurl.sh") ""),
          getRedactors.lastApplied H "installers.cluster.kurl.sh",
          Redactor.yaml (NewYamlRedactor "*.spec.kubernetes.certKey"
            (getRedactors.fileglob H "installers.cluster.kurl.sh") ""),
          Redactor.yaml (NewYamlRedactor "*.spec.kubernetes.kubeadmToken"
            (getRedactors.fileglob H "installers.cluster.kurl.sh") "") ]) ∧
    (∀ c ∈ customResources.map Prod.fst,
      ((getRedactors H path).1.filter (Redactor.isLastAppliedOf H c)).length = 1) ∧
    ((getRedactors H path).1.filter Redactor.masksLastApplied).length = 1 := by
  have hchain : (getRedactors H path).1 =
      singleLinePatterns.map (fun re => Redactor.singleLine
          { re := H.catalogue re.1, maskText := MASK_TEXT, filePath := path,
            redactName := re.2, isDefault := true }) ++
        doubleLinePatterns.map (fun l => Redactor.multiLine
          { re1 := H.catalogue l.1, re2 := H.catalogue l.2.1, maskText := MASK_TEXT,
            filePath := path, redactName := l.2.2, isDefault := true }) ++
        [ Redactor.yaml (NewYamlRedactor "*.spec.kubernetes.bootstrapToken"
            (getRedactors.fileglob H "installers.cluster.kurl.sh") ""),
          getRedactors.lastApplied H "installers.cluster.kurl.sh",
          Redactor.yaml (NewYamlRedactor "*.spec.kubernetes.certKey"
            (getRedactors.fileglob H "installers.cluster.kurl.sh") ""),
          Redactor.yaml (NewYamlRedactor "*.spec.kubernetes.kubeadmToken"
            (getRedactors.fileglob H "installers.cluster.kurl.sh") "") ] := by
    simp [getRedactors, getRedactors.singles_eq, getRedactors.doubles_eq,
      getRedactors.customs_eq, getRedactors.fileglob, getRedactors.lastApplied,
      lastAppliedPath]
  have hs : ∀ (f : Redactor → Bool), (∀ s, f (Redactor.singleLine s) = false) →
      (∀ m, f (Redactor.multiLine m) = false) →
      (getRedactors H path).1.filter f =
        [ Redactor.yaml (NewYamlRedactor "*.spec.kubernetes.bootstrapToken"
            (getRedactors.fileglob H "installers.cluster.kurl.sh") ""),
          getRedactors.lastApplied H "installers.cluster.kurl.sh",
          Redactor.yaml (NewYamlRedactor "*.spec.kubernetes.certKey"
            (getRedactors.fileglob H "installers.cluster.kurl.sh") ""),
          Redactor.yaml (NewYamlRedactor "*.spec.kubernetes.kubeadmToken"
            (getRedactors.fileglob H "installers.cluster.kurl.sh") "") ].filter f := by
    intro f h1 h2
    rw [hchain, List.filter_append, List.filter_append]
    have e1 : (singleLinePatterns.map (fun re => Redactor.singleLine
          { re := H.catalogue re.1, maskText := MASK_TEXT, filePath := path,
            redactName := re.2, isDefault := true })).filter f = [] := by
      rw [List.filter_eq_nil_iff]
      intro r hr
      obtain ⟨p, _, hp⟩ := List.mem_map.1 hr
      rw [← hp, h1]; simp
    have e2 : (doubleLinePatterns.map (fun l => Redactor.multiLine
          { re1 := H.catalogue l.1, re2 := H.catalogue l.2.1, maskText := MASK_TEXT,
            filePath := path, redactName := l.2.2, isDefault := true })).filter f = [] := by
      rw [List.filter_eq_nil_iff]
      intro r hr
      obtain ⟨p, _, hp⟩ := List.mem_map.1 hr
      rw [← hp, h2]; simp
    rw [e1, e2]; rfl
  refine ⟨fun table acc => getRedactors.customs_flatMap H table [] acc, ?_,
    (getRedactors_kinds H path).1, ⟨_, _, ?_, ?_, ?_, ?_, hchain⟩, ?_, ?_⟩
  · intro table acc c
    rw [getRedactors.customs_filter H c table [] acc, List.length_append]
    by_cases h : c ∈ table.map Prod.fst <;> simp [h]
  · simp [singleLinePatterns]
  · intro r hr
    obtain ⟨p, _, hp⟩ := List.mem_map.1 hr
    rw [← hp]; rfl
  · simp [doubleLinePatterns]
  · intro r hr
    obtain ⟨p, _, hp⟩ := List.mem_map.1 hr
    rw [← hp]; rfl
  · intro c hc
    have hc2 : c = "installers.cluster.kurl.sh" := by
      simpa [customResources] using hc
    subst hc2
    rw [hs _ (fun _ => rfl) (fun _ => rfl)]
    simp [List.filter_cons, Redactor.isLastAppliedOf_NewYamlRedactor,
      Redactor.isLastAppliedOf_lastApplied]
  · rw [hs _ (fun _ => rfl) (fun _ => rfl)]
    have hm : ∀ yamlPath filePath name,
        Redactor.masksLastApplied (Redactor.yaml (NewYamlRedactor yamlPath filePath name)) =
          false := by
      intro yamlPath filePath name
      have h := NewYamlRedactor_maskPath_ne yamlPath filePath name
      simp [Redactor.masksLastApplied, h]
    have hl : Redactor.masksLastApplied
        (getRedactors.lastApplied H "installers.cluster.kurl.sh") = true := by
      simp [getRedactors.lastApplied, Redactor.masksLastApplied]
    simp only [List.filter_cons, hm, hl, List.filter_nil]
    simp

/-! ### Running a chain on its own output -/

/-- C16, as stated, fails: the mask text does not match `^(?P<drop>x)`, yet the chain
made of that single-line stage turns the stream `xxa` into `xa`, and `xa` into `a`. -/
theorem runChain_not_idempotent :
    dropStage.re.MatchString dropStage.maskText = false ∧
    runChain [LineStage.single dropStage] { lines := ["xxa"], err := GoError.EOF } =
      some { lines := ["xa"], err := GoError.EOF } ∧
    runChain [LineStage.single dropStage] { lines := ["xa"], err := GoError.EOF } =
      some { lines := ["a"], err := GoError.EOF } := by
  decide

theorem splitAt_not_mem (sep : Char) :
    ∀ (cs cur : List Char), sep ∉ cs → splitAt sep cs cur = [String.mk (cur.reverse ++ cs)] := by
  intro cs
  induction cs with
  | nil => intro cur _; simp [splitAt]
  | cons c cs ih =>
    intro cur h
    simp only [List.mem_cons, not_or] at h
    have hc : ¬ c = sep := fun e => h.1 e.symm
    simp [splitAt, hc, ih (c :: cur) h.2]

theorem wireLines_plainLine (line : String) (h : plainLine line = true) :
    wireLines line = [line] := by
  simp only [plainLine, Bool.and_eq_true, Bool.not_eq_true', bne_iff_ne, ne_eq] at h
  have h1 : '\n' ∉ line.data := by
    intro hm
    have := h.1
    simp [hm] at this
  simp [wireLines, splitAt_not_mem '\n' line.data [] h1, dropCR, h.2]

theorem flatMap_wireLines (y : List String) (h : ∀ l ∈ y, plainLine l = true) :
    y.flatMap wireLines = y := by
  induction y with
  | nil => rfl
  | cons l ls ih =>
    rw [List.flatMap_cons, wireLines_plainLine l (h l (List.mem_cons_self _ _)),
      ih (fun x hx => h x (List.mem_cons_of_mem _ hx))]
    rfl

theorem Reader.lineOf_ofLines (y : List String) :
    (y.map (fun l => (([] : List String), l))).map Reader.lineOf = y := by
  induction y with
  | nil => rfl
  | cons l ls ih =>
    simp only [List.map_cons, ih, Reader.lineOf, String.join]
    congr 1

/-! ### The multi-line stage against the greedy pairing -/

theorem MultiLineRedactor.ref_length (r : MultiLineRedactor) :
    ∀ (n : Nat) (lines : List String), lines.length ≤ n →
      (r.ref lines).length = lines.length ∧ (r.consumed lines).length = lines.length := by
  intro n
  induction n with
  | zero =>
    intro lines h
    have h0 : lines = [] := List.length_eq_zero.1 (Nat.le_zero.1 h)
    subst h0
    simp [MultiLineRedactor.ref, MultiLineRedactor.consumed]
  | succ n ih =>
    intro lines h
    match lines, h with
    | [], _ => simp [MultiLineRedactor.ref, MultiLineRedactor.consumed]
    | [a], _ => simp [MultiLineRedactor.ref, MultiLineRedactor.consumed]
    | a :: b :: rest, h =>
      have h1 := ih rest (by simp only [List.length_cons] at h; omega)
      have h2 := ih (b :: rest) (by simp only [List.length_cons] at h ⊢; omega)
      by_cases hm : r.re1.MatchString a = true
      · simp [MultiLineRedactor.ref, MultiLineRedactor.consumed, hm, h1.1, h1.2]
      · simp [MultiLineRedactor.ref, MultiLineRedactor.consumed, hm, h2.1, h2.2]

theorem dropLast_getLast?_cons {α : Type} (p : α) (xs : List α) (h : 2 ≤ xs.length) :
    (p :: xs).dropLast.getLast? = xs.dropLast.getLast? := by
  match xs, h with
  | x :: y :: rest, _ => simp [List.dropLast, List.getLast?_cons_cons]

theorem MultiLineRedactor.consumed_match (r : MultiLineRedactor) (a b : String)
    (rest : List String) (hm : r.re1.MatchString a = true) :
    r.consumed (a :: b :: rest) = false :: true :: r.consumed rest := by
  simp [MultiLineRedactor.consumed, hm]

theorem MultiLineRedactor.consumed_no_match (r : MultiLineRedactor) (a b : String)
    (rest : List String) (hm : ¬ r.re1.MatchString a = true) :
    r.consumed (a :: b :: rest) = false :: r.consumed (b :: rest) := by
  simp [MultiLineRedactor.consumed, hm]

theorem MultiLineRedactor.loneLineAfterPair_eq (r : MultiLineRedactor) :
    ∀ (n : Nat) (lines : List String), lines.length ≤ n →
      r.loneLineAfterPair lines = r.lastFollowsValue lines := by
  intro n
  induction n with
  | zero =>
    intro lines h
    have h0 : lines = [] := List.length_eq_zero.1 (Nat.le_zero.1 h)
    subst h0
    simp [MultiLineRedactor.loneLineAfterPair, MultiLineRedactor.lastFollowsValue,
      MultiLineRedactor.consumed]
  | succ n ih =>
    intro lines h
    match lines, h with
    | [], _ =>
      simp [MultiLineRedactor.loneLineAfterPair, MultiLineRedactor.lastFollowsValue,
        MultiLineRedactor.consumed]
    | [a], _ =>
      simp [MultiLineRedactor.loneLineAfterPair, MultiLineRedactor.lastFollowsValue,
        MultiLineRedactor.consumed]
    | [a, b], _ =>
      by_cases hm : r.re1.MatchString a = true <;>
        simp [MultiLineRedactor.loneLineAfterPair, MultiLineRedactor.lastFollowsValue,
          MultiLineRedactor.consumed, hm]
    | [a, b, c], _ =>
      by_cases hm : r.re1.MatchString a = true <;> by_cases hb : r.re1.MatchString b = true <;>
        simp [MultiLineRedactor.loneLineAfterPair, MultiLineRedactor.lastFollowsValue,
          MultiLineRedactor.consumed, hm, hb]
    | a :: b :: c :: d :: rest, h =>
      by_cases hm : r.re1.MatchString a = true
      · have hi := ih (c :: d :: rest) (by simp only [List.length_cons] at h ⊢; omega)
        have hlen := (MultiLineRedactor.ref_length r _ (c :: d :: rest) (Nat.le_refl _)).2
        rw [MultiLineRedactor.loneLineAfterPair_match r a b c d rest hm, hi]
        simp only [MultiLineRedactor.lastFollowsValue]
        rw [MultiLineRedactor.consumed_match r a b (c :: d :: rest) hm]
        rw [dropLast_getLast?_cons, dropLast_getLast?_cons]
        · rw [hlen]; simp
        · simp only [List.length_cons, hlen]; omega
      · have hi := ih (b :: c :: d :: rest) (by simp only [List.length_cons] at h ⊢; omega)
        have hlen := (MultiLineRedactor.ref_length r _ (b :: c :: d :: rest) (Nat.le_refl _)).2
        rw [MultiLineRedactor.loneLineAfterPair_no_match r a b (c :: d :: rest) hm, hi]
        simp only [MultiLineRedactor.lastFollowsValue]
        rw [MultiLineRedactor.consumed_no_match r a b (c :: d :: rest) hm]
        rw [dropLast_getLast?_cons]
        rw [hlen]; simp

theorem MultiLineRedactor.emitted_eq_ref (r : MultiLineRedactor) :
    ∀ (n : Nat) (rest : List String) (a b : String), rest.length ≤ n →
      r.emitted a b rest =
        if r.loneLineAfterPair (a :: b :: rest) then (r.ref (a :: b :: rest)).dropLast
        else r.ref (a :: b :: rest) := by
  intro n
  induction n with
  | zero =>
    intro rest a b h
    have h0 : rest = [] := List.length_eq_zero.1 (Nat.le_zero.1 h)
    subst h0
    by_cases hm : r.re1.MatchString a = true <;>
      simp [MultiLineRedactor.emitted, MultiLineRedactor.ref,
        MultiLineRedactor.loneLineAfterPair, hm]
  | succ n ih =>
    intro rest a b h
    match rest, h with
    | [], _ =>
      by_cases hm : r.re1.MatchString a = true <;>
        simp [MultiLineRedactor.emitted, MultiLineRedactor.ref,
          MultiLineRedactor.loneLineAfterPair, hm]
    | [c], _ =>
      by_cases hm : r.re1.MatchString a = true <;> by_cases hb : r.re1.MatchString b = true <;>
        simp [MultiLineRedactor.emitted, MultiLineRedactor.ref,
          MultiLineRedactor.loneLineAfterPair, hm, hb]
    | c :: d :: rest, h =>
      by_cases hm : r.re1.MatchString a = true
      · have hi := ih rest c d (by simp only [List.length_cons] at h; omega)
        have hlen := (MultiLineRedactor.ref_length r _ (c :: d :: rest) (Nat.le_refl _)).1
        have hne : r.ref (c :: d :: rest) ≠ [] := by
          intro h0; rw [h0] at hlen; simp at hlen
        rw [MultiLineRedactor.loneLineAfterPair_match r a b c d rest hm]
        rw [MultiLineRedactor.emitted, MultiLineRedactor.ref]
        simp only [hm, if_true, hi]
        by_cases hl : r.loneLineAfterPair (c :: d :: rest) = true
        · simp [hl, List.dropLast_cons_of_ne_nil, hne]
        · simp [hl]
      · have hi := ih (d :: rest) b c (by simp only [List.length_cons] at h ⊢; omega)
        have hlen := (MultiLineRedactor.ref_length r _ (b :: c :: d :: rest) (Nat.le_refl _)).1
        have hne : r.ref (b :: c :: d :: rest) ≠ [] := by
          intro h0; rw [h0] at hlen; simp at hlen
        rw [MultiLineRedactor.loneLineAfterPair_no_match r a b (c :: d :: rest) hm]
        rw [MultiLineRedactor.emitted]
        conv => rhs; rw [MultiLineRedactor.ref]
        simp only [hm, if_false, hi]
        by_cases hl : r.loneLineAfterPair (b :: c :: d :: rest) = true
        · simp [hl, List.dropLast_cons_of_ne_nil, hne]
        · simp [hl]

theorem MultiLineRedactor.ref_no_match (r : MultiLineRedactor) :
    ∀ (lines : List String), (∀ l ∈ lines, r.re1.MatchString l = false) →
      r.ref lines = lines ∧ r.loneLineAfterPair lines = false := by
  intro lines
  induction lines with
  | nil => intro _; simp [MultiLineRedactor.ref, MultiLineRedactor.loneLineAfterPair]
  | cons a rest ih =>
    intro h
    have ha := h a (List.mem_cons_self _ _)
    have hi := ih (fun l hl => h l (List.mem_cons_of_mem _ hl))
    match rest, hi with
    | [], _ => simp [MultiLineRedactor.ref, MultiLineRedactor.loneLineAfterPair]
    | b :: rest, hi =>
      have hm : ¬ r.re1.MatchString a = true := by simp [ha]
      rw [MultiLineRedactor.loneLineAfterPair_no_match r a b rest hm, MultiLineRedactor.ref]
      simp [ha, hi.1, hi.2]

/-- C21. On an input of n >= 2 lines read without error, whatever the segments they
arrive in and whatever error ends the stream, a multi-line stage returns, and the lines
it emits are those of the greedy pairing `ref` (which has one line per input line),
without the final one exactly when the line before the final line is consumed as the
value line of a selector match; when the selector matches no line, the output is the
input, line for line. -/
theorem MultiLineRedactor.Redact_refines_ref (r : MultiLineRedactor)
    (a b : List String × String) (rest : List (List String × String)) (e : GoError) :
    ∃ res, r.Redact (Reader.ofSegments (a :: b :: rest) e) PipeWriter.fresh = some res ∧
      res.written =
        (if r.lastFollowsValue ((a :: b :: rest).map Reader.lineOf) then
          (r.ref ((a :: b :: rest).map Reader.lineOf)).dropLast
        else r.ref ((a :: b :: rest).map Reader.lineOf)) ∧
      (r.ref ((a :: b :: rest).map Reader.lineOf)).length = (a :: b :: rest).length ∧
      ((∀ l ∈ (a :: b :: rest).map Reader.lineOf, r.re1.MatchString l = false) →
        res.written = (a :: b :: rest).map Reader.lineOf) := by
  have hem := MultiLineRedactor.emitted_eq_ref r _ (rest.map Reader.lineOf)
    (Reader.lineOf a) (Reader.lineOf b) (Nat.le_refl _)
  have hlone := MultiLineRedactor.loneLineAfterPair_eq r _
    ((a :: b :: rest).map Reader.lineOf) (Nat.le_refl _)
  have hlen := (MultiLineRedactor.ref_length r _ ((a :: b :: rest).map Reader.lineOf)
    (Nat.le_refl _)).1
  rw [MultiLineRedactor.Redact_ofSegments_two]
  refine ⟨_, rfl, ?_, ?_, ?_⟩
  · simp only [List.map_cons] at hlone ⊢
    rw [hem, hlone]
  · simpa using hlen
  · intro hno
    obtain ⟨h1, h2⟩ := MultiLineRedactor.ref_no_match r _ hno
    simp only [List.map_cons] at h1 h2 ⊢
    rw [hem, h2, h1]
    simp

/-! ### A line cut short by an error -/

theorem readLineLoop_cut_short (e : GoError) :
    ∀ (pre : List String) (acc : String),
      readLineLoop e (pre.map (fun s => (s, true))) acc = (("", some e), []) := by
  intro pre
  induction pre with
  | nil => intro acc; rfl
  | cons s pre ih => intro acc; simp [readLineLoop, ih]

theorem readLineLoop_withPartial (e : GoError) (pre : List String) :
    ∀ (pending : List (String × Bool)) (acc : String),
      (readLineLoop e (pending ++ pre.map (fun s => (s, true))) acc).1 =
          (readLineLoop e pending acc).1 ∧
        (readLineLoop e (pending ++ pre.map (fun s => (s, true))) acc).2 =
          (if (readLineLoop e pending acc).1.2.isSome then (readLineLoop e pending acc).2
           else (readLineLoop e pending acc).2 ++ pre.map (fun s => (s, true))) := by
  intro pending
  induction pending with
  | nil =>
    intro acc
    simp [readLineLoop_cut_short, readLineLoop]
  | cons p ps ih =>
    intro acc
    obtain ⟨line, isPrefix⟩ := p
    cases isPrefix with
    | false => simp [readLineLoop]
    | true =>
      have h := ih (acc ++ line)
      simpa [readLineLoop] using h

theorem readLine_withPartial (rd : Reader) (pre : List String) :
    (readLine (rd.withPartial pre)).1 = (readLine rd).1 ∧
      (readLine (rd.withPartial pre)).2 =
        (if (readLine rd).1.2.isSome then (readLine rd).2
         else (readLine rd).2.withPartial pre) := by
  have h := readLineLoop_withPartial rd.err pre rd.pending ""
  refine ⟨h.1, ?_⟩
  by_cases he : (readLineLoop rd.err rd.pending "").1.2.isSome = true
  · simp only [readLine, Reader.withPartial, h.2, he, if_true]
  · simp only [readLine, Reader.withPartial, h.2, he, if_false]
    simp

theorem SingleLineRedactor.single_loop_withPartial (r : SingleLineRedactor) (substStr : String)
    (pre : List String) :
    ∀ (fuel fuel' n : Nat) (rd : Reader) (w : PipeWriter) (led : List Redaction),
      rd.pending.length < fuel → rd.pending.length + pre.length < fuel' →
      SingleLineRedactor.loop r substStr fuel' n
          { reader := rd.withPartial pre, writer := w, ledger := led } =
        SingleLineRedactor.loop r substStr fuel n { reader := rd, writer := w, ledger := led } := by
  intro fuel
  induction fuel with
  | zero => intro fuel' n rd w led h; omega
  | succ fuel ih =>
    intro fuel' n rd w led h h'
    cases fuel' with
    | zero => omega
    | succ fuel' =>
      have hrl := readLine_withPartial rd pre
      have hlen := readLine_length rd
      simp only [SingleLineRedactor.loop, hrl.1, hrl.2]
      cases he : (readLine rd).1.2 with
      | some e => simp
      | none =>
        have hlt := hlen.2 he
        simp only [Option.isSome_none, Bool.false_eq_true, if_false, Stage.Fprintf,
          Stage.addRedaction]
        split_ifs <;> exact ih fuel' _ _ _ _ (by omega) (by omega)

theorem getNextTwoLines_withPartial (rd : Reader) (pre : List String) (cur : Option String) :
    (getNextTwoLines (rd.withPartial pre) cur).1 = (getNextTwoLines rd cur).1 ∧
      (getNextTwoLines (rd.withPartial pre) cur).2 =
        (if (getNextTwoLines rd cur).1.2.2.isSome then (getNextTwoLines rd cur).2
         else (getNextTwoLines rd cur).2.withPartial pre) := by
  have h1 := readLine_withPartial rd pre
  cases cur with
  | some c =>
    simp only [getNextTwoLines, h1.1, h1.2]
    exact ⟨trivial, trivial⟩
  | none =>
    cases he : (readLine rd).1.2 with
    | some e => simp [getNextTwoLines, h1.1, h1.2, he]
    | none =>
      have h2 := readLine_withPartial (readLine rd).2 pre
      simp only [getNextTwoLines, h1.1, h1.2, he, Option.isSome_none, Bool.false_eq_true,
        if_false, h2.1, h2.2]
      exact ⟨trivial, trivial⟩

theorem MultiLineRedactor.multi_loop_withPartial (r : MultiLineRedactor) (substStr : String)
    (pre : List String) :
    ∀ (fuel fuel' : Nat) (line1 line2 : String) (flush : Bool) (n : Nat) (rd : Reader)
      (w : PipeWriter) (led : List Redaction),
      rd.pending.length + 2 ≤ fuel → rd.pending.length + pre.length + 2 ≤ fuel' →
      MultiLineRedactor.loop r substStr fuel' line1 line2 none flush n
          { reader := rd.withPartial pre, writer := w, ledger := led } =
        MultiLineRedactor.loop r substStr fuel line1 line2 none flush n
          { reader := rd, writer := w, ledger := led } := by
  intro fuel
  induction fuel with
  | zero => intro fuel' line1 line2 flush n rd w led h; omega
  | succ fuel ih =>
    intro fuel' line1 line2 flush n rd w led h h'
    cases fuel' with
    | zero => omega
    | succ fuel' =>
      have key : ∀ (cur : Option String) (fl : Bool) (w : PipeWriter) (led : List Redaction),
          MultiLineRedactor.loop r substStr fuel'
              (getNextTwoLines (rd.withPartial pre) cur).1.1
              (getNextTwoLines (rd.withPartial pre) cur).1.2.1
              (getNextTwoLines (rd.withPartial pre) cur).1.2.2 fl (n + 1)
              { reader := (getNextTwoLines (rd.withPartial pre) cur).2, writer := w,
                ledger := led } =
            MultiLineRedactor.loop r substStr fuel (getNextTwoLines rd cur).1.1
              (getNextTwoLines rd cur).1.2.1 (getNextTwoLines rd cur).1.2.2 fl (n + 1)
              { reader := (getNextTwoLines rd cur).2, writer := w, ledger := led } := by
        intro cur fl w led
        have hg := getNextTwoLines_withPartial rd pre cur
        have hlen := getNextTwoLines_length rd cur
        rw [hg.1, hg.2]
        cases he : (getNextTwoLines rd cur).1.2.2 with
        | some e =>
          cases fuel with
          | zero => omega
          | succ fuel =>
            cases fuel' with
            | zero => omega
            | succ fuel' => simp [MultiLineRedactor.loop]
        | none =>
          have hlt := hlen.2 he
          simp only [Option.isSome_none, Bool.false_eq_true, if_false]
          exact ih fuel' _ _ _ _ _ _ _ (by omega) (by omega)
      simp only [MultiLineRedactor.loop, Option.isSome_none, Bool.false_eq_true, if_false,
        Stage.Fprintf, Stage.addRedaction]
      split_ifs
      · exact key (some line2) true _ _
      · exact key none false _ _
      · exact key none false _ _

/-- A stage run on a stream whose last line is cut short by the error that ends the
stream does what it does on the stream without the segments of that line. -/
theorem Redact_withPartial (input : Reader) (pre : List String) (writer : PipeWriter) :
    (∀ s : SingleLineRedactor,
      s.Redact (input.withPartial pre) writer = s.Redact input writer) ∧
    (∀ m : MultiLineRedactor,
      m.Redact (input.withPartial pre) writer = m.Redact input writer) := by
  constructor
  · intro s
    have h := SingleLineRedactor.single_loop_withPartial s
      (getReplacementPattern s.re s.maskText) pre (input.pending.length + 1)
      ((input.withPartial pre).pending.length + 1) 0 input writer [] (by omega)
      (by simp [Reader.withPartial])
    simp only [SingleLineRedactor.Redact, h]
  · intro m
    have hg := getNextTwoLines_withPartial input pre none
    have hlen := getNextTwoLines_length input none
    cases he : (getNextTwoLines input none).1.2.2 with
    | some e =>
      simp [MultiLineRedactor.Redact, hg.1, hg.2, he]
    | none =>
      have hlt := hlen.2 he
      have h := MultiLineRedactor.multi_loop_withPartial m
        (getReplacementPattern m.re2 m.maskText) pre (input.pending.length + 1)
        ((input.withPartial pre).pending.length + 1) (getNextTwoLines input none).1.1
        (getNextTwoLines input none).1.2.1 false 1 (getNextTwoLines input none).2 writer []
        (by omega) (by simp [Reader.withPartial]; omega)
      simp only [MultiLineRedactor.Redact, hg.1, hg.2, he, Option.isSome_none,
        Bool.false_eq_true, if_false, h]

/-- C22. When the stream ends with an error (end of stream included) after `ReadLine`
has delivered the segments `pre` of a line, all with `isPrefix` set, `readLine` returns
the empty string and that error, and nothing is left to read: the segments are gone. A
single-line and a multi-line stage then do, on every pipe, exactly what they do on the
stream without these segments; a single-line stage on an open pipe emits the rewrites of
the whole lines before them and nothing else. -/
theorem readLine_discards_partial_line (pre : List String) (e : GoError) :
    readLine { pending := pre.map (fun s => (s, true)), err := e } =
        (("", some e), { pending := [], err := e }) ∧
    (∀ (input : Reader) (writer : PipeWriter),
      (∀ s : SingleLineRedactor,
        s.Redact (input.withPartial pre) writer = s.Redact input writer) ∧
      (∀ m : MultiLineRedactor,
        m.Redact (input.withPartial pre) writer = m.Redact input writer)) ∧
    (∀ (s : SingleLineRedactor) (lines : List (List String × String)),
      ∃ res, s.Redact ((Reader.ofSegments lines e).withPartial pre) PipeWriter.fresh =
          some res ∧
        res.written = (lines.map Reader.lineOf).map s.rewrite ∧
        res.closeErr = (if e = GoError.EOF then none else some e)) := by
  refine ⟨?_, fun input writer => Redact_withPartial input pre writer, ?_⟩
  · simp [readLine, readLineLoop_cut_short]
  · intro s lines
    have hw := PipeWriter.foldl_Fprintf_open s.rewrite (lines.map Reader.lineOf)
      PipeWriter.fresh rfl
    rw [(Redact_withPartial (Reader.ofSegments lines e) pre PipeWriter.fresh).1 s,
      SingleLineRedactor.Redact_ofSegments, hw]
    refine ⟨_, rfl, ?_, ?_⟩
    · simp [PipeWriter.fresh]
    · simp

/-! ### Distinct names for the stages of unnamed specs -/

theorem decimalValue_toDigitsCore :
    ∀ (fuel n : Nat), n < fuel → decimalValue (Nat.toDigitsCore 10 fuel n []) = n := by
  intro fuel
  induction fuel with
  | zero => intro n h; omega
  | succ fuel ih =>
    intro n h
    have hd := (digitChar_facts (n % 10) (Nat.mod_lt _ (by omega))).2.2.1
    by_cases h0 : n / 10 = 0
    · have hn : n % 10 = n := Nat.mod_eq_of_lt (by omega)
      simp only [Nat.toDigitsCore, h0, if_true, decimalValue, List.foldl_cons, List.foldl_nil,
        Nat.zero_mul, Nat.zero_add]
      rw [hd]
      exact hn
    · have hi := ih (n / 10) (by omega)
      simp only [Nat.toDigitsCore, h0, if_false]
      rw [toDigitsCore_append]
      simp only [decimalValue, List.foldl_append, List.foldl_cons, List.foldl_nil] at hi ⊢
      rw [hi, hd]
      omega

theorem fmtInt_inj (i j : Nat) (h : fmtInt i = fmtInt j) : i = j := by
  have h1 : Nat.toDigits 10 i = Nat.toDigits 10 j := congrArg String.data h
  have h2 := congrArg decimalValue h1
  simp only [Nat.toDigits] at h2
  rw [decimalValue_toDigitsCore _ _ (Nat.lt_succ_self i),
    decimalValue_toDigitsCore _ _ (Nat.lt_succ_self j)] at h2
  exact h2

theorem fmtInt_no_dot (i : Nat) : '.' ∉ (fmtInt i).data := by
  intro h
  have h1 : '.' ∈ Nat.toDigitsCore 10 (i + 1) i [] := h
  have h2 := ((toDigitsCore_facts (i + 1) i (Nat.lt_succ_self i)).1 '.' h1).1
  exact absurd h2 (by decide)

theorem append_sep_inj (sep : Char) :
    ∀ (xs ys r s : List Char), sep ∉ xs → sep ∉ ys → xs ++ sep :: r = ys ++ sep :: s →
      xs = ys ∧ r = s := by
  intro xs
  induction xs with
  | nil =>
    intro ys r s _ hy h
    cases ys with
    | nil => simpa using h
    | cons y ys =>
      simp only [List.nil_append, List.cons_append, List.cons.injEq] at h
      exact absurd (by rw [← h.1]; exact List.mem_cons_self _ _) hy
  | cons x xs ih =>
    intro ys r s hx hy h
    cases ys with
    | nil =>
      simp only [List.nil_append, List.cons_append, List.cons.injEq] at h
      exact absurd (by rw [h.1]; exact List.mem_cons_self _ _) hx
    | cons y ys =>
      simp only [List.cons_append, List.cons.injEq] at h
      have hi := ih ys r s (fun hm => hx (List.mem_cons_of_mem _ hm))
        (fun hm => hy (List.mem_cons_of_mem _ hm)) h.2
      exact ⟨by rw [h.1, hi.1], hi.2⟩

theorem redactorName_unnamed_inj (i j i' j' : Nat) (kind kind' : String)
    (hk : '.' ∉ kind.data) (hk' : '.' ∉ kind'.data)
    (h : redactorName i j "" kind = redactorName i' j' "" kind') :
    i = i' ∧ kind = kind' ∧ j = j' := by
  have h1 := congrArg String.data h
  simp only [redactorName, ne_eq, not_true_eq_false, if_false, String.data_append,
    List.append_assoc] at h1
  have h2 := List.append_cancel_left h1
  have h3 := append_sep_inj '.' (fmtInt i).data (fmtInt i').data _ _ (fmtInt_no_dot i)
    (fmtInt_no_dot i') h2
  have h4 := append_sep_inj '.' kind.data kind'.data _ _ hk hk' h3.2
  exact ⟨fmtInt_inj i i' (String.ext h3.1), String.ext h4.1, fmtInt_inj j j' (String.ext h4.2)⟩

theorem pairwise_enum_fst {α : Type} (l : List α) :
    l.enum.Pairwise (fun a b => a.1 ≠ b.1) :=
  List.pairwise_map.1 (List.nodup_enum_map_fst l)

theorem redactorKinds_no_dot (kind : String) (h : kind ∈ redactorKinds) : '.' ∉ kind.data := by
  simp only [redactorKinds, List.mem_cons, List.mem_singleton, List.not_mem_nil, or_false] at h
  rcases h with h | h | h | h <;> subst h <;> decide

theorem nodup_enum_names {α : Type} (l : List α) (i : Nat) (kindOf : Nat × α → String)
    (hk : ∀ q, kindOf q ∈ redactorKinds) :
    (l.enum.map (fun q => redactorName i q.1 "" (kindOf q))).Nodup := by
  refine List.pairwise_map.2 ((pairwise_enum_fst l).imp ?_)
  intro a b hne heq
  exact hne (redactorName_unnamed_inj i a.1 i b.1 _ _ (redactorKinds_no_dot _ (hk a))
    (redactorKinds_no_dot _ (hk b)) heq).2.2

theorem specNames_unnamed_nodup (i : Nat) (redact : troubleshootv1beta2.Redact)
    (hn : redact.Name = "") : (specNames i redact).Nodup := by
  have hkind : ∀ q : Nat × troubleshootv1beta2.Regex,
      (if q.2.Selector ≠ "" then "multiLine" else "regex") ∈ redactorKinds := by
    intro q
    by_cases h : q.2.Selector = "" <;> simp [h, redactorKinds]
  have h1 := nodup_enum_names redact.Removals.Values i (fun _ => "literal")
    (fun _ => by simp [redactorKinds])
  have h2 := nodup_enum_names redact.Removals.Regex i
    (fun q => if q.2.Selector ≠ "" then "multiLine" else "regex") hkind
  have h3 := nodup_enum_names redact.Removals.YamlPath i (fun _ => "yaml")
    (fun _ => by simp [redactorKinds])
  have hne : ∀ (j j' : Nat) (kind kind' : String), kind ∈ redactorKinds →
      kind' ∈ redactorKinds → kind ≠ kind' →
      redactorName i j "" kind ≠ redactorName i j' "" kind' := by
    intro j j' kind kind' hk hk' hd heq
    exact hd (redactorName_unnamed_inj i j i j' kind kind' (redactorKinds_no_dot _ hk)
      (redactorKinds_no_dot _ hk') heq).2.1
  unfold specNames
  rw [hn]
  refine List.Nodup.append (List.Nodup.append h1 h2 ?_) h3 ?_
  · rw [List.disjoint_left]
    intro a ha hb
    obtain ⟨q, _, hq⟩ := List.mem_map.1 ha
    obtain ⟨q', _, hq'⟩ := List.mem_map.1 hb
    refine hne q.1 q'.1 "literal" _ (by simp [redactorKinds]) (hkind q') ?_ (hq.trans hq'.symm)
    by_cases h : q'.2.Selector = "" <;> simp [h]
  · rw [List.disjoint_left]
    intro a ha hb
    obtain ⟨q', _, hq'⟩ := List.mem_map.1 hb
    rcases List.mem_append.1 ha with ha | ha
    · obtain ⟨q, _, hq⟩ := List.mem_map.1 ha
      exact hne q.1 q'.1 "literal" "yaml" (by simp [redactorKinds]) (by simp [redactorKinds])
        (by decide) (hq.trans hq'.symm)
    · obtain ⟨q, _, hq⟩ := List.mem_map.1 ha
      refine hne q.1 q'.1 _ "yaml" (hkind q) (by simp [redactorKinds]) ?_ (hq.trans hq'.symm)
      by_cases h : q.2.Selector = "" <;> simp [h]

theorem specNames_unnamed_mem (i : Nat) (redact : troubleshootv1beta2.Redact)
    (hn : redact.Name = "") (name : String) (h : name ∈ specNames i redact) :
    ∃ j kind, kind ∈ redactorKinds ∧ name = redactorName i j "" kind := by
  unfold specNames at h
  rw [hn] at h
  rcases List.mem_append.1 h with h | h
  · rcases List.mem_append.1 h with h | h
    · obtain ⟨q, _, hq⟩ := List.mem_map.1 h
      exact ⟨q.1, "literal", by simp [redactorKinds], hq.symm⟩
    · obtain ⟨q, _, hq⟩ := List.mem_map.1 h
      refine ⟨q.1, _, ?_, hq.symm⟩
      by_cases h : q.2.Selector = "" <;> simp [h, redactorKinds]
  · obtain ⟨q, _, hq⟩ := List.mem_map.1 h
    exact ⟨q.1, "yaml", by simp [redactorKinds], hq.symm⟩

theorem userNames_unnamed_nodup (H : Host) (path : String)
    (redacts : List (Option troubleshootv1beta2.Redact))
    (hu : ∀ redact, some redact ∈ redacts → redact.Name = "") :
    (userNames H path redacts).Nodup := by
  unfold userNames
  rw [List.nodup_flatten]
  constructor
  · intro block hb
    obtain ⟨p, hp, hpb⟩ := List.mem_map.1 hb
    obtain ⟨i, s⟩ := p
    have hs := List.snd_mem_of_mem_enum hp
    cases s with
    | none => simp at hpb; rw [hpb]; exact List.nodup_nil
    | some redact =>
      simp only at hpb hs
      by_cases hm : (redactMatchesPath H path redact).1 = true
      · simp only [hm, if_true] at hpb
        rw [← hpb]
        exact specNames_unnamed_nodup i redact (hu redact hs)
      · simp only [hm, if_false] at hpb
        rw [← hpb]; exact List.nodup_nil
  · refine List.pairwise_map.2 ((pairwise_enum_fst redacts).imp_of_mem ?_)
    intro a b ha hb hne
    obtain ⟨i, s⟩ := a
    obtain ⟨i', s'⟩ := b
    have hs := List.snd_mem_of_mem_enum ha
    have hs' := List.snd_mem_of_mem_enum hb
    rw [List.disjoint_left]
    intro name hn hn'
    cases s with
    | none => simp at hn
    | some redact =>
      cases s' with
      | none => simp at hn'
      | some redact' =>
        simp only at hn hn' hs hs' hne
        by_cases hm : (redactMatchesPath H path redact).1 = true
        · by_cases hm' : (redactMatchesPath H path redact').1 = true
          · simp only [hm, if_true] at hn
            simp only [hm', if_true] at hn'
            obtain ⟨j, kind, hk, e⟩ := specNames_unnamed_mem i redact (hu redact hs) name hn
            obtain ⟨j', kind', hk', e'⟩ :=
              specNames_unnamed_mem i' redact' (hu redact' hs') name hn'
            exact hne (redactorName_unnamed_inj i j i' j' kind kind'
              (redactorKinds_no_dot _ hk) (redactorKinds_no_dot _ hk') (e.symm.trans e')).1
          · simp [hm'] at hn'
        · simp [hm] at hn

theorem buildAdditionalRedactors_userNames (H : Host) (path : String)
    (redacts : List (Option troubleshootv1beta2.Redact)) (out : List Redactor)
    (h : buildAdditionalRedactors H path redacts = Outcome.ok out) :
    out.map Redactor.name = userNames H path redacts := by
  have hu := buildAdditionalRedactors_eq_userRedactors H path redacts out h
  unfold userRedactors at hu
  cases hb : allSome (redacts.enum.map (specBlock H path)) with
  | none => simp [hb] at hu
  | some blocks =>
    simp only [hb, Option.some.injEq] at hu
    have hn := allSome_map_eq (specBlock H path) (List.map Redactor.name) _ redacts.enum
      blocks hb (fun p _ block hp => specBlock_names H path p block hp)
    rw [← hu, userNames, ← hn]
    simp [List.map_flatten]

theorem sublist_flatten_map {α β : Type} (f g : α → List β) (h : ∀ x, (f x).Sublist (g x)) :
    ∀ l : List α, ((l.map f).flatten).Sublist ((l.map g).flatten) := by
  intro l
  induction l with
  | nil => simp
  | cons x xs ih =>
    simp only [List.map_cons, List.flatten_cons]
    exact List.Sublist.append (h x) ih

theorem userNames_unnamedOnly_sublist (H : Host) (path : String)
    (redacts : List (Option troubleshootv1beta2.Redact)) :
    (userNames H path (unnamedOnly redacts)).Sublist (userNames H path redacts) := by
  unfold userNames unnamedOnly
  rw [List.enum_map, List.map_map]
  apply sublist_flatten_map
  intro p
  obtain ⟨i, s⟩ := p
  cases s with
  | none => simp
  | some redact =>
    by_cases hn : redact.Name = ""
    · simp [hn]
    · simp [hn]

theorem unnamedOnly_unnamed (redacts : List (Option troubleshootv1beta2.Redact)) :
    ∀ redact, some redact ∈ unnamedOnly redacts → redact.Name = "" := by
  intro redact h
  obtain ⟨s, _, hs⟩ := List.mem_map.1 h
  cases s with
  | none => simp at hs
  | some r =>
    by_cases hn : r.Name = ""
    · simp only [hn, if_true, Option.some.injEq] at hs
      rw [← hs]; exact hn
    · simp [hn] at hs

/-- C23. With an empty spec name, `redactorName` maps different triples of spec index,
kind (`literal`, `regex`, `multiLine`, `yaml`) and removal index to different names. So in
a chain `buildAdditionalRedactors` has built, the names of the stages that come from the
unnamed specs (the names built for the spec list with the named specs replaced by nil
pointers, a sublist of the names of the chain) are pairwise distinct; when every spec of
the list is unnamed, no two stages of the chain share a name. -/
theorem buildAdditionalRedactors_unnamed_names_distinct (H : Host) (path : String)
    (redacts : List (Option troubleshootv1beta2.Redact)) (out : List Redactor)
    (h : buildAdditionalRedactors H path redacts = Outcome.ok out) :
    (∀ (i j i' j' : Nat) (kind kind' : String), kind ∈ redactorKinds →
      kind' ∈ redactorKinds → redactorName i j "" kind = redactorName i' j' "" kind' →
      i = i' ∧ kind = kind' ∧ j = j') ∧
    (userNames H path (unnamedOnly redacts)).Nodup ∧
    (userNames H path (unnamedOnly redacts)).Sublist (out.map Redactor.name) ∧
    ((∀ redact, some redact ∈ redacts → redact.Name = "") →
      (out.map Redactor.name).Nodup) := by
  have hn := buildAdditionalRedactors_userNames H path redacts out h
  refine ⟨?_, ?_, ?_, ?_⟩
  · intro i j i' j' kind kind' hk hk' he
    exact redactorName_unnamed_inj i j i' j' kind kind' (redactorKinds_no_dot _ hk)
      (redactorKinds_no_dot _ hk') he
  · exact userNames_unnamed_nodup H path _ (unnamedOnly_unnamed redacts)
  · rw [hn]
    exact userNames_unnamedOnly_sublist H path redacts
  · intro hu
    rw [hn]
    exact userNames_unnamed_nodup H path redacts hu

theorem buildAdditionalRedactors_unnamed_names_distinct_witness :
    buildAdditionalRedactors stubHost "a.txt" [some anonSpec, some dbSpec, some anonSpec] =
        Outcome.ok (anonChain 0 ++ dbChain ++ anonChain 2) ∧
      userNames stubHost "a.txt" (unnamedOnly [some anonSpec, some dbSpec, some anonSpec]) =
        [ "unnamed-0.literal.0", "unnamed-0.regex.0", "unnamed-0.multiLine.1",
          "unnamed-0.yaml.0", "unnamed-2.literal.0", "unnamed-2.regex.0",
          "unnamed-2.multiLine.1", "unnamed-2.yaml.0" ] ∧
      ((∀ (i j i' j' : Nat) (kind kind' : String), kind ∈ redactorKinds →
        kind' ∈ redactorKinds → redactorName i j "" kind = redactorName i' j' "" kind' →
        i = i' ∧ kind = kind' ∧ j = j') ∧
      (userNames stubHost "a.txt"
        (unnamedOnly [some anonSpec, some dbSpec, some anonSpec])).Nodup ∧
      (userNames stubHost "a.txt"
          (unnamedOnly [some anonSpec, some dbSpec, some anonSpec])).Sublist
        ((anonChain 0 ++ dbChain ++ anonChain 2).map Redactor.name) ∧
      ((∀ redact, some redact ∈ [some anonSpec, some dbSpec, some anonSpec] →
          redact.Name = "") →
        ((anonChain 0 ++ dbChain ++ anonChain 2).map Redactor.name).Nodup)) :=
  ⟨rfl, by decide,
    buildAdditionalRedactors_unnamed_names_distinct stubHost "a.txt"
      [some anonSpec, some dbSpec, some anonSpec] (anonChain 0 ++ dbChain ++ anonChain 2) rfl⟩

/-! ### Running a chain twice -/

theorem MultiLineRedactor.ref_step_match (r : MultiLineRedactor) (a b : String)
    (rest : List String) (hm : r.re1.MatchString a = true) :
    r.ref (a :: b :: rest) = a :: r.rewrite b :: r.ref rest := by
  simp [MultiLineRedactor.ref, hm]

theorem MultiLineRedactor.ref_step_no_match (r : MultiLineRedactor) (a b : String)
    (rest : List String) (hm : ¬ r.re1.MatchString a = true) :
    r.ref (a :: b :: rest) = a :: r.ref (b :: rest) := by
  simp [MultiLineRedactor.ref, hm]

theorem MultiLineRedactor.ref_head (r : MultiLineRedactor) (a : String) (rest : List String) :
    ∃ tail, r.ref (a :: rest) = a :: tail ∧ tail.length = rest.length := by
  have hlen := (MultiLineRedactor.ref_length r _ (a :: rest) (Nat.le_refl _)).1
  match rest, hlen with
  | [], _ => exact ⟨[], by simp [MultiLineRedactor.ref], rfl⟩
  | b :: rest, hlen =>
    by_cases hm : r.re1.MatchString a = true
    · rw [MultiLineRedactor.ref_step_match r a b rest hm] at hlen ⊢
      exact ⟨_, rfl, by simpa using hlen⟩
    · rw [MultiLineRedactor.ref_step_no_match r a b rest hm] at hlen ⊢
      exact ⟨_, rfl, by simpa using hlen⟩

theorem MultiLineRedactor.ref_touched (r : MultiLineRedactor) :
    ∀ (n : Nat) (z : List String), z.length ≤ n →
      List.Forall₂ (touched r.rewrite) z (r.ref z) := by
  intro n
  induction n with
  | zero =>
    intro z h
    have h0 : z = [] := List.length_eq_zero.1 (Nat.le_zero.1 h)
    subst h0
    simp [MultiLineRedactor.ref]
  | succ n ih =>
    intro z h
    match z, h with
    | [], _ => simp [MultiLineRedactor.ref]
    | [a], _ => simp [MultiLineRedactor.ref, touched]
    | a :: b :: rest, h =>
      by_cases hm : r.re1.MatchString a = true
      · rw [MultiLineRedactor.ref_step_match r a b rest hm]
        exact List.Forall₂.cons (Or.inl rfl) (List.Forall₂.cons (Or.inr rfl)
          (ih rest (by simp only [List.length_cons] at h; omega)))
      · rw [MultiLineRedactor.ref_step_no_match r a b rest hm]
        exact List.Forall₂.cons (Or.inl rfl)
          (ih (b :: rest) (by simp only [List.length_cons] at h ⊢; omega))

theorem map_touched (f : String → String) (z : List String) :
    List.Forall₂ (touched f) z (z.map f) := by
  induction z with
  | nil => exact List.Forall₂.nil
  | cons a rest ih => exact List.Forall₂.cons (Or.inr rfl) ih

theorem LineStage.rewriteLines_touched (s : LineStage) (z : List String) :
    List.Forall₂ (touched s.lineRewrite) z (s.rewriteLines z) := by
  cases s with
  | single s => exact map_touched s.rewrite z
  | multi m => exact MultiLineRedactor.ref_touched m _ z (Nat.le_refl _)

theorem touched_plain (f : String → String)
    (hf : ∀ l, plainLine l = true → plainLine (f l) = true) (z z' : List String)
    (h : List.Forall₂ (touched f) z z') (hz : ∀ l ∈ z, plainLine l = true) :
    ∀ l ∈ z', plainLine l = true := by
  induction h with
  | nil => intro l hl; simp at hl
  | cons hab _ ih =>
    intro l hl
    rcases List.mem_cons.1 hl with hl | hl
    · rcases hab with e | e
      · rw [hl, e]; exact hz _ (List.mem_cons_self _ _)
      · rw [hl, e]; exact hf _ (hz _ (List.mem_cons_self _ _))
    · exact ih (fun x hx => hz x (List.mem_cons_of_mem _ hx)) l hl

theorem MultiLineRedactor.lone_of_selects (r : MultiLineRedactor) :
    ∀ (n : Nat) (z z' : List String), z.length ≤ n →
      List.Forall₂ (fun l l' => r.re1.MatchString l' = r.re1.MatchString l) z z' →
      r.loneLineAfterPair z' = r.loneLineAfterPair z := by
  intro n
  induction n with
  | zero =>
    intro z z' h hf
    have h0 : z = [] := List.length_eq_zero.1 (Nat.le_zero.1 h)
    subst h0
    cases hf
    rfl
  | succ n ih =>
    intro z z' h hf
    match z, z', h, hf with
    | [], _, _, List.Forall₂.nil => rfl
    | [a], _, _, List.Forall₂.cons _ List.Forall₂.nil =>
      simp [MultiLineRedactor.loneLineAfterPair]
    | [a, b], [a', _], _, List.Forall₂.cons ha (List.Forall₂.cons _ List.Forall₂.nil) =>
      by_cases hm : r.re1.MatchString a = true
      · have hm' : r.re1.MatchString a' = true := ha.trans hm
        simp [MultiLineRedactor.loneLineAfterPair, hm, hm']
      · have hm' : ¬ r.re1.MatchString a' = true := by rw [ha]; exact hm
        simp [MultiLineRedactor.loneLineAfterPair, hm, hm']
    | [a, b, c], [a', b', _], _, List.Forall₂.cons ha
        (List.Forall₂.cons hb (List.Forall₂.cons _ List.Forall₂.nil)) =>
      by_cases hm : r.re1.MatchString a = true
      · have hm' : r.re1.MatchString a' = true := ha.trans hm
        simp [MultiLineRedactor.loneLineAfterPair, hm, hm']
      · have hm' : ¬ r.re1.MatchString a' = true := by rw [ha]; exact hm
        by_cases hn : r.re1.MatchString b = true
        · have hn' : r.re1.MatchString b' = true := hb.trans hn
          simp [MultiLineRedactor.loneLineAfterPair, hm, hm', hn, hn']
        · have hn' : ¬ r.re1.MatchString b' = true := by rw [hb]; exact hn
          simp [MultiLineRedactor.loneLineAfterPair, hm, hm', hn, hn']
    | a :: b :: c :: d :: rest, a' :: b' :: c' :: d' :: rest', h, List.Forall₂.cons ha
        (List.Forall₂.cons hb (List.Forall₂.cons hc (List.Forall₂.cons hd hrest))) =>
      by_cases hm : r.re1.MatchString a = true
      · have hm' : r.re1.MatchString a' = true := ha.trans hm
        rw [MultiLineRedactor.loneLineAfterPair_match r a b c d rest hm,
          MultiLineRedactor.loneLineAfterPair_match r a' b' c' d' rest' hm']
        exact ih _ _ (by simp only [List.length_cons] at h ⊢; omega)
          (List.Forall₂.cons hc (List.Forall₂.cons hd hrest))
      · have hm' : ¬ r.re1.MatchString a' = true := by rw [ha]; exact hm
        rw [MultiLineRedactor.loneLineAfterPair_no_match r a b _ hm,
          MultiLineRedactor.loneLineAfterPair_no_match r a' b' _ hm']
        exact ih _ _ (by simp only [List.length_cons] at h ⊢; omega)
          (List.Forall₂.cons hb (List.Forall₂.cons hc (List.Forall₂.cons hd hrest)))

theorem MultiLineRedactor.lone_ref (r : MultiLineRedactor) :
    ∀ (n : Nat) (z : List String), z.length ≤ n →
      r.loneLineAfterPair (r.ref z) = r.loneLineAfterPair z := by
  intro n
  induction n with
  | zero =>
    intro z h
    have h0 : z = [] := List.length_eq_zero.1 (Nat.le_zero.1 h)
    subst h0
    simp [MultiLineRedactor.ref]
  | succ n ih =>
    intro z h
    match z, h with
    | [], _ => simp [MultiLineRedactor.ref]
    | [a], _ => simp [MultiLineRedactor.ref]
    | a :: b :: rest, h =>
      by_cases hm : r.re1.MatchString a = true
      · rw [MultiLineRedactor.ref_step_match r a b rest hm]
        match rest, h with
        | [], _ => simp [MultiLineRedactor.ref, MultiLineRedactor.loneLineAfterPair, hm]
        | [c], _ => simp [MultiLineRedactor.ref, MultiLineRedactor.loneLineAfterPair, hm]
        | c :: d :: rest, h =>
          obtain ⟨tail, ht, hl⟩ := MultiLineRedactor.ref_head r c (d :: rest)
          have hi := ih (c :: d :: rest) (by simp only [List.length_cons] at h ⊢; omega)
          match tail, hl with
          | d' :: rest', _ =>
            rw [ht] at hi ⊢
            rw [MultiLineRedactor.loneLineAfterPair_match r a _ c d' rest' hm,
              MultiLineRedactor.loneLineAfterPair_match r a b c d rest hm, hi]
      · rw [MultiLineRedactor.ref_step_no_match r a b rest hm]
        obtain ⟨tail, ht, _⟩ := MultiLineRedactor.ref_head r b rest
        have hi := ih (b :: rest) (by simp only [List.length_cons] at h ⊢; omega)
        rw [ht] at hi ⊢
        rw [MultiLineRedactor.loneLineAfterPair_no_match r a b tail hm,
          MultiLineRedactor.loneLineAfterPair_no_match r a b rest hm, hi]

theorem MultiLineRedactor.ref_idem (r : MultiLineRedactor)
    (hr : ∀ l, r.rewrite (r.rewrite l) = r.rewrite l) :
    ∀ (n : Nat) (z : List String), z.length ≤ n → r.ref (r.ref z) = r.ref z := by
  intro n
  induction n with
  | zero =>
    intro z h
    have h0 : z = [] := List.length_eq_zero.1 (Nat.le_zero.1 h)
    subst h0
    simp [MultiLineRedactor.ref]
  | succ n ih =>
    intro z h
    match z, h with
    | [], _ => simp [MultiLineRedactor.ref]
    | [a], _ => simp [MultiLineRedactor.ref]
    | a :: b :: rest, h =>
      by_cases hm : r.re1.MatchString a = true
      · rw [MultiLineRedactor.ref_step_match r a b rest hm,
          MultiLineRedactor.ref_step_match r a _ _ hm, hr,
          ih rest (by simp only [List.length_cons] at h; omega)]
      · rw [MultiLineRedactor.ref_step_no_match r a b rest hm]
        obtain ⟨tail, ht, _⟩ := MultiLineRedactor.ref_head r b rest
        have hi := ih (b :: rest) (by simp only [List.length_cons] at h ⊢; omega)
        rw [ht] at hi ⊢
        rw [MultiLineRedactor.ref_step_no_match r a b tail hm, hi]

theorem MultiLineRedactor.ref_fixed_of_touched (r : MultiLineRedactor) (f : String → String)
    (h3 : ∀ l, r.rewrite l = l → r.rewrite (f l) = f l)
    (h4 : ∀ l, r.re1.MatchString (f l) = r.re1.MatchString l) :
    ∀ (n : Nat) (z z' : List String), z.length ≤ n → List.Forall₂ (touched f) z z' →
      r.ref z = z → r.ref z' = z' := by
  intro n
  induction n with
  | zero =>
    intro z z' h hf _
    have h0 : z = [] := List.length_eq_zero.1 (Nat.le_zero.1 h)
    subst h0
    cases hf
    rfl
  | succ n ih =>
    intro z z' h hf hz
    match z, z', h, hf, hz with
    | [], _, _, List.Forall₂.nil, _ => rfl
    | [a], _, _, List.Forall₂.cons _ List.Forall₂.nil, _ => simp [MultiLineRedactor.ref]
    | a :: b :: rest, a' :: b' :: rest', h, List.Forall₂.cons ha
        (List.Forall₂.cons hb hrest), hz =>
      have hsel : r.re1.MatchString a' = r.re1.MatchString a := by
        rcases ha with e | e
        · rw [e]
        · rw [e, h4]
      by_cases hm : r.re1.MatchString a = true
      · have hm' : r.re1.MatchString a' = true := hsel.trans hm
        rw [MultiLineRedactor.ref_step_match r a b rest hm] at hz
        simp only [List.cons.injEq, true_and] at hz
        have hb' : r.rewrite b' = b' := by
          rcases hb with e | e
          · rw [e]; exact hz.1
          · rw [e]; exact h3 b hz.1
        rw [MultiLineRedactor.ref_step_match r a' b' rest' hm', hb',
          ih rest rest' (by simp only [List.length_cons] at h; omega) hrest hz.2]
      · have hm' : ¬ r.re1.MatchString a' = true := by rw [hsel]; exact hm
        rw [MultiLineRedactor.ref_step_no_match r a b rest hm] at hz
        simp only [List.cons.injEq, true_and] at hz
        rw [MultiLineRedactor.ref_step_no_match r a' b' rest' hm',
          ih (b :: rest) (b' :: rest') (by simp only [List.length_cons] at h ⊢; omega)
            (List.Forall₂.cons hb hrest) hz]

theorem map_fixed_of_touched (g f : String → String)
    (h3 : ∀ l, g l = l → g (f l) = f l) (z z' : List String)
    (h : List.Forall₂ (touched f) z z') (hz : z.map g = z) : z'.map g = z' := by
  induction h with
  | nil => rfl
  | cons hab _ ih =>
    simp only [List.map_cons, List.cons.injEq] at hz ⊢
    refine ⟨?_, ih hz.2⟩
    rcases hab with e | e
    · rw [e]; exact hz.1
    · rw [e]; exact h3 _ hz.1

theorem LineStage.fixed_of_touched (s u : LineStage) (h : s.apart u) (z z' : List String)
    (ht : List.Forall₂ (touched u.lineRewrite) z z') (hz : s.rewriteLines z = z) :
    s.rewriteLines z' = z' := by
  cases s with
  | single s => exact map_fixed_of_touched s.rewrite u.lineRewrite h.1 z z' ht hz
  | multi m =>
    exact MultiLineRedactor.ref_fixed_of_touched m u.lineRewrite h.1 h.2.1 _ z z'
      (Nat.le_refl _) ht hz

theorem LineStage.rewriteLines_idem (s : LineStage) (h : s.settles) (z : List String) :
    s.rewriteLines (s.rewriteLines z) = s.rewriteLines z := by
  cases s with
  | single s =>
    simp only [LineStage.rewriteLines, List.map_map]
    exact List.map_congr_left (fun l _ => h.2 l)
  | multi m => exact MultiLineRedactor.ref_idem m h.2 _ z (Nat.le_refl _)

theorem LineStage.fits_of_touched (s : LineStage) (f : String → String)
    (hsel : ∀ l, s.selects (f l) = s.selects l) (z z' : List String)
    (ht : List.Forall₂ (touched f) z z') : s.fits z' = s.fits z := by
  cases s with
  | single s => rfl
  | multi m =>
    have hlen := ht.length_eq
    have hs : List.Forall₂ (fun l l' => m.re1.MatchString l' = m.re1.MatchString l) z z' := by
      refine ht.imp ?_
      intro l l' hl
      rcases hl with e | e
      · rw [e]
      · rw [e]; exact hsel l
    have hlone := MultiLineRedactor.lone_of_selects m _ z z' (Nat.le_refl _) hs
    simp only [LineStage.fits, hlone, hlen]

theorem LineStage.fits_rewriteLines (s : LineStage) (z : List String) :
    s.fits (s.rewriteLines z) = s.fits z := by
  cases s with
  | single s => rfl
  | multi m =>
    have hlen := (MultiLineRedactor.ref_length m _ z (Nat.le_refl _)).1
    have hlone := MultiLineRedactor.lone_ref m _ z (Nat.le_refl _)
    simp only [LineStage.fits, LineStage.rewriteLines, hlone, hlen]

/-- A stage run on a stream of plain lines it fits returns, and what its pipe delivers is
`rewriteLines` of the lines, ended by the error of the stream. -/
theorem LineStage.Redact_rewriteLines (s : LineStage) (z : List String) (e : GoError)
    (hp : ∀ l ∈ z, plainLine l = true) (hf : s.fits z = true) :
    ∃ res, s.Redact (LineStream.reader { lines := z, err := e }) PipeWriter.fresh = some res ∧
      res.stream = { lines := s.rewriteLines z, err := e } := by
  have hclose : ∀ e : GoError,
      (if e = GoError.EOF then none else some e).getD GoError.EOF = e := by
    intro e
    by_cases h : e = GoError.EOF <;> simp [h]
  cases s with
  | single s =>
    have hw := PipeWriter.foldl_Fprintf_open s.rewrite z PipeWriter.fresh rfl
    simp only [LineStage.Redact, LineStream.reader, flatMap_wireLines z hp, Reader.ofLines,
      SingleLineRedactor.Redact_ofSegments, Reader.lineOf_ofLines, hw]
    refine ⟨_, rfl, ?_⟩
    simp [StageResult.stream, hclose, PipeWriter.fresh, LineStage.rewriteLines]
  | multi m =>
    simp only [LineStage.fits, Bool.and_eq_true, decide_eq_true_eq, Bool.not_eq_true'] at hf
    obtain ⟨hlen, hlone⟩ := hf
    match z, hp, hlen, hlone with
    | a :: b :: rest, hp, _, hlone =>
      have hem := MultiLineRedactor.emitted_eq_ref m rest.length rest a b (Nat.le_refl _)
      rw [hlone] at hem
      have hrest := Reader.lineOf_ofLines rest
      simp only [LineStage.Redact, LineStream.reader, flatMap_wireLines (a :: b :: rest) hp,
        Reader.ofLines, List.map_cons, MultiLineRedactor.Redact_ofSegments_two, hrest]
      refine ⟨_, rfl, ?_⟩
      have ha : Reader.lineOf (([] : List String), a) = a := by
        simp [Reader.lineOf, String.join]
      have hb : Reader.lineOf (([] : List String), b) = b := by
        simp [Reader.lineOf, String.join]
      simp [StageResult.stream, hclose, ha, hb, hem, LineStage.rewriteLines]

theorem runChain_rewriteChain (e : GoError) :
    ∀ (chain : List LineStage) (x : List String),
      (∀ l ∈ x, plainLine l = true) → (∀ s ∈ chain, s.settles) →
      chain.Pairwise LineStage.apart → (∀ s ∈ chain, s.fits x = true) →
      runChain chain { lines := x, err := e } =
        some { lines := rewriteChain chain x, err := e } := by
  intro chain
  induction chain with
  | nil => intro x _ _ _ _; rfl
  | cons s rest ih =>
    intro x hx hs hp hf
    obtain ⟨res, h1, h2⟩ := LineStage.Redact_rewriteLines s x e hx
      (hf s (List.mem_cons_self _ _))
    have ht := LineStage.rewriteLines_touched s x
    rw [List.pairwise_cons] at hp
    simp only [runChain, h1, h2, rewriteChain, List.foldl_cons]
    refine ih (s.rewriteLines x)
      (touched_plain s.lineRewrite (hs s (List.mem_cons_self _ _)).1 x _ ht hx)
      (fun u hu => hs u (List.mem_cons_of_mem _ hu)) hp.2 ?_
    intro u hu
    rw [LineStage.fits_of_touched u s.lineRewrite (hp.1 u hu).2.2 x _ ht]
    exact hf u (List.mem_cons_of_mem _ hu)

theorem rewriteChain_keeps_fixed (s : LineStage) :
    ∀ (rest : List LineStage) (z : List String), (∀ u ∈ rest, s.apart u) →
      s.rewriteLines z = z →
      s.rewriteLines (rewriteChain rest z) = rewriteChain rest z := by
  intro rest
  induction rest with
  | nil => intro z _ hz; exact hz
  | cons u rest ih =>
    intro z ha hz
    simp only [rewriteChain, List.foldl_cons]
    exact ih (u.rewriteLines z) (fun v hv => ha v (List.mem_cons_of_mem _ hv))
      (LineStage.fixed_of_touched s u (ha u (List.mem_cons_self _ _)) z _
        (LineStage.rewriteLines_touched u z) hz)

theorem rewriteChain_fixed :
    ∀ (chain : List LineStage) (x : List String), (∀ s ∈ chain, s.settles) →
      chain.Pairwise LineStage.apart →
      ∀ t ∈ chain, t.rewriteLines (rewriteChain chain x) = rewriteChain chain x := by
  intro chain
  induction chain with
  | nil => intro x _ _ t ht; simp at ht
  | cons s rest ih =>
    intro x hs hp t ht
    rw [List.pairwise_cons] at hp
    simp only [rewriteChain, List.foldl_cons]
    rcases List.mem_cons.1 ht with ht | ht
    · rw [ht]
      exact rewriteChain_keeps_fixed s rest (s.rewriteLines x) hp.1
        (LineStage.rewriteLines_idem s (hs s (List.mem_cons_self _ _)) x)
    · exact ih (s.rewriteLines x) (fun u hu => hs u (List.mem_cons_of_mem _ hu)) hp.2 t ht

theorem rewriteChain_fits_later (s : LineStage) :
    ∀ (rest : List LineStage) (z : List String), (∀ u ∈ rest, s.apart u) →
      s.fits (rewriteChain rest z) = s.fits z := by
  intro rest
  induction rest with
  | nil => intro z _; rfl
  | cons u rest ih =>
    intro z ha
    simp only [rewriteChain, List.foldl_cons]
    have h1 := ih (u.rewriteLines z) (fun v hv => ha v (List.mem_cons_of_mem _ hv))
    simp only [rewriteChain] at h1
    rw [h1]
    exact LineStage.fits_of_touched s u.lineRewrite (ha u (List.mem_cons_self _ _)).2.1 z _
      (LineStage.rewriteLines_touched u z)

theorem rewriteChain_fits :
    ∀ (chain : List LineStage) (x : List String), chain.Pairwise LineStage.apart →
      ∀ t ∈ chain, t.fits (rewriteChain chain x) = t.fits x := by
  intro chain
  induction chain with
  | nil => intro x _ t ht; simp at ht
  | cons s rest ih =>
    intro x hp t ht
    rw [List.pairwise_cons] at hp
    simp only [rewriteChain, List.foldl_cons]
    rcases List.mem_cons.1 ht with ht | ht
    · rw [ht]
      have h1 := rewriteChain_fits_later s rest (s.rewriteLines x) hp.1
      simp only [rewriteChain] at h1
      rw [h1]
      exact LineStage.fits_rewriteLines s x
    · have h1 := ih (s.rewriteLines x) hp.2 t ht
      simp only [rewriteChain] at h1
      rw [h1]
      exact LineStage.fits_of_touched t s.lineRewrite (hp.1 t ht).2.2 x _
        (LineStage.rewriteLines_touched s x)

theorem rewriteChain_plain :
    ∀ (chain : List LineStage) (x : List String), (∀ s ∈ chain, s.settles) →
      (∀ l ∈ x, plainLine l = true) → ∀ l ∈ rewriteChain chain x, plainLine l = true := by
  intro chain
  induction chain with
  | nil => intro x _ hx; exact hx
  | cons s rest ih =>
    intro x hs hx
    simp only [rewriteChain, List.foldl_cons]
    exact ih (s.rewriteLines x) (fun u hu => hs u (List.mem_cons_of_mem _ hu))
      (touched_plain s.lineRewrite (hs s (List.mem_cons_self _ _)).1 x _
        (LineStage.rewriteLines_touched s x) hx)

theorem rewriteChain_of_fixed :
    ∀ (chain : List LineStage) (y : List String),
      (∀ t ∈ chain, t.rewriteLines y = y) → rewriteChain chain y = y := by
  intro chain
  induction chain with
  | nil => intro y _; rfl
  | cons s rest ih =>
    intro y h
    simp only [rewriteChain, List.foldl_cons]
    rw [h s (List.mem_cons_self _ _)]
    exact ih y (fun t ht => h t (List.mem_cons_of_mem _ ht))

theorem runChain_of_reader (s : LineStage) (rest : List LineStage) (x x' : LineStream)
    (h : x.reader = x'.reader) : runChain (s :: rest) x = runChain (s :: rest) x' := by
  simp only [runChain, h]

theorem SingleLineRedactor.single_rewrite_wholeLine (r : SingleLineRedactor) (lit : String)
    (hre : r.re = Regexp.wholeLine lit) (l : String) :
    r.rewrite l = if l = lit then r.maskText else l := by
  have hsub : getReplacementPattern (Regexp.wholeLine lit) r.maskText = r.maskText := by
    simp [getReplacementPattern, Regexp.wholeLine, List.enum, List.enumFrom]
  rw [SingleLineRedactor.rewrite, hre, hsub]
  by_cases h : l = lit <;> simp [Regexp.wholeLine, h]

theorem MultiLineRedactor.multi_rewrite_wholeLine (r : MultiLineRedactor) (lit : String)
    (hre : r.re2 = Regexp.wholeLine lit) (l : String) :
    r.rewrite l = if l = lit then r.maskText else l := by
  have hsub : getReplacementPattern (Regexp.wholeLine lit) r.maskText = r.maskText := by
    simp [getReplacementPattern, Regexp.wholeLine, List.enum, List.enumFrom]
  rw [MultiLineRedactor.rewrite, hre, hsub]
  by_cases h : l = lit <;> simp [Regexp.wholeLine, h]

/-- C16, amended. Take a chain in which the rewrite of every stage keeps a line free of
newlines and of a final carriage return and changes nothing when it is applied a second
time, and in which, for a stage and any later stage, the rewrite of the later stage
makes of a line the earlier stage leaves alone a line it leaves alone, and the rewrite of
neither changes whether the selector of the other matches a line. On every stream whose
lines, as the first stage reads them, end in no carriage return, and which every
multi-line stage of the chain fits (at least two lines, and no pair followed by one last
line), the chain returns an output, and run on that output it returns the same output,
with the same final error. -/
theorem runChain_idempotent (chain : List LineStage) (x : LineStream)
    (hx : ∀ l ∈ x.lines.flatMap wireLines, plainLine l = true)
    (hf : ∀ s ∈ chain, s.fits (x.lines.flatMap wireLines) = true)
    (hs : ∀ s ∈ chain, s.settles)
    (hp : chain.Pairwise LineStage.apart) :
    ∃ y, runChain chain x = some y ∧ runChain chain y = some y := by
  match chain, hf, hs, hp with
  | [], _, _, _ => exact ⟨x, rfl, rfl⟩
  | s :: rest, hf, hs, hp =>
    have hread : x.reader =
        LineStream.reader { lines := x.lines.flatMap wireLines, err := x.err } := by
      simp only [LineStream.reader, flatMap_wireLines _ hx]
    have h1 := runChain_rewriteChain x.err (s :: rest) _ hx hs hp hf
    have hy := rewriteChain_plain (s :: rest) _ hs hx
    have hfy : ∀ t ∈ s :: rest,
        t.fits (rewriteChain (s :: rest) (x.lines.flatMap wireLines)) = true := by
      intro t ht
      rw [rewriteChain_fits (s :: rest) _ hp t ht]
      exact hf t ht
    have h2 := runChain_rewriteChain x.err (s :: rest) _ hy hs hp hfy
    rw [rewriteChain_of_fixed (s :: rest) _
      (rewriteChain_fixed (s :: rest) (x.lines.flatMap wireLines) hs hp)] at h2
    refine ⟨_, ?_, h2⟩
    rw [runChain_of_reader s rest x _ hread]
    exact h1

theorem wholeLine_settles (f : String → String) (lit mask : String)
    (hf : ∀ l, f l = if l = lit then mask else l) (hm : plainLine mask = true)
    (hne : mask ≠ lit) :
    (∀ l, plainLine l = true → plainLine (f l) = true) ∧ ∀ l, f (f l) = f l := by
  constructor
  · intro l hl
    rw [hf]
    by_cases h : l = lit
    · simp only [h, if_true]; exact hm
    · simp only [h, if_false]; exact hl
  · intro l
    by_cases h : l = lit
    · rw [hf l]
      simp only [h, if_true]
      rw [hf mask]
      simp [hne]
    · have h1 : f l = l := by rw [hf l]; simp [h]
      rw [h1, h1]

theorem keyThenSecretChain_settles : ∀ s ∈ keyThenSecretChain, s.settles := by
  intro s hs
  simp only [keyThenSecretChain, List.mem_cons, List.mem_singleton, List.not_mem_nil,
    or_false] at hs
  rcases hs with hs | hs
  · rw [hs]
    exact wholeLine_settles _ "secret" MASK_TEXT
      (MultiLineRedactor.multi_rewrite_wholeLine keySecretStage "secret" rfl) (by decide) (by decide)
  · rw [hs]
    exact wholeLine_settles _ "secret" MASK_TEXT
      (SingleLineRedactor.single_rewrite_wholeLine secretStage "secret" rfl) (by decide) (by decide)

theorem keyThenSecretChain_apart : keyThenSecretChain.Pairwise LineStage.apart := by
  have h1 := MultiLineRedactor.multi_rewrite_wholeLine keySecretStage "secret" rfl
  have h2 := SingleLineRedactor.single_rewrite_wholeLine secretStage "secret" rfl
  simp only [keyThenSecretChain, List.pairwise_cons, List.mem_singleton, List.not_mem_nil,
    forall_eq, false_implies, implies_true, List.Pairwise.nil, and_true]
  refine ⟨?_, ?_, ?_⟩
  · intro l hl
    simp only [LineStage.lineRewrite] at hl ⊢
    rw [h2 l]
    by_cases h : l = "secret"
    · simp only [h, if_true]
      rw [h1]
      rfl
    · simp only [h, if_false]
      exact hl
  · intro l
    simp only [LineStage.lineRewrite, LineStage.selects]
    rw [h2 l]
    by_cases h : l = "secret"
    · simp only [h, if_true]
      rfl
    · simp only [h, if_false]
  · intro l
    rfl

theorem runChain_idempotent_witness :
    (∀ l ∈ (["a\r", "secret\r", "key\r", "secret\r"] : List String).flatMap wireLines,
      plainLine l = true) ∧
    (∀ s ∈ keyThenSecretChain,
      s.fits ((["a\r", "secret\r", "key\r", "secret\r"] : List String).flatMap wireLines) =
        true) ∧
    (∀ s ∈ keyThenSecretChain, s.settles) ∧
    keyThenSecretChain.Pairwise LineStage.apart ∧
    runChain keyThenSecretChain
        { lines := ["a\r", "secret\r", "key\r", "secret\r"], err := GoError.EOF } =
      some { lines := ["a", "***HIDDEN***", "key", "***HIDDEN***"], err := GoError.EOF } ∧
    (∃ y, runChain keyThenSecretChain
          { lines := ["a\r", "secret\r", "key\r", "secret\r"], err := GoError.EOF } = some y ∧
        runChain keyThenSecretChain y = some y) :=
  ⟨by decide, by decide, keyThenSecretChain_settles, keyThenSecretChain_apart, by decide,
    runChain_idempotent keyThenSecretChain
      { lines := ["a\r", "secret\r", "key\r", "secret\r"], err := GoError.EOF }
      (by decide) (by decide) keyThenSecretChain_settles keyThenSecretChain_apart⟩

/-- None of the conditions on the chain and on the stream can go. (1) A later stage that
makes a line an earlier stage changes: `maskDropStage`, then `secretStage`, on `secret`.
(2) A multi-line stage that loses the final line: `keySecretStage`, then `vSecretStage`,
on `key`, `v`, `key`, `w`. (3) A multi-line stage on the empty stream: `blankStage`.
(4) A line that still ends in a carriage return when it is read: `secretStage` on a line
that ends in two of them. -/
theorem runChain_conditions_needed :
    (runChain [LineStage.single maskDropStage, LineStage.single secretStage]
        { lines := ["secret"], err := GoError.EOF } =
        some { lines := ["***HIDDEN***"], err := GoError.EOF } ∧
      runChain [LineStage.single maskDropStage, LineStage.single secretStage]
        { lines := ["***HIDDEN***"], err := GoError.EOF } =
        some { lines := [""], err := GoError.EOF }) ∧
    (runChain [LineStage.multi keySecretStage, LineStage.multi vSecretStage]
        { lines := ["key", "v", "key", "w"], err := GoError.EOF } =
        some { lines := ["key", "v", "key"], err := GoError.EOF } ∧
      runChain [LineStage.multi keySecretStage, LineStage.multi vSecretStage]
        { lines := ["key", "v", "key"], err := GoError.EOF } =
        some { lines := ["key", "v"], err := GoError.EOF }) ∧
    (runChain [LineStage.multi blankStage] { lines := [], err := GoError.EOF } =
        some { lines := ["", ""], err := GoError.EOF } ∧
      runChain [LineStage.multi blankStage] { lines := ["", ""], err := GoError.EOF } =
        some { lines := ["", "***HIDDEN***"], err := GoError.EOF }) ∧
    (runChain [LineStage.single secretStage] { lines := ["a\r\r"], err := GoError.EOF } =
        some { lines := ["a\r"], err := GoError.EOF } ∧
      runChain [LineStage.single secretStage] { lines := ["a\r"], err := GoError.EOF } =
        some { lines := ["a"], err := GoError.EOF }) := by
  decide

end redact
